import Mathlib

/-!
Implicit (backward Euler) solver for the one-dimensional heat equation.

A shallow embedding of `heat-implicit.c`: the tridiagonal solver `trisolve`,
the error measure `get_error`, the mesh writer `plot_curve`, the marching
engine `heat_implicit` and the argument handling of `main`.

Conventions of the embedding.

* A C `double *` is a map `Nat → K` from offsets to values, `K` an ordered
  field standing for exact arithmetic (`ℚ` when a definition is evaluated).
  A store `p[i] = e` is `setAt p i e`; a pointer `p + 1` is `shiftPtr p`.
* A `for` loop is a function giving the state after a number of iterations.
* `int` quantities that the program requires to be non-negative (`n`, `steps`,
  loop counters) are natural numbers in the definitions of the numerical
  method. The section "heat_implicit with machine integers and allocation"
  wraps them into `heat_implicit_run`, where `n`, `steps` and the counter `k`
  are 32-bit `int` values and `make_vector` may end the process; the theorem
  `heat_implicit_run_finished` shows that inside the range of `int`, with the
  allocations granted, it returns what `heat_implicit` returns.
* Division follows the field: where the C program would divide by zero the
  embedding yields `0`, so statements about quotients carry the hypothesis
  that the divisor is not zero wherever that matters.

A second embedding of `trisolve` and `heat_implicit` runs on checked memory
(section "Checked memory"): buffers are allocated blocks, pointers may name
the same block, and an access outside a block yields `none`. It carries the
statements about aliasing, about what a call leaves unchanged and about
indices staying in range. The theorem `heat_implicitM_refines` shows that on
buffers of the allocated sizes both embeddings return the same result.

The test problem `heat1` of `problem-spec.c` is stated over the real numbers.
-/

set_option linter.unusedSectionVars false
set_option linter.unusedVariables false

namespace HeatImplicit

variable {K : Type} [LinearOrderedField K]

/-! ## Memory -/

/-- The store `p[i] = v`. -/
def setAt (p : Nat → K) (i : Nat) (v : K) : Nat → K :=
  fun j => if j = i then v else p j

/-- The pointer `p + 1`: offset `i` of the result is offset `i + 1` of `p`. -/
def shiftPtr (p : Nat → K) : Nat → K :=
  fun i => p (i + 1)

/-- Writes made through `p + 1` seen from `p`: cell `0` of `p` keeps its value,
cell `j + 1` holds what was stored at offset `j` of `p + 1`. -/
def unshiftPtr (p q : Nat → K) : Nat → K :=
  fun j => if j = 0 then p 0 else q (j - 1)

/-! ## trisolve -/

/-- One pass of the body of the elimination loop of `trisolve` at index `i`:
`m = a[i-1]/d[i-1]; d[i] -= m*c[i-1]; b[i] -= m*b[i-1]`. -/
def elimBody (a c : Nat → K) (i : Nat) (s : (Nat → K) × (Nat → K)) :
    (Nat → K) × (Nat → K) :=
  let m := a (i - 1) / s.1 (i - 1)
  (setAt s.1 i (s.1 i - m * c (i - 1)), setAt s.2 i (s.2 i - m * s.2 (i - 1)))

/-- The pair `(d, b)` after the first `k` passes of the elimination loop
`for (i = 1; i < n; i++)`, that is after the passes `i = 1, ..., k`. -/
def forwardSweep (a c d b : Nat → K) : Nat → (Nat → K) × (Nat → K)
  | 0 => (d, b)
  | k + 1 => elimBody a c (k + 1) (forwardSweep a c d b k)

/-- The loop `for (i = k-1; i >= 0; i--) x[i] = (b[i] - c[i]*x[i+1])/d[i]`;
`trisolve` runs it with `k = n - 1`. -/
def backSubst (c d b : Nat → K) : Nat → (Nat → K) → (Nat → K)
  | 0, x => x
  | k + 1, x => backSubst c d b k (setAt x k ((b k - c k * x (k + 1)) / d k))

/-- The buffers `d`, `b` and `x` when `trisolve` returns. -/
structure TriResult (K : Type) where
  d : Nat → K
  b : Nat → K
  x : Nat → K

/-- The function `trisolve(n, a, d, c, b, x)` for `n ≥ 1`, with `x` a buffer
separate from `d` and `b`. -/
def trisolve (n : Nat) (a d c b x : Nat → K) : TriResult K :=
  let s := forwardSweep a c d b (n - 1)
  let x1 := setAt x (n - 1) (s.2 (n - 1) / s.1 (n - 1))
  { d := s.1, b := s.2, x := backSubst c s.1 s.2 (n - 1) x1 }

/-- Row `i` of the product `A * x` for the tridiagonal matrix `A` drawn in the
header comment of `trisolve`: sub-diagonal `a`, diagonal `d`, super-diagonal
`c`, entries outside the `n × n` matrix absent. -/
def triRow (n : Nat) (a d c x : Nat → K) (i : Nat) : K :=
  (if 0 < i then a (i - 1) * x (i - 1) else 0) + d i * x i +
    (if i + 1 < n then c i * x (i + 1) else 0)

/-- Read a list as a buffer; cells past the end hold `0`. -/
def ofList (l : List K) : Nat → K :=
  fun i => l.getD i 0

/-- The sub-diagonal `[1, 1]` of the closed-form check with `n = 3`. -/
def checkA : Nat → ℚ := ofList [1, 1]

/-- The diagonal `[4, 4, 4]` of the closed-form check. -/
def checkD : Nat → ℚ := ofList [4, 4, 4]

/-- The super-diagonal `[1, 1]` of the closed-form check. -/
def checkC : Nat → ℚ := ofList [1, 1]

/-- The right-hand side `[5, 10, 9]` of the closed-form check. -/
def checkB : Nat → ℚ := ofList [5, 10, 9]

/-- A weakly diagonally dominant system with `n = 2` that has no solution:
sub-diagonal `[1]`, diagonal `[1, 1]`, super-diagonal `[1]`. -/
def flatA : Nat → ℚ := ofList [1]

/-- The diagonal `[1, 1]` of the system without solution. -/
def flatD : Nat → ℚ := ofList [1, 1]

/-- The super-diagonal `[1]` of the system without solution. -/
def flatC : Nat → ℚ := ofList [1]

/-- The right-hand side `[1, 2]` of the system without solution. -/
def flatB : Nat → ℚ := ofList [1, 2]

/-! ## Problem specification -/

/-- The record `struct problem_spec` of `problem-spec.h`; a `NULL` pointer
`u_exact` is `none`. -/
structure problem_spec (K : Type) where
  a : K
  b : K
  ic : K → K
  bcL : K → K
  bcR : K → K
  u_exact : Option (K → K → K)

/-- The grid point `spec->a + (spec->b - spec->a)/(n+1)*j` computed in
`get_error` and in `heat_implicit`. -/
def gridPoint (spec : problem_spec K) (n j : Nat) : K :=
  spec.a + (spec.b - spec.a) / ((n + 1 : Nat) : K) * (j : K)

/-- A specification on `[0, 1]` whose initial condition is `0` everywhere
while both boundary functions are `1` at all times. -/
def coldStart : problem_spec ℚ :=
  { a := 0, b := 1, ic := fun _ => 0, bcL := fun _ => 1, bcR := fun _ => 1, u_exact := none }

/-- The specification `coldStart` with the exact solution `u(x, t) = x`. -/
def rampExact : problem_spec ℚ :=
  { a := 0, b := 1, ic := fun _ => 0, bcL := fun _ => 1, bcR := fun _ => 1,
    u_exact := some fun x _ => x }

/-! ## get_error -/

/-- The body of the loop of `get_error` at index `j`, acting on `err`. -/
def errBody (spec : problem_spec K) (exact : K → K → K) (u : Nat → K) (n : Nat) (T : K)
    (j : Nat) (err : K) : K :=
  let x := gridPoint spec n j
  let diff := |u j - exact x T|
  if diff > err then diff else err

/-- The variable `err` of `get_error` after the passes `j = 0, ..., k - 1`;
it starts at `0.0`. -/
def errLoop (spec : problem_spec K) (exact : K → K → K) (u : Nat → K) (n : Nat) (T : K) :
    Nat → K
  | 0 => 0
  | k + 1 => errBody spec exact u n T k (errLoop spec exact u n T k)

/-- The function `get_error(spec, u, n, T)`. It calls `spec->u_exact`, so
there is no result when that pointer is `NULL`. -/
def get_error (spec : problem_spec K) (u : Nat → K) (n : Nat) (T : K) : Option K :=
  match spec.u_exact with
  | none => none
  | some exact => some (errLoop spec exact u n T (n + 2))

/-! ## Mesh output -/

/-- A line written to the Geomview file: the leading comment, the line
opening the `appearance` block, the header `MESH cols rows` with the two `int`
values printed, a data line with its three numbers, and the closing brace. -/
inductive Line (K : Type) where
  | comment : Line K
  | appearance : Line K
  | mesh (cols rows : Int) : Line K
  | data (t x u : K) : Line K
  | close : Line K

/-- Whether a line is a data line. -/
def Line.isData : Line K → Bool
  | Line.data _ _ _ => true
  | _ => false

/-- The function `plot_curve(fp, u, n, steps, k)`: the lines it appends to
the file, one for each `j = 0, ..., n + 1`. -/
def plot_curve (u : Nat → K) (n steps k : Nat) : List (Line K) :=
  (List.range (n + 2)).map fun (j : Nat) =>
    Line.data ((k : K) / (steps : K)) ((j : K) / ((n + 1 : Nat) : K)) (u j)

/-! ## heat_implicit -/

/-- The buffer `p` after the first `k` passes of a loop
`for (j = 0; j < cnt; j++) p[j] = f(j)`. -/
def fillLoop (f : Nat → K) (p : Nat → K) : Nat → (Nat → K)
  | 0 => p
  | k + 1 => setAt (fillLoop f p k) k (f k)

/-- The variables of `heat_implicit` that change in the time loop: the buffers
behind the pointers `u`, `v` and `d`, and the lines written so far. -/
structure HeatState (K : Type) where
  u : Nat → K
  v : Nat → K
  d : Nat → K
  out : List (Line K)

/-- The local `dx` of `heat_implicit`. -/
def meshWidth (spec : problem_spec K) (n : Nat) : K :=
  (spec.b - spec.a) / ((n + 1 : Nat) : K)

/-- The local `r = dt/(dx*dx)` of `heat_implicit`, with `dt = T/steps`. -/
def meshRatio (spec : problem_spec K) (T : K) (n steps : Nat) : K :=
  (T / (steps : K)) / (meshWidth spec n * meshWidth spec n)

/-- The time `t = T*k/steps` of step `k`. -/
def stepTime (T : K) (steps k : Nat) : K :=
  T * (k : K) / (steps : K)

/-- The buffer `v` after `v[0] = spec->bcL(t); v[n+1] = spec->bcR(t)`. -/
def stageBoundary (spec : problem_spec K) (n : Nat) (t : K) (v : Nat → K) : Nat → K :=
  setAt (setAt v 0 (spec.bcL t)) (n + 1) (spec.bcR t)

/-- The buffer `u` after `u[1] += r*v[0]; u[n] += r*v[n+1]`. -/
def foldBoundary (n : Nat) (r : K) (u v : Nat → K) : Nat → K :=
  let u1 := setAt u 1 (u 1 + r * v 0)
  setAt u1 n (u1 n + r * v (n + 1))

/-- The buffer `d` after `for (i = 0; i < n; i++) d[i] = 1 + 2*r`. -/
def stepDiag (n : Nat) (r : K) (d : Nat → K) : Nat → K :=
  fillLoop (fun _ => 1 + 2 * r) d n

/-- The body of the time loop of `heat_implicit` at step `k`; `r` and the
buffer `c` are the locals set before the loop. The solver receives `c` both
as sub-diagonal and as super-diagonal, `u + 1` as right-hand side and `v + 1`
as output; then the pointers `u` and `v` are exchanged and the new `u` is
plotted. -/
def stepBody (spec : problem_spec K) (T : K) (n steps : Nat) (r : K) (c : Nat → K)
    (k : Nat) (s : HeatState K) : HeatState K :=
  let v2 := stageBoundary spec n (stepTime T steps k) s.v
  let u2 := foldBoundary n r s.u v2
  let d1 := stepDiag n r s.d
  let res := trisolve n c d1 c (shiftPtr u2) (shiftPtr v2)
  let u3 := unshiftPtr u2 res.b
  let v3 := unshiftPtr v2 res.x
  { u := v3, v := u3, d := res.d, out := s.out ++ plot_curve v3 n steps k }

/-- The state after the first `k` passes of the time loop
`for (k = 1; k <= steps; k++)`. -/
def marchLoop (spec : problem_spec K) (T : K) (n steps : Nat) (r : K) (c : Nat → K)
    (s0 : HeatState K) : Nat → HeatState K
  | 0 => s0
  | k + 1 => stepBody spec T n steps r c (k + 1) (marchLoop spec T n steps r c s0 k)

/-- The state of `heat_implicit` on entry to the time loop, for a file that
opened: three header lines written, `u` seeded from the initial condition and
plotted as block `0`. The arguments `u0`, `v0`, `d0` stand for the contents of
the freshly allocated buffers. -/
def heatStart (spec : problem_spec K) (n steps : Nat) (u0 v0 d0 : Nat → K) : HeatState K :=
  let u := fillLoop (fun j => spec.ic (gridPoint spec n j)) u0 (n + 2)
  { u := u, v := v0, d := d0,
    out := [Line.comment, Line.appearance, Line.mesh ((n : Int) + 2) ((steps : Int) + 1)] ++
      plot_curve u n steps 0 }

/-- The buffer `c` of `heat_implicit` after `for (j = 0; j < n-1; j++) c[j] = -r`. -/
def heatOffDiag (spec : problem_spec K) (T : K) (n steps : Nat) (c0 : Nat → K) : Nat → K :=
  fillLoop (fun _ => -(meshRatio spec T n steps)) c0 (n - 1)

/-- The state of `heat_implicit` after `k` time steps. -/
def heatLoop (spec : problem_spec K) (T : K) (n steps : Nat) (u0 v0 d0 c0 : Nat → K)
    (k : Nat) : HeatState K :=
  marchLoop spec T n steps (meshRatio spec T n steps) (heatOffDiag spec T n steps c0)
    (heatStart spec n steps u0 v0 d0) k

/-- What a run of `heat_implicit` leaves behind: the lines of the Geomview
file and the error it prints, if the specification has an exact solution. -/
structure HeatResult (K : Type) where
  file : List (Line K)
  err : Option K

/-- The function `heat_implicit(spec, T, n, steps, gv_filename)` for `n ≥ 1`,
on the path where `n + 2` and `steps + 1` stay inside the range of `int` and
the four calls of `make_vector` are granted; the other paths are in
`heat_implicit_run`. The flag `fopen_ok` says whether `fopen` succeeded; when
it did not the function returns before writing anything. -/
def heat_implicit (spec : problem_spec K) (T : K) (n steps : Nat) (fopen_ok : Bool)
    (u0 v0 d0 c0 : Nat → K) : Option (HeatResult K) :=
  if fopen_ok then
    let s := heatLoop spec T n steps u0 v0 d0 c0 steps
    some { file := s.out ++ [Line.close], err := get_error spec s.u n T }
  else none

/-- The data lines of a file, in the order written. -/
def dataLines (file : List (Line K)) : List (Line K) :=
  file.filter Line.isData

/-- The value on data line `k * (n + 2) + j` of a file, that is at place `j`
of row block `k` when the blocks have `n + 2` lines. -/
def rowValue (file : List (Line K)) (n k j : Nat) : Option K :=
  match (dataLines file)[k * (n + 2) + j]? with
  | some (Line.data _ _ u) => some u
  | _ => none

/-- The largest of `|f lo|, ..., |f (lo + m)|`. -/
def maxAbs (f : Nat → K) (lo : Nat) : Nat → K
  | 0 => |f lo|
  | m + 1 => max (maxAbs f lo m) |f (lo + (m + 1))|

/-! ## Diagonal dominance -/

/-- Row `i` of the matrix is diagonally dominant in the weak sense:
`|d[i]| ≥ |a[i-1]| + |c[i]|`, an absent neighbour counted as `0`. -/
def rowDominant (n : Nat) (a d c : Nat → K) (i : Nat) : Prop :=
  (if 0 < i then |a (i - 1)| else 0) + (if i + 1 < n then |c i| else 0) ≤ |d i|

/-- Row `i` of the matrix is strictly diagonally dominant. -/
def rowStrictDominant (n : Nat) (a d c : Nat → K) (i : Nat) : Prop :=
  (if 0 < i then |a (i - 1)| else 0) + (if i + 1 < n then |c i| else 0) < |d i|

/-! ## main -/

/-- The C library's `isspace` in the "C" locale: space and the control
characters `\t`, `\n`, `\v`, `\f`, `\r`. -/
def isspace (ch : Char) : Bool :=
  ch.toNat = 32 || (9 ≤ ch.toNat && ch.toNat ≤ 13)

/-- The number written by a list of decimal digits. -/
def decValue (ds : List Char) : Nat :=
  ds.foldl (fun acc ch => 10 * acc + (ch.toNat - 48)) 0

/-- An optional sign at the head of a string: whether it is `-`, and the rest. -/
def takeSign : List Char → Bool × List Char
  | ch :: t => if ch = '-' then (true, t) else if ch = '+' then (false, t) else (false, ch :: t)
  | [] => (false, [])

/-- The C library's `strtol(s, &endptr, 10)` with a 64-bit `long`: the value
returned and the string `endptr` points to. White space is skipped, a sign is
optional, then come decimal digits; with no digit nothing is converted, the
value is `0` and `endptr` is `s` itself; a value out of range is replaced by
`LONG_MAX` or `LONG_MIN`. -/
def strtol (s : List Char) : Int × List Char :=
  let p := takeSign (s.dropWhile isspace)
  let q := p.2.span Char.isDigit
  if q.1 = [] then (0, s)
  else
    let v : Int := if p.1 then -(decValue q.1 : Int) else (decValue q.1 : Int)
    (max (-(2 : Int) ^ 63) (min v ((2 : Int) ^ 63 - 1)), q.2)

/-- The conversion of a `long` to `int` done by the assignments
`n = strtol(...)` and `steps = strtol(...)`: reduction modulo `2^32` into the
range of a 32-bit `int`. -/
def longToInt (v : Int) : Int :=
  (v + 2 ^ 31) % 2 ^ 32 - 2 ^ 31

/-- The exponent part of a decimal floating constant: an `e` or `E`, an
optional sign and at least one digit. Returns the exponent and the rest of the
string; when the part is absent or incomplete the exponent is `0` and
nothing is consumed. -/
def takeExponent (s : List Char) : Int × List Char :=
  match s with
  | ch :: t =>
    if ch = 'e' ∨ ch = 'E' then
      let p := takeSign t
      let q := p.2.span Char.isDigit
      if q.1 = [] then (0, s)
      else (if p.1 then -(decValue q.1 : Int) else (decValue q.1 : Int), q.2)
    else (0, s)
  | [] => (0, s)

/-- The C library's `strtod(s, &endptr)` on decimal input, with the value kept
exact: white space, an optional sign, digits with an optional point, an
optional exponent. With no digit nothing is converted, the value is `0` and
`endptr` is `s` itself. The forms `inf`, `nan` and hexadecimal constants, and
the rounding to a `double`, are outside this model. -/
def strtod (s : List Char) : ℚ × List Char :=
  let p := takeSign (s.dropWhile isspace)
  let ip := p.2.span Char.isDigit
  let fp : List Char × List Char :=
    match ip.2 with
    | ch :: t => if ch = '.' then t.span Char.isDigit else ([], ip.2)
    | [] => ([], ip.2)
  if ip.1 = [] ∧ fp.1 = [] then (0, s)
  else
    let mant : ℚ := (decValue (ip.1 ++ fp.1) : ℚ) / (10 : ℚ) ^ fp.1.length
    let ex := takeExponent fp.2
    ((if p.1 then -mant else mant) * (10 : ℚ) ^ ex.1, ex.2)

/-- How `main` ends: through `show_usage`, which prints the usage text for the
program name and calls `exit(1)`, or by calling `heat_implicit(heat1(), T, n,
steps, "im1.gv")` and returning `EXIT_SUCCESS`. -/
inductive MainResult where
  | usage (progname : List Char) : MainResult
  | invoked (T : ℚ) (n steps : Int) : MainResult
  deriving DecidableEq

/-- The function `main(argc, argv)`; `argv` lists the argument strings, the
program name first, and `argc` is its length. The test `*endptr != 0` is the
test that the rest of the string is not empty. -/
def main (argv : List (List Char)) : MainResult :=
  let progname := argv.headD []
  if argv.length ≠ 4 then MainResult.usage progname
  else
    let T := strtod (argv.getD 1 [])
    if T.2 ≠ [] ∨ T.1 ≤ 0 then MainResult.usage progname
    else
      let n := strtol (argv.getD 2 [])
      if n.2 ≠ [] ∨ longToInt n.1 < 1 then MainResult.usage progname
      else
        let steps := strtol (argv.getD 3 [])
        if steps.2 ≠ [] ∨ longToInt steps.1 < 0 then MainResult.usage progname
        else MainResult.invoked T.1 (longToInt n.1) (longToInt steps.1)

/-! ## Checked memory

A second embedding of `trisolve` and `heat_implicit`, over a memory made of
allocated blocks. A pointer names a block and an offset into it, so two
pointer arguments may name the same buffer; every access checks that the cell
lies inside the block and fails with `none` when it does not. -/

/-- A pointer into an allocated block. -/
structure Ptr where
  blk : Nat
  off : Nat

/-- The pointer `p + k`. -/
def Ptr.shift (p : Ptr) (k : Nat) : Ptr :=
  { blk := p.blk, off := p.off + k }

/-- The read `p[i]`; `none` when the cell is outside the block. -/
def load (m : Nat → List K) (p : Ptr) (i : Nat) : Option K :=
  (m p.blk)[p.off + i]?

/-- The store `p[i] = v`; `none` when the cell is outside the block. -/
def store (m : Nat → List K) (p : Ptr) (i : Nat) (v : K) : Option (Nat → List K) :=
  if p.off + i < (m p.blk).length then
    some fun blk => if blk = p.blk then (m blk).set (p.off + i) v else m blk
  else none

/-- One pass of the elimination loop of `trisolve` at index `i`, on checked
memory. -/
def elimBodyM (a d c b : Ptr) (i : Nat) (m : Nat → List K) : Option (Nat → List K) := do
  let ai ← load m a (i - 1)
  let dp ← load m d (i - 1)
  let di ← load m d i
  let cp ← load m c (i - 1)
  let m1 ← store m d i (di - ai / dp * cp)
  let bi ← load m1 b i
  let bp ← load m1 b (i - 1)
  store m1 b i (bi - ai / dp * bp)

/-- The memory after the passes `i = 1, ..., k` of the elimination loop. -/
def forwardSweepM (a d c b : Ptr) : Nat → (Nat → List K) → Option (Nat → List K)
  | 0, m => some m
  | k + 1, m => (forwardSweepM a d c b k m).bind (elimBodyM a d c b (k + 1))

/-- The loop `for (i = k-1; i >= 0; i--) x[i] = (b[i] - c[i]*x[i+1])/d[i]` on
checked memory. -/
def backSubstM (d c b x : Ptr) : Nat → (Nat → List K) → Option (Nat → List K)
  | 0, m => some m
  | k + 1, m => do
    let bi ← load m b k
    let ci ← load m c k
    let xn ← load m x (k + 1)
    let di ← load m d k
    let m1 ← store m x k ((bi - ci * xn) / di)
    backSubstM d c b x k m1

/-- The function `trisolve(n, a, d, c, b, x)` on checked memory, for `n ≥ 1`
and pointer arguments that may coincide. -/
def trisolveM (n : Nat) (a d c b x : Ptr) (m : Nat → List K) : Option (Nat → List K) := do
  let m1 ← forwardSweepM a d c b (n - 1) m
  let bl ← load m1 b (n - 1)
  let dl ← load m1 d (n - 1)
  let m2 ← store m1 x (n - 1) (bl / dl)
  backSubstM d c b x (n - 1) m2

/-- The memory after the first `k` passes of a loop
`for (j = 0; j < cnt; j++) p[j] = f(j)`, on checked memory. -/
def fillLoopM (f : Nat → K) (p : Ptr) : Nat → (Nat → List K) → Option (Nat → List K)
  | 0, m => some m
  | k + 1, m => (fillLoopM f p k m).bind fun m1 => store m1 p k (f k)

/-- The lines written by the first `j` passes of the loop of `plot_curve`, on
checked memory. -/
def plotLoopM (m : Nat → List K) (u : Ptr) (n steps k : Nat) : Nat → Option (List (Line K))
  | 0 => some []
  | j + 1 => do
    let ls ← plotLoopM m u n steps k j
    let uj ← load m u j
    some (ls ++ [Line.data ((k : K) / (steps : K)) ((j : K) / ((n + 1 : Nat) : K)) uj])

/-- The variables of `heat_implicit` that change in the time loop, on checked
memory: the memory, the pointers `u` and `v`, and the lines written so far. -/
structure HeatMem (K : Type) where
  mem : Nat → List K
  u : Ptr
  v : Ptr
  out : List (Line K)

/-- The body of the time loop of `heat_implicit` at step `k` on checked
memory; `d` and `c` are the pointers to the diagonal and to the off-diagonal
buffer. After the solve the pointers `u` and `v` are exchanged. -/
def stepBodyM (spec : problem_spec K) (T : K) (n steps : Nat) (r : K) (d c : Ptr)
    (k : Nat) (s : HeatMem K) : Option (HeatMem K) := do
  let t := stepTime T steps k
  let m1 ← store s.mem s.v 0 (spec.bcL t)
  let m2 ← store m1 s.v (n + 1) (spec.bcR t)
  let u1 ← load m2 s.u 1
  let v0 ← load m2 s.v 0
  let m3 ← store m2 s.u 1 (u1 + r * v0)
  let un ← load m3 s.u n
  let vl ← load m3 s.v (n + 1)
  let m4 ← store m3 s.u n (un + r * vl)
  let m5 ← fillLoopM (fun _ => 1 + 2 * r) d n m4
  let m6 ← trisolveM n c d c (s.u.shift 1) (s.v.shift 1) m5
  let ls ← plotLoopM m6 s.v n steps k (n + 2)
  some { mem := m6, u := s.v, v := s.u, out := s.out ++ ls }

/-- The state after the first `k` passes of the time loop, on checked memory. -/
def marchLoopM (spec : problem_spec K) (T : K) (n steps : Nat) (r : K) (d c : Ptr)
    (s0 : HeatMem K) : Nat → Option (HeatMem K)
  | 0 => some s0
  | k + 1 => (marchLoopM spec T n steps r d c s0 k).bind (stepBodyM spec T n steps r d c (k + 1))

/-- The memory after the four calls of `make_vector`: block `0` is `u`, block
`1` is `v`, block `2` is `d`, block `3` is `c`, each with the contents the
allocator returned; no other block is allocated. -/
def heatAlloc (u0 v0 d0 c0 : List K) : Nat → List K :=
  fun blk =>
    if blk = 0 then u0 else if blk = 1 then v0 else if blk = 2 then d0
    else if blk = 3 then c0 else []

/-- The state of `heat_implicit` after `k` time steps, on checked memory, for
a file that opened: the buffers are allocated, `u` is seeded and plotted,
`c` is filled, then `k` passes of the time loop run. -/
def heatLoopM (spec : problem_spec K) (T : K) (n steps : Nat) (u0 v0 d0 c0 : List K)
    (k : Nat) : Option (HeatMem K) := do
  let r := meshRatio spec T n steps
  let pu : Ptr := { blk := 0, off := 0 }
  let pv : Ptr := { blk := 1, off := 0 }
  let pd : Ptr := { blk := 2, off := 0 }
  let pc : Ptr := { blk := 3, off := 0 }
  let m1 ← fillLoopM (fun j => spec.ic (gridPoint spec n j)) pu (n + 2) (heatAlloc u0 v0 d0 c0)
  let ls ← plotLoopM m1 pu n steps 0 (n + 2)
  let m2 ← fillLoopM (fun _ => -r) pc (n - 1) m1
  marchLoopM spec T n steps r pd pc
    { mem := m2, u := pu, v := pv,
      out := [Line.comment, Line.appearance, Line.mesh ((n : Int) + 2) ((steps : Int) + 1)] ++ ls } k

/-- The variable `err` of `get_error` after the passes `j = 0, ..., k - 1`, on
checked memory. -/
def errLoopM (spec : problem_spec K) (exact : K → K → K) (m : Nat → List K) (u : Ptr)
    (n : Nat) (T : K) : Nat → Option K
  | 0 => some 0
  | k + 1 => do
    let err ← errLoopM spec exact m u n T k
    let uk ← load m u k
    let diff := |uk - exact (gridPoint spec n k) T|
    some (if diff > err then diff else err)

/-- The function `heat_implicit` on checked memory, for `n ≥ 1` and a file
that opened: `none` if some access falls outside its buffer. -/
def heat_implicitM (spec : problem_spec K) (T : K) (n steps : Nat) (u0 v0 d0 c0 : List K) :
    Option (HeatResult K) := do
  let s ← heatLoopM spec T n steps u0 v0 d0 c0 steps
  match spec.u_exact with
  | none => some { file := s.out ++ [Line.close], err := none }
  | some exact =>
    let e ← errLoopM spec exact s.mem s.u n T (n + 2)
    some { file := s.out ++ [Line.close], err := some e }

/-- The cells `p[0], ..., p[len - 1]` lie inside the block of `p`. -/
def Fits (m : Nat → List K) (p : Ptr) (len : Nat) : Prop :=
  p.off + len ≤ (m p.blk).length

/-- Two memories have the same blocks with the same sizes. -/
def SameShape (m m2 : Nat → List K) : Prop :=
  ∀ blk, (m2 blk).length = (m blk).length

/-- The cells `trisolve(n, a, d, c, b, x)` stores to: `d[1..n-1]`,
`b[1..n-1]` and `x[0..n-1]`, as a block and an index into it. -/
def TriWritten (n : Nat) (d b x : Ptr) (blk idx : Nat) : Prop :=
  (blk = d.blk ∧ d.off + 1 ≤ idx ∧ idx < d.off + n) ∨
  (blk = b.blk ∧ b.off + 1 ≤ idx ∧ idx < b.off + n) ∨
  (blk = x.blk ∧ x.off ≤ idx ∧ idx < x.off + n)

/-- The shape of the state of `heat_implicit` on checked memory: `u` and `v`
point to the start of the two blocks `0` and `1`, in either order, and the
blocks `0`, `1`, `2`, `3` hold `n + 2`, `n + 2`, `n` and `n - 1` cells. -/
def HeatInv (n : Nat) (s : HeatMem K) : Prop :=
  s.u.off = 0 ∧ s.v.off = 0 ∧ s.u.blk < 2 ∧ s.v.blk < 2 ∧ s.u.blk ≠ s.v.blk ∧
  (s.mem 0).length = n + 2 ∧ (s.mem 1).length = n + 2 ∧ (s.mem 2).length = n ∧
  (s.mem 3).length = n - 1

/-- A memory holding the closed-form check with `n = 3`: block `0` is
`a = [1, 1]`, block `1` is `d = [4, 4, 4]`, block `2` is `c = [1, 1]`, block
`3` is `b = [5, 10, 9]` and block `4` is an output buffer of three cells. -/
def checkMem : Nat → List ℚ :=
  fun blk =>
    if blk = 0 then [1, 1] else if blk = 1 then [4, 4, 4] else if blk = 2 then [1, 1]
    else if blk = 3 then [5, 10, 9] else if blk = 4 then [0, 0, 0] else []

/-! ## The test problem heat1

The problem of `problem-spec.c` in exact real arithmetic; the functions `exp`,
`cos` and `atan` of the C library are the real exponential, cosine and
arctangent. -/

/-- The local `Pi = 4 * atan(1.0)` of `heat1_exact`. -/
noncomputable def Pi : ℝ := 4 * Real.arctan 1

/-- The function `heat1_exact(x, t)`. -/
noncomputable def heat1_exact (x t : ℝ) : ℝ :=
  Real.exp (-Pi * Pi / 4 * t) * Real.cos (Pi / 2 * x)

/-- The function `heat1_ic(x)`. -/
noncomputable def heat1_ic (x : ℝ) : ℝ := heat1_exact x 0

/-- The function `heat1_bcL(t)`. -/
noncomputable def heat1_bcL (t : ℝ) : ℝ := heat1_exact (-1) t

/-- The function `heat1_bcR(t)`. -/
noncomputable def heat1_bcR (t : ℝ) : ℝ := heat1_exact 1 t

/-- The specification returned by `heat1()`. -/
noncomputable def heat1 : problem_spec ℝ :=
  { a := -1, b := 1, ic := heat1_ic, bcL := heat1_bcL, bcR := heat1_bcR,
    u_exact := some heat1_exact }

/-- The grid function `sin(π j / (n + 1))`, `j = 0..n+1`: the values of
`cos(π x / 2)` at the grid points of `[-1, 1]`. -/
noncomputable def sineMode (n j : Nat) : ℝ :=
  Real.sin (Real.pi / ((n + 1 : Nat) : ℝ) * (j : ℝ))

/-- The factor `1 + r (2 - 2 cos(π / (n + 1)))` by which one backward Euler
step of `heat1` with `s` steps divides the grid function `sineMode`. -/
noncomputable def heat1Growth (T : ℝ) (n s : Nat) : ℝ :=
  1 + meshRatio heat1 T n s * (2 - 2 * Real.cos (Real.pi / ((n + 1 : Nat) : ℝ)))

/-- The buffer seen through a pointer: cell `i` is `p[i]`, and `0` where the
block ends. It links checked memory to the embedding with buffers as maps. -/
def viewOf (m : Nat → List K) (p : Ptr) : Nat → K :=
  fun i => ((m p.blk)[p.off + i]?).getD 0

/-! ## heat_implicit with machine integers and allocation

The definitions above take `n` and `steps` as natural numbers and the four
buffers as given. The definitions of this section add what `heat_implicit`
does around that: `n`, `steps` and the loop counter `k` are 32-bit `int`
values, whose arithmetic is reduced modulo `2^32`, and each `make_vector`
calls `malloc_or_exit`, which ends the process when `malloc` returns `NULL`. -/

/-- The value of an `int` expression: the exact result reduced modulo `2^32`
into the range of a 32-bit `int`. -/
def wrapInt (v : Int) : Int :=
  (v + 2 ^ 31) % 2 ^ 32 - 2 ^ 31

/-- The argument `(n) * sizeof *(v)` that `make_vector(v, n)` passes to
`xmalloc` for a vector of `double`: the `int` count converted to a 64-bit
`size_t` and multiplied by `8` modulo `2^64`. -/
def vectorBytes (count : Int) : Nat :=
  ((count % 2 ^ 64).toNat * 8) % 2 ^ 64

/-- Whether call number `i` of `malloc`, for `size` bytes, returns a block:
the environment decides (`malloc_ok i`), but no request of `2^63` bytes or
more is ever granted. -/
def mallocSucceeds (malloc_ok : Nat → Bool) (i size : Nat) : Bool :=
  malloc_ok i && decide (size < 2 ^ 63)

/-- How a call of `heat_implicit` ends: it returns at once because the file
did not open; or `malloc_or_exit` calls `exit(EXIT_FAILURE)`, which leaves in
the file the lines written until then; or it runs to its end. -/
inductive Outcome (K : Type) where
  | unopened : Outcome K
  | exited (file : List (Line K)) : Outcome K
  | finished (res : HeatResult K) : Outcome K

/-- The time `t = T*k/steps` for `int` values `k` and `steps`. -/
def stepTimeZ (T : K) (steps k : Int) : K :=
  T * (k : K) / (steps : K)

/-- The local `r = dt/(dx*dx)` with `dt = T/steps` for an `int` value `steps`. -/
def meshRatioZ (spec : problem_spec K) (T : K) (n : Nat) (steps : Int) : K :=
  (T / (steps : K)) / (meshWidth spec n * meshWidth spec n)

/-- The function `plot_curve(fp, u, n, steps, k)` for `int` values `steps` and
`k`. -/
def plot_curveZ (u : Nat → K) (n : Nat) (steps k : Int) : List (Line K) :=
  (List.range (n + 2)).map fun (j : Nat) =>
    Line.data ((k : K) / (steps : K)) ((j : K) / ((n + 1 : Nat) : K)) (u j)

/-- The body of the time loop of `heat_implicit` at step `k`, for `int` values
`steps` and `k`. -/
def stepBodyZ (spec : problem_spec K) (T : K) (n : Nat) (steps : Int) (r : K) (c : Nat → K)
    (k : Int) (s : HeatState K) : HeatState K :=
  let v2 := stageBoundary spec n (stepTimeZ T steps k) s.v
  let u2 := foldBoundary n r s.u v2
  let d1 := stepDiag n r s.d
  let res := trisolve n c d1 c (shiftPtr u2) (shiftPtr v2)
  let u3 := unshiftPtr u2 res.b
  let v3 := unshiftPtr v2 res.x
  { u := v3, v := u3, d := res.d, out := s.out ++ plot_curveZ v3 n steps k }

/-- The time loop `for (k = ...; k <= steps; k++)` with the counter an `int`:
started at `k` in state `s`, it runs at most `fuel` passes and returns the
state on leaving the loop, or `none` when it is still running after `fuel`
passes. The increment `k++` is reduced modulo `2^32`. -/
def marchLoopZ (spec : problem_spec K) (T : K) (n : Nat) (steps : Int) (r : K) (c : Nat → K) :
    Nat → Int → HeatState K → Option (HeatState K)
  | 0, k, s => if k ≤ steps then none else some s
  | fuel + 1, k, s =>
    if k ≤ steps then
      marchLoopZ spec T n steps r c fuel (wrapInt (k + 1)) (stepBodyZ spec T n steps r c k s)
    else some s

/-- The function `heat_implicit(spec, T, n, steps, gv_filename)` with `int`
arguments `n` and `steps`. When the file opens the three header lines are
written, the header with the `int` values `n+2` and `steps+1`; then the four
vectors are allocated, and a failing `malloc` ends the process with only
those lines in the file. Four successful allocations imply `1 ≤ n` and
`n + 2 < 2^31`, so from there on `n` is the natural number `n.toNat` and no
counter but `k` can overflow. The result is `none` when the time loop is
still running after `fuel` passes. -/
def heat_implicit_run (spec : problem_spec K) (T : K) (n steps : Int) (fopen_ok : Bool)
    (malloc_ok : Nat → Bool) (fuel : Nat) (u0 v0 d0 c0 : Nat → K) : Option (Outcome K) :=
  if fopen_ok then
    let hdr := [Line.comment, Line.appearance, Line.mesh (wrapInt (n + 2)) (wrapInt (steps + 1))]
    if mallocSucceeds malloc_ok 0 (vectorBytes (wrapInt (n + 2))) &&
        mallocSucceeds malloc_ok 1 (vectorBytes (wrapInt (n + 2))) &&
        mallocSucceeds malloc_ok 2 (vectorBytes n) &&
        mallocSucceeds malloc_ok 3 (vectorBytes (wrapInt (n - 1))) then
      let m := n.toNat
      let r := meshRatioZ spec T m steps
      let u := fillLoop (fun j => spec.ic (gridPoint spec m j)) u0 (m + 2)
      let c := fillLoop (fun _ => -r) c0 (m - 1)
      match marchLoopZ spec T m steps r c fuel 1
          { u := u, v := v0, d := d0, out := hdr ++ plot_curveZ u m steps 0 } with
      | none => none
      | some s =>
        some (Outcome.finished { file := s.out ++ [Line.close], err := get_error spec s.u m T })
    else some (Outcome.exited hdr)
  else some Outcome.unopened

/-! ## Lemmas on memory -/

@[simp] theorem setAt_same (p : Nat → K) (i : Nat) (v : K) : setAt p i v i = v := by
  simp [setAt]

theorem setAt_other (p : Nat → K) (i : Nat) (v : K) (j : Nat) (h : j ≠ i) :
    setAt p i v j = p j := by
  simp [setAt, h]

theorem fillLoop_apply (f p : Nat → K) (k j : Nat) :
    fillLoop f p k j = if j < k then f j else p j := by
  induction k with
  | zero => simp [fillLoop]
  | succ k ih =>
    simp only [fillLoop]
    by_cases hj : j = k
    · subst hj; simp
    · rw [setAt_other _ _ _ _ hj, ih]
      by_cases h1 : j < k
      · have h2 : j < k + 1 := by omega
        simp [h1, h2]
      · have h2 : ¬ j < k + 1 := by omega
        simp [h1, h2]

/-! ## The elimination loop -/

theorem forwardSweep_d_above (a c d b : Nat → K) (k j : Nat) (h : k < j) :
    (forwardSweep a c d b k).1 j = d j := by
  induction k with
  | zero => rfl
  | succ k ih =>
    simp only [forwardSweep, elimBody]
    rw [setAt_other _ _ _ _ (by omega), ih (by omega)]

theorem forwardSweep_b_above (a c d b : Nat → K) (k j : Nat) (h : k < j) :
    (forwardSweep a c d b k).2 j = b j := by
  induction k with
  | zero => rfl
  | succ k ih =>
    simp only [forwardSweep, elimBody]
    rw [setAt_other _ _ _ _ (by omega), ih (by omega)]

theorem forwardSweep_d_stable (a c d b : Nat → K) (k j : Nat) (h : j ≤ k) :
    (forwardSweep a c d b k).1 j = (forwardSweep a c d b j).1 j := by
  induction k with
  | zero =>
    have : j = 0 := by omega
    subst this; rfl
  | succ k ih =>
    by_cases hj : j = k + 1
    · subst hj; rfl
    · simp only [forwardSweep, elimBody]
      rw [setAt_other _ _ _ _ hj, ih (by omega)]

theorem forwardSweep_b_stable (a c d b : Nat → K) (k j : Nat) (h : j ≤ k) :
    (forwardSweep a c d b k).2 j = (forwardSweep a c d b j).2 j := by
  induction k with
  | zero =>
    have : j = 0 := by omega
    subst this; rfl
  | succ k ih =>
    by_cases hj : j = k + 1
    · subst hj; rfl
    · simp only [forwardSweep, elimBody]
      rw [setAt_other _ _ _ _ hj, ih (by omega)]

theorem forwardSweep_d_succ (a c d b : Nat → K) (i : Nat) :
    (forwardSweep a c d b (i + 1)).1 (i + 1) =
      d (i + 1) - a i / (forwardSweep a c d b i).1 i * c i := by
  simp only [forwardSweep, elimBody, setAt_same, Nat.add_sub_cancel]
  rw [forwardSweep_d_above a c d b i (i + 1) (by omega)]

theorem forwardSweep_b_succ (a c d b : Nat → K) (i : Nat) :
    (forwardSweep a c d b (i + 1)).2 (i + 1) =
      b (i + 1) - a i / (forwardSweep a c d b i).1 i * (forwardSweep a c d b i).2 i := by
  simp only [forwardSweep, elimBody, setAt_same, Nat.add_sub_cancel]
  rw [forwardSweep_b_above a c d b i (i + 1) (by omega)]

/-! ## Back-substitution -/

theorem backSubst_above (c d b : Nat → K) (k : Nat) (x : Nat → K) (j : Nat) (h : k ≤ j) :
    backSubst c d b k x j = x j := by
  induction k generalizing x with
  | zero => rfl
  | succ k ih =>
    simp only [backSubst]
    rw [ih _ (by omega), setAt_other _ _ _ _ (by omega)]

theorem backSubst_below (c d b : Nat → K) (k : Nat) (x : Nat → K) (j : Nat) (h : j < k) :
    backSubst c d b k x j = (b j - c j * backSubst c d b k x (j + 1)) / d j := by
  induction k generalizing x with
  | zero => omega
  | succ k ih =>
    simp only [backSubst]
    by_cases hj : j = k
    · subst hj
      rw [backSubst_above _ _ _ _ _ _ (le_refl _), backSubst_above _ _ _ _ _ _ (Nat.le_succ _),
        setAt_same, setAt_other _ _ _ _ (by omega)]
    · exact ih _ (by omega)

/-! ## What trisolve returns -/

theorem trisolve_d (n : Nat) (a d c b x : Nat → K) (i : Nat) (hi : i < n) :
    (trisolve n a d c b x).d i = (forwardSweep a c d b i).1 i := by
  simp only [trisolve]
  exact forwardSweep_d_stable a c d b (n - 1) i (by omega)

theorem trisolve_b (n : Nat) (a d c b x : Nat → K) (i : Nat) (hi : i < n) :
    (trisolve n a d c b x).b i = (forwardSweep a c d b i).2 i := by
  simp only [trisolve]
  exact forwardSweep_b_stable a c d b (n - 1) i (by omega)

theorem trisolve_d_frame (n : Nat) (a d c b x : Nat → K) (i : Nat) (hi : n ≤ i) (hn : 1 ≤ n) :
    (trisolve n a d c b x).d i = d i := by
  simp only [trisolve]
  exact forwardSweep_d_above a c d b (n - 1) i (by omega)

theorem trisolve_b_frame (n : Nat) (a d c b x : Nat → K) (i : Nat) (hi : n ≤ i) (hn : 1 ≤ n) :
    (trisolve n a d c b x).b i = b i := by
  simp only [trisolve]
  exact forwardSweep_b_above a c d b (n - 1) i (by omega)

theorem trisolve_x_frame (n : Nat) (a d c b x : Nat → K) (i : Nat) (hi : n ≤ i) (hn : 1 ≤ n) :
    (trisolve n a d c b x).x i = x i := by
  simp only [trisolve]
  rw [backSubst_above _ _ _ _ _ _ (by omega), setAt_other _ _ _ _ (by omega)]

theorem trisolve_x_last (n : Nat) (a d c b x : Nat → K) :
    (trisolve n a d c b x).x (n - 1) =
      (forwardSweep a c d b (n - 1)).2 (n - 1) / (forwardSweep a c d b (n - 1)).1 (n - 1) := by
  simp only [trisolve]
  rw [backSubst_above _ _ _ _ _ _ (le_refl _), setAt_same]

theorem trisolve_x_step (n : Nat) (a d c b x : Nat → K) (i : Nat) (hi : i + 1 < n) :
    (trisolve n a d c b x).x i =
      ((forwardSweep a c d b i).2 i - c i * (trisolve n a d c b x).x (i + 1)) /
        (forwardSweep a c d b i).1 i := by
  simp only [trisolve]
  rw [backSubst_below _ _ _ _ _ _ (by omega),
    forwardSweep_d_stable a c d b (n - 1) i (by omega),
    forwardSweep_b_stable a c d b (n - 1) i (by omega)]

/-- The bidiagonal system drawn in the header comment of `trisolve`: row `i`
of the reduced system holds for the `x` returned. -/
theorem trisolve_upper (n : Nat) (a d c b x : Nat → K) (i : Nat) (hi : i < n)
    (hp : (forwardSweep a c d b i).1 i ≠ 0) :
    (forwardSweep a c d b i).1 i * (trisolve n a d c b x).x i +
      (if i + 1 < n then c i * (trisolve n a d c b x).x (i + 1) else 0) =
      (forwardSweep a c d b i).2 i := by
  by_cases h : i + 1 < n
  · rw [if_pos h, trisolve_x_step n a d c b x i h]
    field_simp
  · have hi1 : i = n - 1 := by omega
    rw [if_neg h]
    subst hi1
    rw [trisolve_x_last]
    field_simp

/-- Row `i` of `A * x = b` for the `x` returned by `trisolve`, provided the
pivots of rows `i - 1` and `i` are not zero. -/
theorem trisolve_row (n : Nat) (a d c b x : Nat → K) (i : Nat) (hi : i < n)
    (hp : ∀ j, j < n → (forwardSweep a c d b j).1 j ≠ 0) :
    triRow n a d c (trisolve n a d c b x).x i = b i := by
  have hu := trisolve_upper n a d c b x i hi (hp i hi)
  cases i with
  | zero =>
    simp only [triRow, lt_irrefl, if_false, zero_add]
    simpa [forwardSweep] using hu
  | succ i =>
    have hprev := trisolve_upper n a d c b x i (by omega) (hp i (by omega))
    rw [if_pos hi] at hprev
    have hpi := hp i (by omega)
    rw [forwardSweep_d_succ, forwardSweep_b_succ] at hu
    simp only [triRow, Nat.succ_pos, if_true, Nat.add_sub_cancel]
    have e1 : (forwardSweep a c d b i).2 i =
        (forwardSweep a c d b i).1 i * (trisolve n a d c b x).x i +
          c i * (trisolve n a d c b x).x (i + 1) := hprev.symm
    rw [e1] at hu
    field_simp at hu
    by_cases h : i + 1 + 1 < n
    · rw [if_pos h] at hu ⊢
      have := mul_right_cancel₀ hpi
        (show (a i * (trisolve n a d c b x).x i + d (i + 1) * (trisolve n a d c b x).x (i + 1) +
          c (i + 1) * (trisolve n a d c b x).x (i + 1 + 1)) * (forwardSweep a c d b i).1 i =
          b (i + 1) * (forwardSweep a c d b i).1 i by linear_combination hu)
      exact this
    · rw [if_neg h] at hu ⊢
      have := mul_right_cancel₀ hpi
        (show (a i * (trisolve n a d c b x).x i + d (i + 1) * (trisolve n a d c b x).x (i + 1) +
          0) * (forwardSweep a c d b i).1 i =
          b (i + 1) * (forwardSweep a c d b i).1 i by linear_combination hu)
      exact this

/-! ## The solver's contract -/

theorem check_pivots (i : Nat) (hi : i < 3) :
    (forwardSweep checkA checkC checkD checkB i).1 i ≠ 0 := by
  interval_cases i <;>
    norm_num [forwardSweep, elimBody, setAt, ofList, checkA, checkB, checkC, checkD]

theorem check_solution (x : Nat → ℚ) :
    (trisolve 3 checkA checkD checkC checkB x).x 0 = 11 / 14 ∧
    (trisolve 3 checkA checkD checkC checkB x).x 1 = 13 / 7 ∧
    (trisolve 3 checkA checkD checkC checkB x).x 2 = 25 / 14 := by
  refine ⟨?_, ?_, ?_⟩ <;>
    norm_num [trisolve, forwardSweep, backSubst, elimBody, setAt, ofList,
      checkA, checkB, checkC, checkD]

/-- C1: for `n ≥ 1`, if no divisor met by `trisolve` is zero (the updated
`d[i-1]` of each pass of the forward sweep and the updated `d[i]` of
back-substitution), the `x` it writes solves `A * x = b` for the original `d`
and `b`: the first row, the middle rows and the last row (for `n = 1` the
single equation `d[0] * x[0] = b[0]`). On `a = [1,1]`, `d = [4,4,4]`,
`c = [1,1]`, `b = [5,10,9]` it yields `x = [11/14, 13/7, 25/14]`. -/
theorem trisolve_solves (n : Nat) (a d c b x : Nat → K) (hn : 1 ≤ n)
    (hfwd : ∀ i, 1 ≤ i → i < n → (forwardSweep a c d b (i - 1)).1 (i - 1) ≠ 0)
    (hback : ∀ i, i < n → (trisolve n a d c b x).d i ≠ 0) :
    (n = 1 → d 0 * (trisolve n a d c b x).x 0 = b 0) ∧
    (2 ≤ n → d 0 * (trisolve n a d c b x).x 0 + c 0 * (trisolve n a d c b x).x 1 = b 0) ∧
    (∀ i, 0 < i → i + 1 < n →
      a (i - 1) * (trisolve n a d c b x).x (i - 1) + d i * (trisolve n a d c b x).x i +
        c i * (trisolve n a d c b x).x (i + 1) = b i) ∧
    (2 ≤ n →
      a (n - 2) * (trisolve n a d c b x).x (n - 2) +
        d (n - 1) * (trisolve n a d c b x).x (n - 1) = b (n - 1)) ∧
    (∀ x0 : Nat → ℚ,
      (trisolve 3 checkA checkD checkC checkB x0).x 0 = 11 / 14 ∧
      (trisolve 3 checkA checkD checkC checkB x0).x 1 = 13 / 7 ∧
      (trisolve 3 checkA checkD checkC checkB x0).x 2 = 25 / 14) := by
  have hp : ∀ j, j < n → (forwardSweep a c d b j).1 j ≠ 0 := by
    intro j hj
    rw [← trisolve_d n a d c b x j hj]
    exact hback j hj
  refine ⟨?_, ?_, ?_, ?_, check_solution⟩
  · intro h1
    have h := trisolve_row n a d c b x 0 (by omega) hp
    have h2 : ¬ (0 + 1 < n) := by omega
    simpa [triRow, h2] using h
  · intro h2
    have h := trisolve_row n a d c b x 0 (by omega) hp
    have h3 : 0 + 1 < n := by omega
    simpa [triRow, h3] using h
  · intro i h0 h1
    have h := trisolve_row n a d c b x i (by omega) hp
    simpa [triRow, h0, h1] using h
  · intro h2
    have h := trisolve_row n a d c b x (n - 1) (by omega) hp
    have h3 : ¬ (n - 1 + 1 < n) := by omega
    have h4 : 0 < n - 1 := by omega
    have h5 : n - 1 - 1 = n - 2 := by omega
    simpa [triRow, h3, h4, h5] using h

theorem trisolve_solves_witness :
    1 ≤ 3 ∧ (2 ≤ 3 →
      checkD 0 * (trisolve 3 checkA checkD checkC checkB (fun _ => 0)).x 0 +
        checkC 0 * (trisolve 3 checkA checkD checkC checkB (fun _ => 0)).x 1 = checkB 0) :=
  ⟨by decide,
    (trisolve_solves 3 checkA checkD checkC checkB (fun _ => 0) (by decide)
      (fun i _ hi => check_pivots (i - 1) (by omega))
      (fun i hi => by
        rw [trisolve_d 3 checkA checkD checkC checkB _ i hi]
        exact check_pivots i hi)).2.1⟩

/-! ## Pivots -/

/-- In the system of `heat_implicit` (diagonal `1 + 2r`, off-diagonals `-r`,
`r ≥ 0`) every pivot is at least `1 + r`. -/
theorem heat_pivot_ge (n : Nat) (a d c b : Nat → K) (r : K) (hr : 0 ≤ r)
    (ha : ∀ i, i + 1 < n → a i = -r) (hc : ∀ i, i + 1 < n → c i = -r)
    (hd : ∀ i, i < n → d i = 1 + 2 * r) (i : Nat) (hi : i < n) :
    1 + r ≤ (forwardSweep a c d b i).1 i := by
  induction i with
  | zero =>
    simp only [forwardSweep]
    rw [hd 0 hi]
    linarith
  | succ i ih =>
    have hp := ih (by omega)
    have hpos : 0 < (forwardSweep a c d b i).1 i := by linarith
    rw [forwardSweep_d_succ, hd (i + 1) hi, ha i hi, hc i hi]
    have hq : r * r / (forwardSweep a c d b i).1 i ≤ r := by
      rw [div_le_iff₀ hpos]
      nlinarith
    have e : -r / (forwardSweep a c d b i).1 i * -r = r * r / (forwardSweep a c d b i).1 i := by
      ring
    rw [e]
    linarith

/-- Under strict diagonal dominance every pivot exceeds, in absolute value,
the super-diagonal entry of its row (`0` in the last row). -/
theorem strict_pivot_gt (n : Nat) (a d c b : Nat → K)
    (hdom : ∀ i, i < n → rowStrictDominant n a d c i) (i : Nat) (hi : i < n) :
    (if i + 1 < n then |c i| else 0) < |(forwardSweep a c d b i).1 i| := by
  induction i with
  | zero =>
    have h := hdom 0 hi
    simp only [rowStrictDominant, lt_irrefl, if_false, zero_add] at h
    simpa [forwardSweep] using h
  | succ i ih =>
    have hp := ih (by omega)
    rw [if_pos hi] at hp
    have hpos : 0 < |(forwardSweep a c d b i).1 i| := lt_of_le_of_lt (abs_nonneg _) hp
    have h := hdom (i + 1) hi
    simp only [rowStrictDominant, Nat.succ_pos, if_true, Nat.add_sub_cancel] at h
    rw [forwardSweep_d_succ]
    have hm : |a i / (forwardSweep a c d b i).1 i * c i| ≤ |a i| := by
      rw [abs_mul, abs_div, div_mul_eq_mul_div, div_le_iff₀ hpos]
      exact mul_le_mul_of_nonneg_left hp.le (abs_nonneg _)
    have ht := abs_sub_abs_le_abs_sub (d (i + 1)) (a i / (forwardSweep a c d b i).1 i * c i)
    linarith

theorem strict_pivot_ne_zero (n : Nat) (a d c b : Nat → K)
    (hdom : ∀ i, i < n → rowStrictDominant n a d c i) (i : Nat) (hi : i < n) :
    (forwardSweep a c d b i).1 i ≠ 0 := by
  have h := strict_pivot_gt n a d c b hdom i hi
  have h0 : (0 : K) ≤ if i + 1 < n then |c i| else 0 := by
    split
    · exact abs_nonneg _
    · exact le_refl _
  intro hz
  rw [hz, abs_zero] at h
  linarith

/-! ## One time step -/

theorem stageBoundary_first (spec : problem_spec K) (n : Nat) (t : K) (v : Nat → K) :
    stageBoundary spec n t v 0 = spec.bcL t := by
  simp [stageBoundary, setAt]

theorem stageBoundary_last (spec : problem_spec K) (n : Nat) (t : K) (v : Nat → K) :
    stageBoundary spec n t v (n + 1) = spec.bcR t := by
  simp [stageBoundary, setAt]

theorem foldBoundary_apply (n : Nat) (r : K) (u v : Nat → K) (j : Nat) :
    foldBoundary n r u v j =
      u j + (if j = 1 then r * v 0 else 0) + (if j = n then r * v (n + 1) else 0) := by
  simp only [foldBoundary, setAt]
  by_cases h1 : j = 1 <;> by_cases h2 : j = n
  · subst h1; subst h2; simp
  · subst h1
    have : ¬ (1 = n) := h2
    simp [h2]
  · subst h2
    simp [h1]
  · simp [h1, h2]

theorem stepBody_u_first (spec : problem_spec K) (T : K) (n steps : Nat) (r : K)
    (c : Nat → K) (k : Nat) (s : HeatState K) :
    (stepBody spec T n steps r c k s).u 0 = spec.bcL (stepTime T steps k) := by
  simp [stepBody, unshiftPtr, stageBoundary_first]

theorem stepBody_u_last (spec : problem_spec K) (T : K) (n steps : Nat) (r : K)
    (c : Nat → K) (k : Nat) (s : HeatState K) (hn : 1 ≤ n) :
    (stepBody spec T n steps r c k s).u (n + 1) = spec.bcR (stepTime T steps k) := by
  simp only [stepBody, unshiftPtr]
  rw [if_neg (by omega), Nat.add_sub_cancel, trisolve_x_frame _ _ _ _ _ _ _ (le_refl _) hn]
  simp [shiftPtr, stageBoundary_last]

theorem stepBody_u_inner (spec : problem_spec K) (T : K) (n steps : Nat) (r : K)
    (c : Nat → K) (k : Nat) (s : HeatState K) (j : Nat) (h1 : 1 ≤ j) (h2 : j ≤ n) :
    (stepBody spec T n steps r c k s).u j =
      (trisolve n c (stepDiag n r s.d) c
        (shiftPtr (foldBoundary n r s.u (stageBoundary spec n (stepTime T steps k) s.v)))
        (shiftPtr (stageBoundary spec n (stepTime T steps k) s.v))).x (j - 1) := by
  simp only [stepBody, unshiftPtr]
  rw [if_neg (by omega)]

/-- One pass of the time loop is a backward Euler step: the new `u` carries
the boundary values at its ends and satisfies the implicit difference
equation at every interior point. -/
theorem stepBody_euler (spec : problem_spec K) (T : K) (n steps : Nat) (r : K)
    (c : Nat → K) (k : Nat) (s : HeatState K) (hn : 1 ≤ n) (hr : 0 ≤ r)
    (hc : ∀ i, i + 1 < n → c i = -r) (j : Nat) (h1 : 1 ≤ j) (h2 : j ≤ n) :
    (1 + 2 * r) * (stepBody spec T n steps r c k s).u j
      - r * (stepBody spec T n steps r c k s).u (j - 1)
      - r * (stepBody spec T n steps r c k s).u (j + 1) = s.u j := by
  have hd : ∀ i, i < n → stepDiag n r s.d i = 1 + 2 * r := by
    intro i hi
    simp [stepDiag, fillLoop_apply, hi]
  have hp : ∀ i, i < n →
      (forwardSweep c c (stepDiag n r s.d)
        (shiftPtr (foldBoundary n r s.u (stageBoundary spec n (stepTime T steps k) s.v))) i).1 i
        ≠ 0 := by
    intro i hi
    have := heat_pivot_ge n c (stepDiag n r s.d) c
      (shiftPtr (foldBoundary n r s.u (stageBoundary spec n (stepTime T steps k) s.v)))
      r hr hc hc hd i hi
    intro hz
    rw [hz] at this
    linarith
  have hrow := trisolve_row n c (stepDiag n r s.d) c
    (shiftPtr (foldBoundary n r s.u (stageBoundary spec n (stepTime T steps k) s.v)))
    (shiftPtr (stageBoundary spec n (stepTime T steps k) s.v)) (j - 1) (by omega) hp
  rw [stepBody_u_inner spec T n steps r c k s j h1 h2]
  simp only [triRow, shiftPtr] at hrow
  rw [hd (j - 1) (by omega), foldBoundary_apply, stageBoundary_first, stageBoundary_last,
    show j - 1 + 1 = j by omega] at hrow
  by_cases hj1 : j = 1
  · have e0 : (stepBody spec T n steps r c k s).u (j - 1) = spec.bcL (stepTime T steps k) := by
      rw [hj1]; exact stepBody_u_first spec T n steps r c k s
    rw [e0]
    rw [if_neg (by omega), if_pos hj1] at hrow
    by_cases hjn : j = n
    · have e1 : (stepBody spec T n steps r c k s).u (j + 1) = spec.bcR (stepTime T steps k) := by
        rw [hjn]; exact stepBody_u_last spec T n steps r c k s hn
      rw [e1]
      rw [if_neg (by omega), if_pos hjn] at hrow
      linear_combination hrow
    · rw [stepBody_u_inner spec T n steps r c k s (j + 1) (by omega) (by omega),
        Nat.add_sub_cancel]
      rw [if_pos (by omega), if_neg hjn, hc (j - 1) (by omega)] at hrow
      linear_combination hrow
  · rw [stepBody_u_inner spec T n steps r c k s (j - 1) (by omega) (by omega)]
    rw [if_pos (by omega), if_neg hj1, hc (j - 1 - 1) (by omega)] at hrow
    by_cases hjn : j = n
    · have e1 : (stepBody spec T n steps r c k s).u (j + 1) = spec.bcR (stepTime T steps k) := by
        rw [hjn]; exact stepBody_u_last spec T n steps r c k s hn
      rw [e1]
      rw [if_neg (by omega), if_pos hjn] at hrow
      linear_combination hrow
    · rw [stepBody_u_inner spec T n steps r c k s (j + 1) (by omega) (by omega),
        Nat.add_sub_cancel]
      rw [if_pos (by omega), if_neg hjn, hc (j - 1) (by omega)] at hrow
      linear_combination hrow

/-! ## The lines written -/

theorem blocks_length {α : Type} (B : Nat → List α) (m : Nat) (hlen : ∀ k, (B k).length = m)
    (N : Nat) : (((List.range N).map B).flatten).length = N * m := by
  induction N with
  | zero => simp
  | succ N ih =>
    rw [List.range_succ, List.map_append, List.flatten_append, List.length_append, ih]
    simp [hlen, Nat.succ_mul]

theorem blocks_getElem? {α : Type} (B : Nat → List α) (m : Nat)
    (hlen : ∀ k, (B k).length = m) (N k j : Nat) (hk : k < N) (hj : j < m) :
    (((List.range N).map B).flatten)[k * m + j]? = (B k)[j]? := by
  induction N with
  | zero => omega
  | succ N ih =>
    rw [List.range_succ, List.map_append, List.flatten_append]
    by_cases hkN : k < N
    · have hlt : k * m + j < (((List.range N).map B).flatten).length := by
        rw [blocks_length B m hlen N]
        calc k * m + j < k * m + m := by omega
          _ = (k + 1) * m := by ring
          _ ≤ N * m := Nat.mul_le_mul_right m hkN
      rw [List.getElem?_append_left hlt]
      exact ih hkN
    · have hkeq : k = N := by omega
      subst hkeq
      have hge : (((List.range k).map B).flatten).length ≤ k * m + j := by
        rw [blocks_length B m hlen k]; omega
      rw [List.getElem?_append_right hge, blocks_length B m hlen k]
      simp

theorem plot_curve_length (u : Nat → K) (n steps k : Nat) :
    (plot_curve u n steps k).length = n + 2 := by
  simp [plot_curve]

theorem plot_curve_getElem? (u : Nat → K) (n steps k j : Nat) (hj : j < n + 2) :
    (plot_curve u n steps k)[j]? =
      some (Line.data ((k : K) / (steps : K)) ((j : K) / ((n + 1 : Nat) : K)) (u j)) := by
  simp [plot_curve, List.getElem?_map, List.getElem?_range hj]

theorem plot_curve_isData (u : Nat → K) (n steps k : Nat) (l : Line K)
    (hl : l ∈ plot_curve u n steps k) : l.isData = true := by
  simp only [plot_curve, List.mem_map] at hl
  obtain ⟨j, _, rfl⟩ := hl
  rfl

theorem heatLoop_succ (spec : problem_spec K) (T : K) (n steps : Nat) (u0 v0 d0 c0 : Nat → K)
    (k : Nat) :
    heatLoop spec T n steps u0 v0 d0 c0 (k + 1) =
      stepBody spec T n steps (meshRatio spec T n steps) (heatOffDiag spec T n steps c0) (k + 1)
        (heatLoop spec T n steps u0 v0 d0 c0 k) := rfl

theorem heatLoop_u_zero (spec : problem_spec K) (T : K) (n steps : Nat) (u0 v0 d0 c0 : Nat → K)
    (j : Nat) (hj : j ≤ n + 1) :
    (heatLoop spec T n steps u0 v0 d0 c0 0).u j = spec.ic (gridPoint spec n j) := by
  simp only [heatLoop, marchLoop, heatStart, fillLoop_apply]
  rw [if_pos (by omega)]

/-- The lines written after `k` time steps: the three header lines followed by
the blocks `0, ..., k`, block `i` plotting the buffer `u` as it was after
`i` steps. -/
theorem heatLoop_out (spec : problem_spec K) (T : K) (n steps : Nat) (u0 v0 d0 c0 : Nat → K)
    (k : Nat) :
    (heatLoop spec T n steps u0 v0 d0 c0 k).out =
      [Line.comment, Line.appearance, Line.mesh ((n : Int) + 2) ((steps : Int) + 1)] ++
        ((List.range (k + 1)).map fun i =>
          plot_curve (heatLoop spec T n steps u0 v0 d0 c0 i).u n steps i).flatten := by
  induction k with
  | zero =>
    rw [show List.range (0 + 1) = [0] by rfl]
    simp [heatLoop, marchLoop, heatStart]
  | succ k ih =>
    rw [List.range_succ, List.map_append, List.flatten_append, ← List.append_assoc, ← ih]
    simp [heatLoop_succ, stepBody]

theorem dataLines_file (hd : List (Line K)) (blocks : List (List (Line K)))
    (hh : ∀ l ∈ hd, l.isData = false) (hb : ∀ blk ∈ blocks, ∀ l ∈ blk, l.isData = true) :
    dataLines (hd ++ blocks.flatten ++ [Line.close]) = blocks.flatten := by
  have h1 : hd.filter Line.isData = [] := by
    rw [List.filter_eq_nil_iff]
    intro l hl
    simp [hh l hl]
  have h2 : blocks.flatten.filter Line.isData = blocks.flatten := by
    rw [List.filter_eq_self]
    intro l hl
    obtain ⟨blk, hblk, hl2⟩ := List.mem_flatten.mp hl
    exact hb blk hblk l hl2
  simp only [dataLines, List.filter_append, h1, h2]
  simp [Line.isData]

/-- The data lines of the file `heat_implicit` writes are the blocks
`0, ..., steps` in order. -/
theorem heat_dataLines (spec : problem_spec K) (T : K) (n steps : Nat) (u0 v0 d0 c0 : Nat → K) :
    dataLines ((heatLoop spec T n steps u0 v0 d0 c0 steps).out ++ [Line.close]) =
      ((List.range (steps + 1)).map fun i =>
          plot_curve (heatLoop spec T n steps u0 v0 d0 c0 i).u n steps i).flatten := by
  rw [heatLoop_out]
  apply dataLines_file
  · intro l hl
    simp only [List.mem_cons, List.mem_singleton, List.not_mem_nil, or_false] at hl
    rcases hl with rfl | rfl | rfl <;> rfl
  · intro blk hblk l hl
    simp only [List.mem_map] at hblk
    obtain ⟨i, _, rfl⟩ := hblk
    exact plot_curve_isData _ _ _ _ l hl

theorem heat_dataLines_getElem? (spec : problem_spec K) (T : K) (n steps : Nat)
    (u0 v0 d0 c0 : Nat → K) (k j : Nat) (hk : k ≤ steps) (hj : j ≤ n + 1) :
    (dataLines ((heatLoop spec T n steps u0 v0 d0 c0 steps).out ++ [Line.close]))[k * (n + 2) + j]?
      = some (Line.data ((k : K) / (steps : K)) ((j : K) / ((n + 1 : Nat) : K))
          ((heatLoop spec T n steps u0 v0 d0 c0 k).u j)) := by
  rw [heat_dataLines,
    blocks_getElem? (fun i => plot_curve (heatLoop spec T n steps u0 v0 d0 c0 i).u n steps i)
      (n + 2) (fun i => plot_curve_length _ _ _ _) (steps + 1) k j (by omega) (by omega)]
  exact plot_curve_getElem? _ _ _ _ _ (by omega)

theorem heat_rowValue (spec : problem_spec K) (T : K) (n steps : Nat)
    (u0 v0 d0 c0 : Nat → K) (k j : Nat) (hk : k ≤ steps) (hj : j ≤ n + 1) :
    rowValue ((heatLoop spec T n steps u0 v0 d0 c0 steps).out ++ [Line.close]) n k j =
      some ((heatLoop spec T n steps u0 v0 d0 c0 k).u j) := by
  simp only [rowValue]
  rw [heat_dataLines_getElem? spec T n steps u0 v0 d0 c0 k j hk hj]

theorem heat_implicit_open (spec : problem_spec K) (T : K) (n steps : Nat)
    (u0 v0 d0 c0 : Nat → K) :
    heat_implicit spec T n steps true u0 v0 d0 c0 =
      some { file := (heatLoop spec T n steps u0 v0 d0 c0 steps).out ++ [Line.close],
             err := get_error spec (heatLoop spec T n steps u0 v0 d0 c0 steps).u n T } := by
  simp [heat_implicit]


/-! ## The maximum principle -/

theorem maxAbs_le_iff (f : Nat → K) (lo m : Nat) (B : K) :
    maxAbs f lo m ≤ B ↔ ∀ j, lo ≤ j → j ≤ lo + m → |f j| ≤ B := by
  induction m with
  | zero =>
    simp only [maxAbs, Nat.add_zero]
    constructor
    · intro h j h1 h2
      have : j = lo := by omega
      rw [this]; exact h
    · intro h
      exact h lo (le_refl _) (le_refl _)
  | succ m ih =>
    simp only [maxAbs, max_le_iff, ih]
    constructor
    · rintro ⟨h1, h2⟩ j hj1 hj2
      by_cases hj : j = lo + (m + 1)
      · rw [hj]; exact h2
      · exact h1 j hj1 (by omega)
    · intro h
      exact ⟨fun j hj1 hj2 => h j hj1 (by omega), h _ (by omega) (le_refl _)⟩

theorem le_maxAbs (f : Nat → K) (lo m j : Nat) (h1 : lo ≤ j) (h2 : j ≤ lo + m) :
    |f j| ≤ maxAbs f lo m :=
  (maxAbs_le_iff f lo m (maxAbs f lo m)).mp (le_refl _) j h1 h2

/-- The discrete maximum principle for the implicit difference equation. -/
theorem euler_max_principle (n : Nat) (r : K) (U W : Nat → K) (B : K) (hn : 1 ≤ n)
    (hr : 0 ≤ r)
    (heq : ∀ j, 1 ≤ j → j ≤ n → (1 + 2 * r) * U j - r * U (j - 1) - r * U (j + 1) = W j)
    (hW : ∀ j, 1 ≤ j → j ≤ n → |W j| ≤ B) (h0 : |U 0| ≤ B) (hl : |U (n + 1)| ≤ B)
    (j : Nat) (hj : j ≤ n + 1) : |U j| ≤ B := by
  obtain ⟨m, hm, hmax⟩ := Finset.exists_max_image (Finset.Icc 1 n) (fun i => |U i|)
    ⟨1, Finset.mem_Icc.mpr ⟨le_refl _, hn⟩⟩
  rw [Finset.mem_Icc] at hm
  have hmax2 : ∀ i, 1 ≤ i → i ≤ n → |U i| ≤ |U m| := fun i h1 h2 =>
    hmax i (Finset.mem_Icc.mpr ⟨h1, h2⟩)
  have hM : |U m| ≤ B := by
    by_contra hcon
    push_neg at hcon
    have hprev : |U (m - 1)| ≤ |U m| := by
      by_cases h : m = 1
      · rw [h]; exact le_trans h0 (by rw [← h]; exact hcon.le)
      · exact hmax2 (m - 1) (by omega) (by omega)
    have hnext : |U (m + 1)| ≤ |U m| := by
      by_cases h : m = n
      · rw [h]; exact le_trans hl (by rw [← h]; exact hcon.le)
      · exact hmax2 (m + 1) (by omega) (by omega)
    have e := heq m hm.1 hm.2
    have e2 : (1 + 2 * r) * U m = W m + r * U (m - 1) + r * U (m + 1) := by
      linear_combination e
    have e3 : (1 + 2 * r) * |U m| = |W m + r * U (m - 1) + r * U (m + 1)| := by
      rw [← e2, abs_mul, abs_of_nonneg (by linarith : (0 : K) ≤ 1 + 2 * r)]
    have e4 : |W m + r * U (m - 1) + r * U (m + 1)| ≤
        |W m| + r * |U (m - 1)| + r * |U (m + 1)| := by
      calc |W m + r * U (m - 1) + r * U (m + 1)|
          ≤ |W m + r * U (m - 1)| + |r * U (m + 1)| := abs_add _ _
        _ ≤ |W m| + |r * U (m - 1)| + |r * U (m + 1)| := by
            have := abs_add (W m) (r * U (m - 1))
            linarith
        _ = |W m| + r * |U (m - 1)| + r * |U (m + 1)| := by
            rw [abs_mul, abs_mul, abs_of_nonneg hr]
    have hWm := hW m hm.1 hm.2
    have p1 : r * |U (m - 1)| ≤ r * |U m| := mul_le_mul_of_nonneg_left hprev hr
    have p2 : r * |U (m + 1)| ≤ r * |U m| := mul_le_mul_of_nonneg_left hnext hr
    linarith
  by_cases hj0 : j = 0
  · rw [hj0]; exact h0
  · by_cases hjl : j = n + 1
    · rw [hjl]; exact hl
    · exact le_trans (hmax2 j (by omega) (by omega)) hM

/-! ## get_error -/

theorem errLoop_spec (spec : problem_spec K) (exact : K → K → K) (u : Nat → K) (n : Nat)
    (T : K) (k : Nat) :
    0 ≤ errLoop spec exact u n T k ∧
    (∀ j, j < k → |u j - exact (gridPoint spec n j) T| ≤ errLoop spec exact u n T k) ∧
    (errLoop spec exact u n T k = 0 ∨
      ∃ j, j < k ∧ errLoop spec exact u n T k = |u j - exact (gridPoint spec n j) T|) := by
  induction k with
  | zero =>
    refine ⟨le_refl _, ?_, Or.inl rfl⟩
    intro j hj; omega
  | succ k ih =>
    obtain ⟨h0, hle, hex⟩ := ih
    simp only [errLoop, errBody]
    by_cases hgt : |u k - exact (gridPoint spec n k) T| > errLoop spec exact u n T k
    · rw [if_pos hgt]
      refine ⟨abs_nonneg _, ?_, Or.inr ⟨k, by omega, rfl⟩⟩
      intro j hj
      by_cases hjk : j = k
      · rw [hjk]
      · exact le_trans (hle j (by omega)) hgt.le
    · rw [if_neg hgt]
      push_neg at hgt
      refine ⟨h0, ?_, ?_⟩
      · intro j hj
        by_cases hjk : j = k
        · rw [hjk]; exact hgt
        · exact hle j (by omega)
      · rcases hex with h | ⟨j, hj, h⟩
        · exact Or.inl h
        · exact Or.inr ⟨j, by omega, h⟩

/-! ## The marching engine -/

theorem heatOffDiag_apply (spec : problem_spec K) (T : K) (n steps : Nat) (c0 : Nat → K)
    (i : Nat) (hi : i + 1 < n) :
    heatOffDiag spec T n steps c0 i = -(meshRatio spec T n steps) := by
  simp only [heatOffDiag, fillLoop_apply]
  rw [if_pos (by omega)]

theorem heatLoop_u_first (spec : problem_spec K) (T : K) (n steps : Nat)
    (u0 v0 d0 c0 : Nat → K) (k : Nat) (hk : 1 ≤ k) :
    (heatLoop spec T n steps u0 v0 d0 c0 k).u 0 = spec.bcL (T * (k : K) / (steps : K)) := by
  obtain ⟨k, rfl⟩ : ∃ m, k = m + 1 := ⟨k - 1, by omega⟩
  rw [heatLoop_succ]
  exact stepBody_u_first _ _ _ _ _ _ _ _

theorem heatLoop_u_last (spec : problem_spec K) (T : K) (n steps : Nat)
    (u0 v0 d0 c0 : Nat → K) (k : Nat) (hn : 1 ≤ n) (hk : 1 ≤ k) :
    (heatLoop spec T n steps u0 v0 d0 c0 k).u (n + 1) =
      spec.bcR (T * (k : K) / (steps : K)) := by
  obtain ⟨k, rfl⟩ : ∃ m, k = m + 1 := ⟨k - 1, by omega⟩
  rw [heatLoop_succ]
  exact stepBody_u_last _ _ _ _ _ _ _ _ hn

theorem heatLoop_euler (spec : problem_spec K) (T : K) (n steps : Nat)
    (u0 v0 d0 c0 : Nat → K) (k : Nat) (hn : 1 ≤ n) (hr : 0 ≤ meshRatio spec T n steps)
    (hk : 1 ≤ k) (j : Nat) (h1 : 1 ≤ j) (h2 : j ≤ n) :
    (1 + 2 * meshRatio spec T n steps) * (heatLoop spec T n steps u0 v0 d0 c0 k).u j
      - meshRatio spec T n steps * (heatLoop spec T n steps u0 v0 d0 c0 k).u (j - 1)
      - meshRatio spec T n steps * (heatLoop spec T n steps u0 v0 d0 c0 k).u (j + 1)
      = (heatLoop spec T n steps u0 v0 d0 c0 (k - 1)).u j := by
  obtain ⟨k, rfl⟩ : ∃ m, k = m + 1 := ⟨k - 1, by omega⟩
  rw [heatLoop_succ, Nat.add_sub_cancel]
  exact stepBody_euler spec T n steps _ _ (k + 1) _ hn hr
    (fun i hi => heatOffDiag_apply spec T n steps c0 i hi) j h1 h2

/-- C2: for a specification with `a ≠ b`, `n ≥ 1`, `steps ≥ 1`, mesh ratio
`r = (T/steps)/dx² ≥ 0` and `k` in `1..steps`, the row block `U^k` written by
`heat_implicit` and the block `U^(k-1)` before it satisfy
`(1+2r) U^k[j] - r U^k[j-1] - r U^k[j+1] = U^(k-1)[j]` at every interior
`j = 1..n`, with `U^k[0] = bcL(T*k/steps)` and `U^k[n+1] = bcR(T*k/steps)`. -/
theorem heat_implicit_backward_euler (spec : problem_spec K) (T : K) (n steps : Nat)
    (u0 v0 d0 c0 : Nat → K) (k : Nat) (hab : spec.a ≠ spec.b) (hn : 1 ≤ n)
    (hs : 1 ≤ steps) (hr : 0 ≤ meshRatio spec T n steps) (hk1 : 1 ≤ k) (hk : k ≤ steps) :
    ∃ (res : HeatResult K) (Unew Uold : Nat → K),
      heat_implicit spec T n steps true u0 v0 d0 c0 = some res ∧
      (∀ j, j ≤ n + 1 → rowValue res.file n k j = some (Unew j)) ∧
      (∀ j, j ≤ n + 1 → rowValue res.file n (k - 1) j = some (Uold j)) ∧
      Unew 0 = spec.bcL (T * (k : K) / (steps : K)) ∧
      Unew (n + 1) = spec.bcR (T * (k : K) / (steps : K)) ∧
      ∀ j, 1 ≤ j → j ≤ n →
        (1 + 2 * meshRatio spec T n steps) * Unew j - meshRatio spec T n steps * Unew (j - 1)
          - meshRatio spec T n steps * Unew (j + 1) = Uold j :=
  ⟨_, (heatLoop spec T n steps u0 v0 d0 c0 k).u, (heatLoop spec T n steps u0 v0 d0 c0 (k - 1)).u,
    heat_implicit_open spec T n steps u0 v0 d0 c0,
    fun j hj => heat_rowValue spec T n steps u0 v0 d0 c0 k j hk hj,
    fun j hj => heat_rowValue spec T n steps u0 v0 d0 c0 (k - 1) j (by omega) hj,
    heatLoop_u_first spec T n steps u0 v0 d0 c0 k hk1,
    heatLoop_u_last spec T n steps u0 v0 d0 c0 k hn hk1,
    fun j h1 h2 => heatLoop_euler spec T n steps u0 v0 d0 c0 k hn hr hk1 j h1 h2⟩

theorem heat_implicit_backward_euler_witness :
    coldStart.a ≠ coldStart.b ∧ 0 ≤ meshRatio coldStart 1 1 1 ∧
    ∃ (res : HeatResult ℚ) (Unew Uold : Nat → ℚ),
      heat_implicit coldStart 1 1 1 true (fun _ => 0) (fun _ => 0) (fun _ => 0) (fun _ => 0)
        = some res ∧
      (∀ j, j ≤ 1 + 1 → rowValue res.file 1 1 j = some (Unew j)) ∧
      (∀ j, j ≤ 1 + 1 → rowValue res.file 1 (1 - 1) j = some (Uold j)) ∧
      Unew 0 = coldStart.bcL (1 * ((1 : Nat) : ℚ) / ((1 : Nat) : ℚ)) ∧
      Unew (1 + 1) = coldStart.bcR (1 * ((1 : Nat) : ℚ) / ((1 : Nat) : ℚ)) ∧
      ∀ j, 1 ≤ j → j ≤ 1 →
        (1 + 2 * meshRatio coldStart 1 1 1) * Unew j - meshRatio coldStart 1 1 1 * Unew (j - 1)
          - meshRatio coldStart 1 1 1 * Unew (j + 1) = Uold j :=
  ⟨by simp [coldStart], by simp [meshRatio, meshWidth, coldStart],
    heat_implicit_backward_euler coldStart 1 1 1 (fun _ => 0) (fun _ => 0) (fun _ => 0)
      (fun _ => 0) 1 (by simp [coldStart]) (by decide) (by decide)
      (by simp [meshRatio, meshWidth, coldStart]) (by decide) (by decide)⟩

/-- C3: unconditional stability. For `n ≥ 1`, any mesh ratio `r ≥ 0` and any
time step `k ≥ 1` of `heat_implicit`, the largest `|U^k[j]|` over `j = 0..n+1`
of the new row block is at most the largest of `|U^(k-1)[j]|` over the
interior `j = 1..n`, `|bcL(t_k)|` and `|bcR(t_k)|`; no upper bound on `r` is
assumed. -/
theorem heat_implicit_max_principle (spec : problem_spec K) (T : K) (n steps : Nat)
    (u0 v0 d0 c0 : Nat → K) (k : Nat) (hn : 1 ≤ n)
    (hr : 0 ≤ meshRatio spec T n steps) (hk1 : 1 ≤ k) (hk : k ≤ steps) :
    ∃ (res : HeatResult K) (Unew Uold : Nat → K),
      heat_implicit spec T n steps true u0 v0 d0 c0 = some res ∧
      (∀ j, j ≤ n + 1 → rowValue res.file n k j = some (Unew j)) ∧
      (∀ j, j ≤ n + 1 → rowValue res.file n (k - 1) j = some (Uold j)) ∧
      maxAbs Unew 0 (n + 1) ≤
        max (maxAbs Uold 1 (n - 1))
          (max |spec.bcL (T * (k : K) / (steps : K))| |spec.bcR (T * (k : K) / (steps : K))|) := by
  refine ⟨_, (heatLoop spec T n steps u0 v0 d0 c0 k).u,
    (heatLoop spec T n steps u0 v0 d0 c0 (k - 1)).u,
    heat_implicit_open spec T n steps u0 v0 d0 c0,
    fun j hj => heat_rowValue spec T n steps u0 v0 d0 c0 k j hk hj,
    fun j hj => heat_rowValue spec T n steps u0 v0 d0 c0 (k - 1) j (by omega) hj, ?_⟩
  rw [maxAbs_le_iff]
  intro j _ hj
  apply euler_max_principle n (meshRatio spec T n steps)
    (heatLoop spec T n steps u0 v0 d0 c0 k).u (heatLoop spec T n steps u0 v0 d0 c0 (k - 1)).u
    _ hn hr (fun i h1 h2 => heatLoop_euler spec T n steps u0 v0 d0 c0 k hn hr hk1 i h1 h2)
  · intro i h1 h2
    exact le_trans (le_maxAbs _ 1 (n - 1) i h1 (by omega)) (le_max_left _ _)
  · rw [heatLoop_u_first spec T n steps u0 v0 d0 c0 k hk1]
    exact le_trans (le_max_left _ _) (le_max_right _ _)
  · rw [heatLoop_u_last spec T n steps u0 v0 d0 c0 k hn hk1]
    exact le_trans (le_max_right _ _) (le_max_right _ _)
  · omega

theorem heat_implicit_max_principle_witness :
    0 ≤ meshRatio coldStart 1000 1 1 ∧
    ∃ (res : HeatResult ℚ) (Unew Uold : Nat → ℚ),
      heat_implicit coldStart 1000 1 1 true (fun _ => 0) (fun _ => 0) (fun _ => 0) (fun _ => 0)
        = some res ∧
      (∀ j, j ≤ 1 + 1 → rowValue res.file 1 1 j = some (Unew j)) ∧
      (∀ j, j ≤ 1 + 1 → rowValue res.file 1 (1 - 1) j = some (Uold j)) ∧
      maxAbs Unew 0 (1 + 1) ≤
        max (maxAbs Uold 1 (1 - 1))
          (max |coldStart.bcL (1000 * ((1 : Nat) : ℚ) / ((1 : Nat) : ℚ))|
            |coldStart.bcR (1000 * ((1 : Nat) : ℚ) / ((1 : Nat) : ℚ))|) :=
  ⟨by norm_num [meshRatio, meshWidth, coldStart],
    heat_implicit_max_principle coldStart 1000 1 1 (fun _ => 0) (fun _ => 0) (fun _ => 0)
      (fun _ => 0) 1 (by decide) (by norm_num [meshRatio, meshWidth, coldStart])
      (by decide) (by decide)⟩

/-- C4, as stated, fails on the initial block: with initial condition `0`
and boundary functions `1`, block `0` of the file starts with `0`, not with
`bcL(T*0/steps) = 1`. -/
theorem boundary_exactness_counterexample :
    ∃ res : HeatResult ℚ,
      heat_implicit coldStart 1 1 1 true (fun _ => 0) (fun _ => 0) (fun _ => 0) (fun _ => 0)
        = some res ∧
      rowValue res.file 1 0 0 = some 0 ∧
      coldStart.bcL (1 * ((0 : Nat) : ℚ) / ((1 : Nat) : ℚ)) = 1 ∧
      rowValue res.file 1 0 0 ≠ some (coldStart.bcL (1 * ((0 : Nat) : ℚ) / ((1 : Nat) : ℚ))) := by
  refine ⟨_, heat_implicit_open _ _ _ _ _ _ _ _, ?_, rfl, ?_⟩
  · rw [heat_rowValue coldStart 1 1 1 _ _ _ _ 0 0 (by decide) (by decide),
      heatLoop_u_zero coldStart 1 1 1 _ _ _ _ 0 (by decide)]
    rfl
  · rw [heat_rowValue coldStart 1 1 1 _ _ _ _ 0 0 (by decide) (by decide),
      heatLoop_u_zero coldStart 1 1 1 _ _ _ _ 0 (by decide)]
    simp [coldStart]

/-- C4, amended: for `n ≥ 1` and every time index `k = 1..steps`, the first
value of row block `k` written by `heat_implicit` is `bcL(T*k/steps)` and the
last is `bcR(T*k/steps)`; the initial block `k = 0` starts and ends with the
initial condition at the grid points `x_0` and `x_(n+1)`. -/
theorem heat_implicit_boundary_exact (spec : problem_spec K) (T : K) (n steps : Nat)
    (u0 v0 d0 c0 : Nat → K) (hn : 1 ≤ n) :
    ∃ res : HeatResult K,
      heat_implicit spec T n steps true u0 v0 d0 c0 = some res ∧
      (∀ k, 1 ≤ k → k ≤ steps →
        rowValue res.file n k 0 = some (spec.bcL (T * (k : K) / (steps : K))) ∧
        rowValue res.file n k (n + 1) = some (spec.bcR (T * (k : K) / (steps : K)))) ∧
      rowValue res.file n 0 0 = some (spec.ic (gridPoint spec n 0)) ∧
      rowValue res.file n 0 (n + 1) = some (spec.ic (gridPoint spec n (n + 1))) := by
  refine ⟨_, heat_implicit_open spec T n steps u0 v0 d0 c0, ?_, ?_, ?_⟩
  · intro k hk1 hk
    constructor
    · rw [heat_rowValue spec T n steps u0 v0 d0 c0 k 0 hk (by omega),
        heatLoop_u_first spec T n steps u0 v0 d0 c0 k hk1]
    · rw [heat_rowValue spec T n steps u0 v0 d0 c0 k (n + 1) hk (le_refl _),
        heatLoop_u_last spec T n steps u0 v0 d0 c0 k hn hk1]
  · rw [heat_rowValue spec T n steps u0 v0 d0 c0 0 0 (by omega) (by omega),
      heatLoop_u_zero spec T n steps u0 v0 d0 c0 0 (by omega)]
  · rw [heat_rowValue spec T n steps u0 v0 d0 c0 0 (n + 1) (by omega) (le_refl _),
      heatLoop_u_zero spec T n steps u0 v0 d0 c0 (n + 1) (le_refl _)]

theorem heat_implicit_boundary_exact_witness :
    1 ≤ 1 ∧ ∃ res : HeatResult ℚ,
      heat_implicit coldStart 1 1 1 true (fun _ => 0) (fun _ => 0) (fun _ => 0) (fun _ => 0)
        = some res ∧
      rowValue res.file 1 1 0 = some 1 ∧ rowValue res.file 1 1 (1 + 1) = some 1 :=
  ⟨by decide,
    match heat_implicit_boundary_exact coldStart 1 1 1 (fun _ => 0) (fun _ => 0) (fun _ => 0)
      (fun _ => 0) (by decide) with
    | ⟨res, h, hb, _, _⟩ => ⟨res, h, (hb 1 (by decide) (by decide)).1,
        (hb 1 (by decide) (by decide)).2⟩⟩

/-- C6: for `n ≥ 1` and `steps ≥ 1`, data line `k * (n + 2) + j` of the file
(`k = 0..steps`, `j = 0..n+1`) is the triple `(k/steps, j/(n+1), U^k[j])`,
where `U^k` is the buffer `u` after `k` time steps and `U^0[j]` is the
initial condition at `a + (b-a)/(n+1)*j`; every line of block `k` comes
before every line of block `k + 1`. -/
theorem heat_implicit_row_major (spec : problem_spec K) (T : K) (n steps : Nat)
    (u0 v0 d0 c0 : Nat → K) (hn : 1 ≤ n) (hs : 1 ≤ steps) :
    ∃ res : HeatResult K,
      heat_implicit spec T n steps true u0 v0 d0 c0 = some res ∧
      (∀ k j, k ≤ steps → j ≤ n + 1 →
        (dataLines res.file)[k * (n + 2) + j]? =
          some (Line.data ((k : K) / (steps : K)) ((j : K) / ((n + 1 : Nat) : K))
            ((heatLoop spec T n steps u0 v0 d0 c0 k).u j))) ∧
      (∀ j, j ≤ n + 1 →
        (heatLoop spec T n steps u0 v0 d0 c0 0).u j =
          spec.ic (spec.a + (spec.b - spec.a) / ((n + 1 : Nat) : K) * (j : K))) ∧
      (∀ k j i, j ≤ n + 1 → i ≤ n + 1 → k * (n + 2) + j < (k + 1) * (n + 2) + i) := by
  refine ⟨_, heat_implicit_open spec T n steps u0 v0 d0 c0, ?_, ?_, ?_⟩
  · intro k j hk hj
    exact heat_dataLines_getElem? spec T n steps u0 v0 d0 c0 k j hk hj
  · intro j hj
    exact heatLoop_u_zero spec T n steps u0 v0 d0 c0 j hj
  · intro k j i hj hi
    have : (k + 1) * (n + 2) = k * (n + 2) + (n + 2) := by ring
    omega

theorem heat_implicit_row_major_witness :
    1 ≤ 1 ∧ 1 ≤ 1 ∧ ∃ res : HeatResult ℚ,
      heat_implicit coldStart 1 1 1 true (fun _ => 0) (fun _ => 0) (fun _ => 0) (fun _ => 0)
        = some res ∧
      (dataLines res.file)[1 * (1 + 2) + 1]? =
        some (Line.data (((1 : Nat) : ℚ) / ((1 : Nat) : ℚ)) (((1 : Nat) : ℚ) / ((1 + 1 : Nat) : ℚ))
          ((heatLoop coldStart 1 1 1 (fun _ => 0) (fun _ => 0) (fun _ => 0) (fun _ => 0) 1).u 1)) :=
  ⟨by decide, by decide,
    match heat_implicit_row_major coldStart 1 1 1 (fun _ => 0) (fun _ => 0) (fun _ => 0)
      (fun _ => 0) (by decide) (by decide) with
    | ⟨res, h, hrow, _, _⟩ => ⟨res, h, hrow 1 1 (by decide) (by decide)⟩⟩

/-- C7: for `n ≥ 0`, a buffer `u` of `n + 2` values, `T` and a specification
with an exact solution, `get_error` returns the largest of the pointwise
differences `|u[j] - u_exact(a + (b-a)/(n+1)*j, T)|`, `j = 0..n+1`: it is at
least each of them and equal to one of them. -/
theorem get_error_is_max (spec : problem_spec K) (exact : K → K → K) (u : Nat → K) (n : Nat)
    (T : K) (hex : spec.u_exact = some exact) :
    ∃ e : K, get_error spec u n T = some e ∧
      (∀ j, j ≤ n + 1 → |u j - exact (gridPoint spec n j) T| ≤ e) ∧
      (∃ j, j ≤ n + 1 ∧ e = |u j - exact (gridPoint spec n j) T|) := by
  obtain ⟨h0, hle, hex2⟩ := errLoop_spec spec exact u n T (n + 2)
  refine ⟨errLoop spec exact u n T (n + 2), ?_, ?_, ?_⟩
  · simp [get_error, hex]
  · intro j hj
    exact hle j (by omega)
  · rcases hex2 with hz | ⟨j, hj, h⟩
    · refine ⟨0, by omega, ?_⟩
      have h1 := hle 0 (by omega)
      rw [hz] at h1 ⊢
      exact le_antisymm (abs_nonneg _) h1
    · exact ⟨j, by omega, h⟩

theorem get_error_is_max_witness :
    rampExact.u_exact = some (fun x _ => x) ∧
    ∃ e : ℚ, get_error rampExact (fun _ => 0) 1 1 = some e ∧
      (∀ j, j ≤ 1 + 1 → |(fun _ => (0 : ℚ)) j - (fun x _ => x) (gridPoint rampExact 1 j) (1 : ℚ)| ≤ e) ∧
      (∃ j, j ≤ 1 + 1 ∧
        e = |(fun _ => (0 : ℚ)) j - (fun x _ => x) (gridPoint rampExact 1 j) (1 : ℚ)|) :=
  ⟨rfl, get_error_is_max rampExact (fun x _ => x) (fun _ => 0) 1 1 rfl⟩

/-- C8, as stated, fails: the system with diagonal `[1, 1]` and off-diagonals
`[1]` is diagonally dominant in the weak sense, yet with right-hand side
`[1, 2]` no vector solves it, so the `x` written by `trisolve` does not. -/
theorem weak_dominance_counterexample :
    (∀ i, i < 2 → rowDominant 2 flatA flatD flatC i) ∧
    (∀ y : Nat → ℚ, ¬ ∀ i, i < 2 → triRow 2 flatA flatD flatC y i = flatB i) ∧
    ¬ ∀ i, i < 2 →
      triRow 2 flatA flatD flatC (trisolve 2 flatA flatD flatC flatB (fun _ => 0)).x i
        = flatB i := by
  have hno : ∀ y : Nat → ℚ, ¬ ∀ i, i < 2 → triRow 2 flatA flatD flatC y i = flatB i := by
    intro y h
    have e0 := h 0 (by decide)
    have e1 := h 1 (by decide)
    simp [triRow, flatA, flatB, flatC, flatD, ofList] at e0 e1
    linarith
  refine ⟨?_, hno, hno _⟩
  intro i hi
  interval_cases i <;> simp [rowDominant, flatA, flatC, flatD, ofList]

/-- C8, amended: for `n ≥ 1`, every strictly diagonally dominant triple
(`|d[i]| > |a[i-1]| + |c[i]|` on every row, absent neighbours counted as `0`)
and every right-hand side `b`, the `x` written by `trisolve` satisfies
`A * x = b` exactly. -/
theorem trisolve_strict_dominant (n : Nat) (a d c b x : Nat → K) (hn : 1 ≤ n)
    (hdom : ∀ i, i < n → rowStrictDominant n a d c i) (i : Nat) (hi : i < n) :
    triRow n a d c (trisolve n a d c b x).x i = b i :=
  trisolve_row n a d c b x i hi (fun j hj => strict_pivot_ne_zero n a d c b hdom j hj)

theorem trisolve_strict_dominant_witness :
    1 ≤ 3 ∧ (∀ i, i < 3 → rowStrictDominant 3 checkA checkD checkC i) ∧
    triRow 3 checkA checkD checkC (trisolve 3 checkA checkD checkC checkB (fun _ => 0)).x 1
      = checkB 1 :=
  ⟨by decide,
    fun i hi => by
      interval_cases i <;> norm_num [rowStrictDominant, checkA, checkC, checkD, ofList],
    trisolve_strict_dominant 3 checkA checkD checkC checkB (fun _ => 0) (by decide)
      (fun i hi => by
        interval_cases i <;> norm_num [rowStrictDominant, checkA, checkC, checkD, ofList])
      1 (by decide)⟩

/-- C9: for `n ≥ 1` and mesh ratio `r ≥ 0`, in the system `heat_implicit`
hands to `trisolve` at time step `k` (diagonal `1 + 2r`, sub- and
super-diagonal `-r`) every divisor is at least `1 + r > 0`: the updated
`d[i-1]` that pass `i` of the forward sweep divides by, and every `d[i]` that
back-substitution divides by. -/
theorem heat_implicit_pivots (spec : problem_spec K) (T : K) (n steps : Nat)
    (u0 v0 d0 c0 : Nat → K) (k : Nat) (hn : 1 ≤ n) (hr : 0 ≤ meshRatio spec T n steps)
    (hk1 : 1 ≤ k) (hk : k ≤ steps) :
    0 < 1 + meshRatio spec T n steps ∧
    (∀ i, 1 ≤ i → i < n →
      1 + meshRatio spec T n steps ≤
        (forwardSweep (heatOffDiag spec T n steps c0) (heatOffDiag spec T n steps c0)
          (stepDiag n (meshRatio spec T n steps) (heatLoop spec T n steps u0 v0 d0 c0 (k - 1)).d)
          (shiftPtr (foldBoundary n (meshRatio spec T n steps)
            (heatLoop spec T n steps u0 v0 d0 c0 (k - 1)).u
            (stageBoundary spec n (stepTime T steps k)
              (heatLoop spec T n steps u0 v0 d0 c0 (k - 1)).v)))
          (i - 1)).1 (i - 1)) ∧
    (∀ i, i < n →
      1 + meshRatio spec T n steps ≤
        (trisolve n (heatOffDiag spec T n steps c0)
          (stepDiag n (meshRatio spec T n steps) (heatLoop spec T n steps u0 v0 d0 c0 (k - 1)).d)
          (heatOffDiag spec T n steps c0)
          (shiftPtr (foldBoundary n (meshRatio spec T n steps)
            (heatLoop spec T n steps u0 v0 d0 c0 (k - 1)).u
            (stageBoundary spec n (stepTime T steps k)
              (heatLoop spec T n steps u0 v0 d0 c0 (k - 1)).v)))
          (shiftPtr (stageBoundary spec n (stepTime T steps k)
            (heatLoop spec T n steps u0 v0 d0 c0 (k - 1)).v))).d i) ∧
    (∀ i, i < n →
      1 + meshRatio spec T n steps ≤ (heatLoop spec T n steps u0 v0 d0 c0 k).d i) := by
  have hd : ∀ i, i < n →
      stepDiag n (meshRatio spec T n steps) (heatLoop spec T n steps u0 v0 d0 c0 (k - 1)).d i
        = 1 + 2 * meshRatio spec T n steps := by
    intro i hi
    simp [stepDiag, fillLoop_apply, hi]
  have hc : ∀ i, i + 1 < n → heatOffDiag spec T n steps c0 i = -(meshRatio spec T n steps) :=
    fun i hi => heatOffDiag_apply spec T n steps c0 i hi
  have hsolve : ∀ i, i < n →
      1 + meshRatio spec T n steps ≤
        (trisolve n (heatOffDiag spec T n steps c0)
          (stepDiag n (meshRatio spec T n steps) (heatLoop spec T n steps u0 v0 d0 c0 (k - 1)).d)
          (heatOffDiag spec T n steps c0)
          (shiftPtr (foldBoundary n (meshRatio spec T n steps)
            (heatLoop spec T n steps u0 v0 d0 c0 (k - 1)).u
            (stageBoundary spec n (stepTime T steps k)
              (heatLoop spec T n steps u0 v0 d0 c0 (k - 1)).v)))
          (shiftPtr (stageBoundary spec n (stepTime T steps k)
            (heatLoop spec T n steps u0 v0 d0 c0 (k - 1)).v))).d i := by
    intro i hi
    rw [trisolve_d _ _ _ _ _ _ i hi]
    exact heat_pivot_ge n _ _ _ _ _ hr hc hc hd i hi
  refine ⟨by linarith, ?_, hsolve, ?_⟩
  · intro i h1 h2
    exact heat_pivot_ge n _ _ _ _ _ hr hc hc hd (i - 1) (by omega)
  · intro i hi
    obtain ⟨m, rfl⟩ : ∃ m, k = m + 1 := ⟨k - 1, by omega⟩
    have := hsolve i hi
    rw [Nat.add_sub_cancel] at this
    rw [heatLoop_succ]
    exact this

theorem heat_implicit_pivots_witness :
    0 ≤ meshRatio coldStart 1 2 1 ∧
    ∀ i, i < 2 →
      1 + meshRatio coldStart 1 2 1 ≤
        (heatLoop coldStart 1 2 1 (fun _ => 0) (fun _ => 0) (fun _ => 0) (fun _ => 0) 1).d i :=
  ⟨by norm_num [meshRatio, meshWidth, coldStart],
    (heat_implicit_pivots coldStart 1 2 1 (fun _ => 0) (fun _ => 0) (fun _ => 0) (fun _ => 0) 1
      (by decide) (by norm_num [meshRatio, meshWidth, coldStart]) (by decide) (by decide)).2.2.2⟩

/-- C10, at the failing input: with the arguments `1`, `1` and the empty
string, `main` does not show the usage text; it calls `heat_implicit` with
`T = 1`, `n = 1` and `steps = 0`. -/
theorem main_accepts_empty_steps :
    main [['h', 'e', 'a', 't'], ['1'], ['1'], []] = MainResult.invoked 1 1 0 := by
  simp [main, strtod, strtol, takeSign, takeExponent, decValue, longToInt, isspace, List.span,
    List.span.loop]

/-! ## Further properties of the solver and of one step -/

/-- C11, at the failing input: with the arguments `1`, `1` and `0`, `main`
does not show the usage text; it calls `heat_implicit` with `steps = 0`. -/
theorem main_accepts_zero_steps :
    main [['h', 'e', 'a', 't'], ['1'], ['1'], ['0']] = MainResult.invoked 1 1 0 := by
  simp [main, strtod, strtol, takeSign, takeExponent, decValue, longToInt, isspace, List.span,
    List.span.loop]

/-- The system `heat_implicit` builds (diagonal `1 + 2r`, off-diagonals `-r`,
`r ≥ 0`) is strictly diagonally dominant in every row. -/
theorem heat_system_strict (n : Nat) (r : K) (d0 c0 : Nat → K) (hr : 0 ≤ r) (i : Nat)
    (hi : i < n) :
    rowStrictDominant n (fillLoop (fun _ => -r) c0 (n - 1)) (stepDiag n r d0)
      (fillLoop (fun _ => -r) c0 (n - 1)) i := by
  have hd : stepDiag n r d0 i = 1 + 2 * r := by simp [stepDiag, fillLoop_apply, hi]
  have h1 : (if 0 < i then |fillLoop (fun _ => -r) c0 (n - 1) (i - 1)| else 0) ≤ r := by
    split
    · rw [fillLoop_apply, if_pos (by omega), abs_neg, abs_of_nonneg hr]
    · exact hr
  have h2 : (if i + 1 < n then |fillLoop (fun _ => -r) c0 (n - 1) i| else 0) ≤ r := by
    split
    · rw [fillLoop_apply, if_pos (by omega), abs_neg, abs_of_nonneg hr]
    · exact hr
  simp only [rowStrictDominant]
  rw [hd, abs_of_nonneg (by linarith : (0 : K) ≤ 1 + 2 * r)]
  linarith

/-- C16, as stated, fails: for `n = 1` there is no mesh ratio `r ≥ 0` for
which the system of `heat_implicit` violates diagonal dominance; its only row
has no off-diagonal entry. -/
theorem single_row_counterexample :
    ¬ ∃ (spec : problem_spec ℚ) (T : ℚ) (steps : Nat) (d0 c0 : Nat → ℚ),
      0 ≤ meshRatio spec T 1 steps ∧
      ¬ ∀ i, i < 1 →
        rowDominant 1 (heatOffDiag spec T 1 steps c0)
          (stepDiag 1 (meshRatio spec T 1 steps) d0) (heatOffDiag spec T 1 steps c0) i := by
  rintro ⟨spec, T, steps, d0, c0, hr, hnot⟩
  apply hnot
  intro i hi
  have h := heat_system_strict 1 (meshRatio spec T 1 steps) d0 c0 hr i hi
  simp only [rowStrictDominant] at h
  simp only [rowDominant, heatOffDiag]
  exact h.le

/-- C16, amended: for `n = 1`, and for every `n ≥ 1`, and every mesh ratio
`r ≥ 0`, each row of the system `heat_implicit` passes to `trisolve` (diagonal
`1 + 2r`, off-diagonals `-r`) is strictly diagonally dominant, so no `r ≥ 0`
violates diagonal dominance. -/
theorem heat_system_dominant (spec : problem_spec K) (T : K) (n steps : Nat)
    (d0 c0 : Nat → K) (hn : 1 ≤ n) (hr : 0 ≤ meshRatio spec T n steps) (i : Nat) (hi : i < n) :
    rowStrictDominant n (heatOffDiag spec T n steps c0)
        (stepDiag n (meshRatio spec T n steps) d0) (heatOffDiag spec T n steps c0) i ∧
      rowDominant n (heatOffDiag spec T n steps c0)
        (stepDiag n (meshRatio spec T n steps) d0) (heatOffDiag spec T n steps c0) i := by
  have h := heat_system_strict n (meshRatio spec T n steps) d0 c0 hr i hi
  refine ⟨h, ?_⟩
  simp only [rowStrictDominant] at h
  simp only [rowDominant, heatOffDiag]
  exact h.le

theorem heat_system_dominant_witness :
    1 ≤ 1 ∧ 0 ≤ meshRatio coldStart 1000 1 1 ∧
    rowDominant 1 (heatOffDiag coldStart 1000 1 1 (fun _ => 0))
      (stepDiag 1 (meshRatio coldStart 1000 1 1) (fun _ => 0))
      (heatOffDiag coldStart 1000 1 1 (fun _ => 0)) 0 :=
  ⟨by decide, by norm_num [meshRatio, meshWidth, coldStart],
    (heat_system_dominant coldStart 1000 1 1 (fun _ => 0) (fun _ => 0) (by decide)
      (by norm_num [meshRatio, meshWidth, coldStart]) 0 (by decide)).2⟩

/-- C18: for `n ≥ 1` and a strictly diagonally dominant triple every divisor
`trisolve` uses is nonzero: the updated pivots satisfy `|d'[i]| > |c[i]|` for
`i < n - 1` and `d'[n-1] ≠ 0`; hence the `x` written satisfies `A * x = b`. -/
theorem trisolve_strict_pivots (n : Nat) (a d c b x : Nat → K) (hn : 1 ≤ n)
    (hdom : ∀ i, i < n → rowStrictDominant n a d c i) :
    (∀ i, 1 ≤ i → i < n → (forwardSweep a c d b (i - 1)).1 (i - 1) ≠ 0) ∧
    (∀ i, i < n → (trisolve n a d c b x).d i ≠ 0) ∧
    (∀ i, i + 1 < n → |c i| < |(trisolve n a d c b x).d i|) ∧
    (trisolve n a d c b x).d (n - 1) ≠ 0 ∧
    (∀ i, i < n → triRow n a d c (trisolve n a d c b x).x i = b i) := by
  have hp : ∀ j, j < n → (forwardSweep a c d b j).1 j ≠ 0 :=
    fun j hj => strict_pivot_ne_zero n a d c b hdom j hj
  have hd : ∀ i, i < n → (trisolve n a d c b x).d i ≠ 0 := by
    intro i hi
    rw [trisolve_d n a d c b x i hi]
    exact hp i hi
  refine ⟨fun i h1 h2 => hp (i - 1) (by omega), hd, ?_, hd (n - 1) (by omega),
    fun i hi => trisolve_row n a d c b x i hi hp⟩
  intro i hi
  have h := strict_pivot_gt n a d c b hdom i (by omega)
  rw [if_pos hi] at h
  rw [trisolve_d n a d c b x i (by omega)]
  exact h

theorem trisolve_strict_pivots_witness :
    1 ≤ 3 ∧ (∀ i, i < 3 → rowStrictDominant 3 checkA checkD checkC i) ∧
    (trisolve 3 checkA checkD checkC checkB (fun _ => 0)).d (3 - 1) ≠ 0 :=
  ⟨by decide,
    fun i hi => by
      interval_cases i <;> norm_num [rowStrictDominant, checkA, checkC, checkD, ofList],
    (trisolve_strict_pivots 3 checkA checkD checkC checkB (fun _ => 0) (by decide)
      (fun i hi => by
        interval_cases i <;> norm_num [rowStrictDominant, checkA, checkC, checkD, ofList])).2.2.2.1⟩

/-- C20: constant states are fixed points of a step. For `n ≥ 1`, `r ≥ 0` and
a constant `C`, if `u[j] = C` at every interior `j = 1..n` and
`bcL(t_k) = bcR(t_k) = C`, then after the step the new current buffer has
`u[j] = C` for every `j = 0..n+1`. -/
theorem stepBody_constant (spec : problem_spec K) (T : K) (n steps : Nat) (r : K)
    (c0 : Nat → K) (k : Nat) (s : HeatState K) (C : K) (hn : 1 ≤ n) (hr : 0 ≤ r)
    (hu : ∀ j, 1 ≤ j → j ≤ n → s.u j = C)
    (hL : spec.bcL (T * (k : K) / (steps : K)) = C)
    (hR : spec.bcR (T * (k : K) / (steps : K)) = C) (j : Nat) (hj : j ≤ n + 1) :
    (stepBody spec T n steps r (fillLoop (fun _ => -r) c0 (n - 1)) k s).u j = C := by
  have hc : ∀ i, i + 1 < n → fillLoop (fun _ => -r) c0 (n - 1) i = -r := by
    intro i hi
    rw [fillLoop_apply, if_pos (by omega)]
  have h0 : (stepBody spec T n steps r (fillLoop (fun _ => -r) c0 (n - 1)) k s).u 0 = C := by
    rw [stepBody_u_first]; exact hL
  have hl : (stepBody spec T n steps r (fillLoop (fun _ => -r) c0 (n - 1)) k s).u (n + 1)
      = C := by
    rw [stepBody_u_last _ _ _ _ _ _ _ _ hn]; exact hR
  have hmax := euler_max_principle n r
    (fun i => (stepBody spec T n steps r (fillLoop (fun _ => -r) c0 (n - 1)) k s).u i - C)
    (fun _ => 0) 0 hn hr
    (by
      intro i h1 h2
      have e := stepBody_euler spec T n steps r (fillLoop (fun _ => -r) c0 (n - 1)) k s hn hr
        hc i h1 h2
      rw [hu i h1 h2] at e
      simp only []
      linear_combination e)
    (by intro i _ _; simp)
    (by simp [h0])
    (by simp [hl])
    j hj
  have hz : (stepBody spec T n steps r (fillLoop (fun _ => -r) c0 (n - 1)) k s).u j - C = 0 :=
    abs_eq_zero.mp (le_antisymm hmax (abs_nonneg _))
  linear_combination hz

theorem stepBody_constant_witness :
    1 ≤ 2 ∧ (0 : ℚ) ≤ 3 ∧
    (stepBody coldStart 1 2 1 3 (fillLoop (fun _ => -3) (fun _ => 0) (2 - 1)) 1
      { u := fun _ => 1, v := fun _ => 0, d := fun _ => 0, out := [] }).u 1 = 1 :=
  ⟨by decide, by norm_num,
    stepBody_constant coldStart 1 2 1 3 (fun _ => 0) 1
      { u := fun _ => 1, v := fun _ => 0, d := fun _ => 0, out := [] } 1 (by decide)
      (by norm_num) (fun _ _ _ => rfl) rfl rfl 1 (by decide)⟩

/-! ## Independence from the initial contents of the buffers -/

theorem forwardSweep_congr (n : Nat) (a c d b a2 c2 d2 b2 : Nat → K)
    (ha : ∀ i, i + 1 < n → a i = a2 i) (hc : ∀ i, i + 1 < n → c i = c2 i)
    (hd : ∀ i, i < n → d i = d2 i) (hb : ∀ i, i < n → b i = b2 i) (k : Nat) (hk : k + 1 ≤ n)
    (j : Nat) (hj : j < n) :
    (forwardSweep a c d b k).1 j = (forwardSweep a2 c2 d2 b2 k).1 j ∧
      (forwardSweep a c d b k).2 j = (forwardSweep a2 c2 d2 b2 k).2 j := by
  induction k generalizing j with
  | zero => exact ⟨hd j hj, hb j hj⟩
  | succ k ih =>
    have ek := ih (by omega) k (by omega)
    have ej := ih (by omega) j hj
    have ek1 := ih (by omega) (k + 1) (by omega)
    simp only [forwardSweep, elimBody, Nat.add_sub_cancel]
    by_cases h : j = k + 1
    · subst h
      simp only [setAt_same]
      rw [ha k (by omega), hc k (by omega), ek.1, ek.2, ek1.1, ek1.2]
      exact ⟨rfl, rfl⟩
    · rw [setAt_other _ _ _ _ h, setAt_other _ _ _ _ h, setAt_other _ _ _ _ h,
        setAt_other _ _ _ _ h]
      exact ej

/-- The cells `x[0..n-1]` written by `trisolve` depend only on the cells of
`a`, `d`, `c`, `b` inside the system, and not on what `x` held before. -/
theorem trisolve_congr (n : Nat) (a c d b x a2 c2 d2 b2 x2 : Nat → K) (hn : 1 ≤ n)
    (ha : ∀ i, i + 1 < n → a i = a2 i) (hc : ∀ i, i + 1 < n → c i = c2 i)
    (hd : ∀ i, i < n → d i = d2 i) (hb : ∀ i, i < n → b i = b2 i) (m i : Nat)
    (hi : i + m + 1 = n) :
    (trisolve n a d c b x).x i = (trisolve n a2 d2 c2 b2 x2).x i := by
  induction m generalizing i with
  | zero =>
    have e : i = n - 1 := by omega
    subst e
    have h := forwardSweep_congr n a c d b a2 c2 d2 b2 ha hc hd hb (n - 1) (by omega) (n - 1)
      (by omega)
    rw [trisolve_x_last, trisolve_x_last, h.1, h.2]
  | succ m ih =>
    have h := forwardSweep_congr n a c d b a2 c2 d2 b2 ha hc hd hb i (by omega) i (by omega)
    rw [trisolve_x_step n a d c b x i (by omega), trisolve_x_step n a2 d2 c2 b2 x2 i (by omega),
      h.1, h.2, hc i (by omega), ih (i + 1) (by omega)]

theorem plot_curve_congr (u u2 : Nat → K) (n steps k : Nat)
    (h : ∀ j, j ≤ n + 1 → u j = u2 j) : plot_curve u n steps k = plot_curve u2 n steps k := by
  simp only [plot_curve]
  apply List.map_congr_left
  intro j hj
  rw [h j (by have := List.mem_range.mp hj; omega)]

theorem stepBody_u_congr (spec : problem_spec K) (T : K) (n steps : Nat) (r : K)
    (c c2 : Nat → K) (k : Nat) (s s2 : HeatState K) (hn : 1 ≤ n)
    (hc : ∀ i, i + 1 < n → c i = c2 i) (hu : ∀ j, j ≤ n + 1 → s.u j = s2.u j)
    (j : Nat) (hj : j ≤ n + 1) :
    (stepBody spec T n steps r c k s).u j = (stepBody spec T n steps r c2 k s2).u j := by
  by_cases h0 : j = 0
  · subst h0
    rw [stepBody_u_first, stepBody_u_first]
  · by_cases hl : j = n + 1
    · subst hl
      rw [stepBody_u_last _ _ _ _ _ _ _ _ hn, stepBody_u_last _ _ _ _ _ _ _ _ hn]
    · rw [stepBody_u_inner spec T n steps r c k s j (by omega) (by omega),
        stepBody_u_inner spec T n steps r c2 k s2 j (by omega) (by omega)]
      apply trisolve_congr n _ _ _ _ _ _ _ _ _ _ hn hc hc _ _ (n - j) (j - 1) (by omega)
      · intro i hi
        simp [stepDiag, fillLoop_apply, hi]
      · intro i hi
        simp only [shiftPtr]
        rw [foldBoundary_apply, foldBoundary_apply, hu (i + 1) (by omega),
          stageBoundary_first, stageBoundary_first, stageBoundary_last, stageBoundary_last]

theorem stepBody_out (spec : problem_spec K) (T : K) (n steps : Nat) (r : K)
    (c : Nat → K) (k : Nat) (s : HeatState K) :
    (stepBody spec T n steps r c k s).out =
      s.out ++ plot_curve (stepBody spec T n steps r c k s).u n steps k := rfl

/-- After any number of time steps the cells `u[0..n+1]` and the lines written
do not depend on the initial contents of the four buffers. -/
theorem heatLoop_congr (spec : problem_spec K) (T : K) (n steps : Nat)
    (u0 v0 d0 c0 u1 v1 d1 c1 : Nat → K) (hn : 1 ≤ n) (k : Nat) :
    (∀ j, j ≤ n + 1 →
      (heatLoop spec T n steps u0 v0 d0 c0 k).u j = (heatLoop spec T n steps u1 v1 d1 c1 k).u j) ∧
    (heatLoop spec T n steps u0 v0 d0 c0 k).out = (heatLoop spec T n steps u1 v1 d1 c1 k).out := by
  induction k with
  | zero =>
    have hu : ∀ j, j ≤ n + 1 →
        (heatLoop spec T n steps u0 v0 d0 c0 0).u j =
          (heatLoop spec T n steps u1 v1 d1 c1 0).u j := by
      intro j hj
      rw [heatLoop_u_zero _ _ _ _ _ _ _ _ j hj, heatLoop_u_zero _ _ _ _ _ _ _ _ j hj]
    refine ⟨hu, ?_⟩
    have e : ∀ (a b c d : Nat → K), (heatLoop spec T n steps a b c d 0).out =
        [Line.comment, Line.appearance, Line.mesh ((n : Int) + 2) ((steps : Int) + 1)] ++
          plot_curve (heatLoop spec T n steps a b c d 0).u n steps 0 := fun _ _ _ _ => rfl
    rw [e, e, plot_curve_congr _ _ n steps 0 hu]
  | succ k ih =>
    have hu : ∀ j, j ≤ n + 1 →
        (heatLoop spec T n steps u0 v0 d0 c0 (k + 1)).u j =
          (heatLoop spec T n steps u1 v1 d1 c1 (k + 1)).u j := by
      intro j hj
      rw [heatLoop_succ, heatLoop_succ]
      apply stepBody_u_congr spec T n steps _ _ _ (k + 1) _ _ hn _ ih.1 j hj
      intro i hi
      rw [heatOffDiag_apply _ _ _ _ _ i hi, heatOffDiag_apply _ _ _ _ _ i hi]
    refine ⟨hu, ?_⟩
    have e : ∀ (a b c d : Nat → K), (heatLoop spec T n steps a b c d (k + 1)).out =
        (heatLoop spec T n steps a b c d k).out ++
          plot_curve (heatLoop spec T n steps a b c d (k + 1)).u n steps (k + 1) :=
      fun _ _ _ _ => rfl
    rw [e, e, ih.2, plot_curve_congr _ _ n steps (k + 1) hu]

theorem errLoop_congr (spec : problem_spec K) (exact : K → K → K) (u u2 : Nat → K) (n : Nat)
    (T : K) (k : Nat) (h : ∀ j, j < k → u j = u2 j) :
    errLoop spec exact u n T k = errLoop spec exact u2 n T k := by
  induction k with
  | zero => rfl
  | succ k ih =>
    simp only [errLoop, errBody]
    rw [ih (fun j hj => h j (by omega)), h k (by omega)]

theorem get_error_congr (spec : problem_spec K) (u u2 : Nat → K) (n : Nat) (T : K)
    (h : ∀ j, j ≤ n + 1 → u j = u2 j) : get_error spec u n T = get_error spec u2 n T := by
  simp only [get_error]
  cases spec.u_exact with
  | none => rfl
  | some exact =>
    simp only []
    rw [errLoop_congr spec exact u u2 n T (n + 2) (fun j hj => h j (by omega))]

/-! ## Checked memory: accesses in range succeed -/

theorem load_ok (m : Nat → List K) (p : Ptr) (i : Nat) (h : p.off + i < (m p.blk).length) :
    ∃ v, load m p i = some v :=
  ⟨(m p.blk)[p.off + i], by simp [load, h]⟩

theorem store_ok (m : Nat → List K) (p : Ptr) (i : Nat) (v : K)
    (h : p.off + i < (m p.blk).length) :
    ∃ m2, store m p i v = some m2 ∧ SameShape m m2 := by
  refine ⟨fun blk => if blk = p.blk then (m blk).set (p.off + i) v else m blk,
    by simp only [store, if_pos h], ?_⟩
  intro blk
  by_cases hb : blk = p.blk
  · simp [hb]
  · simp [hb]

theorem store_shape (m m2 : Nat → List K) (p : Ptr) (i : Nat) (v : K)
    (h : store m p i v = some m2) : SameShape m m2 := by
  simp only [store] at h
  split at h
  · cases h
    intro blk
    by_cases hb : blk = p.blk
    · simp [hb]
    · simp [hb]
  · cases h

theorem store_inside (m m2 : Nat → List K) (p : Ptr) (i : Nat) (v : K)
    (h : store m p i v = some m2) : p.off + i < (m p.blk).length := by
  simp only [store] at h
  split at h
  · assumption
  · cases h

/-- A store changes no cell but the one it writes. -/
theorem store_frame (m m2 : Nat → List K) (p : Ptr) (i : Nat) (v : K)
    (h : store m p i v = some m2) (blk idx : Nat) (hne : blk ≠ p.blk ∨ idx ≠ p.off + i) :
    (m2 blk)[idx]? = (m blk)[idx]? := by
  simp only [store] at h
  split at h
  · cases h
    by_cases hb : blk = p.blk
    · rcases hne with h1 | h1
      · exact absurd hb h1
      · simp only [hb, if_true]
        rw [List.getElem?_set_ne (Ne.symm h1)]
    · simp [hb]
  · cases h

theorem store_same (m m2 : Nat → List K) (p : Ptr) (i : Nat) (v : K)
    (h : store m p i v = some m2) : load m2 p i = some v := by
  have hin := store_inside m m2 p i v h
  simp only [store] at h
  rw [if_pos hin] at h
  cases h
  simp [load, hin]

theorem SameShape.refl (m : Nat → List K) : SameShape m m := fun _ => rfl

theorem SameShape.trans {m m2 m3 : Nat → List K} (h1 : SameShape m m2) (h2 : SameShape m2 m3) :
    SameShape m m3 := fun blk => (h2 blk).trans (h1 blk)

theorem Fits.shape {m m2 : Nat → List K} {p : Ptr} {len : Nat} (h : Fits m p len)
    (hs : SameShape m m2) : Fits m2 p len := by
  simp only [Fits] at h ⊢
  rw [hs p.blk]
  exact h

theorem elimBodyM_ok (a d c b : Ptr) (i : Nat) (m : Nat → List K)
    (ha : a.off + (i - 1) < (m a.blk).length) (hd : d.off + i < (m d.blk).length)
    (hc : c.off + (i - 1) < (m c.blk).length) (hb : b.off + i < (m b.blk).length) :
    ∃ m2, elimBodyM a d c b i m = some m2 ∧ SameShape m m2 := by
  obtain ⟨ai, hai⟩ := load_ok m a (i - 1) ha
  obtain ⟨dp, hdp⟩ := load_ok m d (i - 1) (by omega)
  obtain ⟨di, hdi⟩ := load_ok m d i hd
  obtain ⟨cp, hcp⟩ := load_ok m c (i - 1) hc
  obtain ⟨m1, hm1, hs1⟩ := store_ok m d i (di - ai / dp * cp) hd
  obtain ⟨bi, hbi⟩ := load_ok m1 b i (by rw [hs1]; exact hb)
  obtain ⟨bp, hbp⟩ := load_ok m1 b (i - 1) (by rw [hs1]; omega)
  obtain ⟨m2, hm2, hs2⟩ := store_ok m1 b i (bi - ai / dp * bp) (by rw [hs1]; exact hb)
  refine ⟨m2, ?_, hs1.trans hs2⟩
  simp [elimBodyM, hai, hdp, hdi, hcp, hm1, hbi, hbp, hm2]

theorem forwardSweepM_ok (a d c b : Ptr) (n : Nat) (m : Nat → List K)
    (ha : Fits m a (n - 1)) (hd : Fits m d n) (hc : Fits m c (n - 1)) (hb : Fits m b n)
    (k : Nat) (hk : k + 1 ≤ n) :
    ∃ m2, forwardSweepM a d c b k m = some m2 ∧ SameShape m m2 := by
  induction k with
  | zero => exact ⟨m, rfl, SameShape.refl m⟩
  | succ k ih =>
    obtain ⟨m1, hm1, hs1⟩ := ih (by omega)
    simp only [Fits] at ha hd hc hb
    obtain ⟨m2, hm2, hs2⟩ := elimBodyM_ok a d c b (k + 1) m1
      (by rw [hs1]; omega) (by rw [hs1]; omega) (by rw [hs1]; omega) (by rw [hs1]; omega)
    exact ⟨m2, by simp [forwardSweepM, hm1, hm2], hs1.trans hs2⟩

theorem backSubstM_ok (d c b x : Ptr) (n : Nat) (k : Nat) (hk : k + 1 ≤ n) (m : Nat → List K)
    (hd : Fits m d n) (hc : Fits m c (n - 1)) (hb : Fits m b n) (hx : Fits m x n) :
    ∃ m2, backSubstM d c b x k m = some m2 ∧ SameShape m m2 := by
  induction k generalizing m with
  | zero => exact ⟨m, rfl, SameShape.refl m⟩
  | succ k ih =>
    have hd2 := hd
    have hc2 := hc
    have hb2 := hb
    have hx2 := hx
    simp only [Fits] at hd2 hc2 hb2 hx2
    obtain ⟨bi, hbi⟩ := load_ok m b k (by omega)
    obtain ⟨ci, hci⟩ := load_ok m c k (by omega)
    obtain ⟨xn, hxn⟩ := load_ok m x (k + 1) (by omega)
    obtain ⟨di, hdi⟩ := load_ok m d k (by omega)
    obtain ⟨m1, hm1, hs1⟩ := store_ok m x k ((bi - ci * xn) / di) (by omega)
    obtain ⟨m2, hm2, hs2⟩ := ih (by omega) m1 (hd.shape hs1) (hc.shape hs1) (hb.shape hs1)
      (hx.shape hs1)
    exact ⟨m2, by simp [backSubstM, hbi, hci, hxn, hdi, hm1, hm2], hs1.trans hs2⟩

/-- With `a` and `c` holding `n - 1` cells and `d`, `b`, `x` holding `n`
cells, `n ≥ 1`, every access of `trisolve` is in range, whichever of the
pointers coincide. -/
theorem trisolveM_ok (n : Nat) (a d c b x : Ptr) (m : Nat → List K) (hn : 1 ≤ n)
    (ha : Fits m a (n - 1)) (hd : Fits m d n) (hc : Fits m c (n - 1)) (hb : Fits m b n)
    (hx : Fits m x n) :
    ∃ m2, trisolveM n a d c b x m = some m2 ∧ SameShape m m2 := by
  obtain ⟨m1, hm1, hs1⟩ := forwardSweepM_ok a d c b n m ha hd hc hb (n - 1) (by omega)
  have hd1 := hd.shape hs1
  have hb1 := hb.shape hs1
  have hx1 := hx.shape hs1
  have hd2 := hd1
  have hb2 := hb1
  have hx2 := hx1
  simp only [Fits] at hd2 hb2 hx2
  obtain ⟨bl, hbl⟩ := load_ok m1 b (n - 1) (by omega)
  obtain ⟨dl, hdl⟩ := load_ok m1 d (n - 1) (by omega)
  obtain ⟨m2, hm2, hs2⟩ := store_ok m1 x (n - 1) (bl / dl) (by omega)
  obtain ⟨m3, hm3, hs3⟩ := backSubstM_ok d c b x n (n - 1) (by omega) m2 (hd1.shape hs2)
    ((hc.shape hs1).shape hs2) (hb1.shape hs2) (hx1.shape hs2)
  exact ⟨m3, by simp [trisolveM, hm1, hbl, hdl, hm2, hm3], (hs1.trans hs2).trans hs3⟩

/-! ## Checked memory: what trisolve leaves unchanged -/

theorem elimBodyM_frame (a d c b : Ptr) (i : Nat) (m m2 : Nat → List K)
    (h : elimBodyM a d c b i m = some m2) (blk idx : Nat)
    (hd : ¬ (blk = d.blk ∧ idx = d.off + i)) (hb : ¬ (blk = b.blk ∧ idx = b.off + i)) :
    (m2 blk)[idx]? = (m blk)[idx]? := by
  simp only [elimBodyM, Option.bind_eq_bind, Option.bind_eq_some] at h
  obtain ⟨ai, _, dp, _, di, _, cp, _, m1, hm1, bi, _, bp, _, hm2⟩ := h
  rw [store_frame m1 m2 b i _ hm2 blk idx (by tauto),
    store_frame m m1 d i _ hm1 blk idx (by tauto)]

theorem forwardSweepM_frame (a d c b : Ptr) (k : Nat) (m m2 : Nat → List K)
    (h : forwardSweepM a d c b k m = some m2) (blk idx : Nat)
    (hd : ¬ (blk = d.blk ∧ d.off + 1 ≤ idx ∧ idx ≤ d.off + k))
    (hb : ¬ (blk = b.blk ∧ b.off + 1 ≤ idx ∧ idx ≤ b.off + k)) :
    (m2 blk)[idx]? = (m blk)[idx]? := by
  induction k generalizing m2 with
  | zero =>
    simp only [forwardSweepM] at h
    cases h; rfl
  | succ k ih =>
    simp only [forwardSweepM, Option.bind_eq_some] at h
    obtain ⟨m1, hm1, hm2⟩ := h
    rw [elimBodyM_frame a d c b (k + 1) m1 m2 hm2 blk idx
      (by rintro ⟨h1, h2⟩; exact hd ⟨h1, by omega, by omega⟩)
      (by rintro ⟨h1, h2⟩; exact hb ⟨h1, by omega, by omega⟩)]
    exact ih m1 hm1 (by rintro ⟨h1, h2, h3⟩; exact hd ⟨h1, h2, by omega⟩)
      (by rintro ⟨h1, h2, h3⟩; exact hb ⟨h1, h2, by omega⟩)

theorem backSubstM_frame (d c b x : Ptr) (k : Nat) (m m2 : Nat → List K)
    (h : backSubstM d c b x k m = some m2) (blk idx : Nat)
    (hx : ¬ (blk = x.blk ∧ x.off ≤ idx ∧ idx < x.off + k)) :
    (m2 blk)[idx]? = (m blk)[idx]? := by
  induction k generalizing m with
  | zero =>
    simp only [backSubstM] at h
    cases h; rfl
  | succ k ih =>
    simp only [backSubstM, Option.bind_eq_bind, Option.bind_eq_some] at h
    obtain ⟨bi, _, ci, _, xn, _, di, _, m1, hm1, hm2⟩ := h
    rw [ih m1 hm2 (by rintro ⟨h1, h2, h3⟩; exact hx ⟨h1, h2, by omega⟩),
      store_frame m m1 x k _ hm1 blk idx
        (by
          by_contra hcon
          push_neg at hcon
          exact hx ⟨hcon.1, by omega, by omega⟩)]

/-- The frame of `trisolve`: every cell outside `d[1..n-1]`, `b[1..n-1]` and
`x[0..n-1]` holds after the call what it held before. -/
theorem trisolveM_frame (n : Nat) (a d c b x : Ptr) (m m2 : Nat → List K) (hn : 1 ≤ n)
    (h : trisolveM n a d c b x m = some m2) (blk idx : Nat)
    (hw : ¬ TriWritten n d b x blk idx) :
    (m2 blk)[idx]? = (m blk)[idx]? := by
  simp only [TriWritten] at hw
  push_neg at hw
  simp only [trisolveM, Option.bind_eq_bind, Option.bind_eq_some] at h
  obtain ⟨m1, hm1, bl, _, dl, _, m3, hm3, hm4⟩ := h
  rw [backSubstM_frame d c b x (n - 1) m3 m2 hm4 blk idx
      (by rintro ⟨h1, h2, h3⟩; exact absurd (hw.2.2 h1 h2) (by omega)),
    store_frame m1 m3 x (n - 1) _ hm3 blk idx
      (by
        by_contra hcon
        push_neg at hcon
        exact absurd (hw.2.2 hcon.1 (by omega)) (by omega)),
    forwardSweepM_frame a d c b (n - 1) m m1 hm1 blk idx
      (by rintro ⟨h1, h2, h3⟩; exact absurd (hw.1 h1 h2) (by omega))
      (by rintro ⟨h1, h2, h3⟩; exact absurd (hw.2.1 h1 h2) (by omega))]

theorem trisolveM_shape (n : Nat) (a d c b x : Ptr) (m m2 : Nat → List K)
    (h : trisolveM n a d c b x m = some m2) : SameShape m m2 := by
  have hfs : ∀ k m1, forwardSweepM a d c b k m = some m1 → SameShape m m1 := by
    intro k
    induction k with
    | zero =>
      intro m1 h1
      simp only [forwardSweepM] at h1
      cases h1; exact SameShape.refl m
    | succ k ih =>
      intro m1 h1
      simp only [forwardSweepM, Option.bind_eq_some] at h1
      obtain ⟨m0, hm0, he⟩ := h1
      simp only [elimBodyM, Option.bind_eq_bind, Option.bind_eq_some] at he
      obtain ⟨ai, _, dp, _, di, _, cp, _, ma, hma, bi, _, bp, _, hmb⟩ := he
      exact (ih m0 hm0).trans ((store_shape _ _ _ _ _ hma).trans (store_shape _ _ _ _ _ hmb))
  have hbs : ∀ (k : Nat) (m0 m1 : Nat → List K),
      backSubstM d c b x k m0 = some m1 → SameShape m0 m1 := by
    intro k
    induction k with
    | zero =>
      intro m0 m1 h1
      simp only [backSubstM] at h1
      cases h1; exact SameShape.refl m0
    | succ k ih =>
      intro m0 m1 h1
      simp only [backSubstM, Option.bind_eq_bind, Option.bind_eq_some] at h1
      obtain ⟨bi, _, ci, _, xn, _, di, _, ma, hma, hmb⟩ := h1
      exact (store_shape _ _ _ _ _ hma).trans (ih ma m1 hmb)
  simp only [trisolveM, Option.bind_eq_bind, Option.bind_eq_some] at h
  obtain ⟨m1, hm1, bl, _, dl, _, m3, hm3, hm4⟩ := h
  exact ((hfs _ m1 hm1).trans (store_shape _ _ _ _ _ hm3)).trans (hbs _ m3 m2 hm4)

/-! ## Checked memory: the output aliased with the right-hand side -/

/-- Back-substitution into `b` itself and back-substitution into a separate
`x` stay in step: started from memories that agree on `d`, on `c`, on the
cells of `b` still to be processed, and whose finished cells agree (`b` in
the one, `x` in the other), they end with `b[0..n-1]` of the one equal to
`x[0..n-1]` of the other. -/
theorem backSubstM_alias (n : Nat) (d c b x : Ptr) (hbd : b.blk ≠ d.blk) (hbc : b.blk ≠ c.blk)
    (hxb : x.blk ≠ b.blk) (hxd : x.blk ≠ d.blk) (hxc : x.blk ≠ c.blk) (k : Nat)
    (hk : k + 1 ≤ n) (mA mS mA2 mS2 : Nat → List K)
    (h1 : ∀ i, i < n → load mA d i = load mS d i)
    (h2 : ∀ i, i + 1 < n → load mA c i = load mS c i)
    (h3 : ∀ i, i < k → load mA b i = load mS b i)
    (h4 : ∀ i, k ≤ i → i < n → load mA b i = load mS x i)
    (hA : backSubstM d c b b k mA = some mA2) (hS : backSubstM d c b x k mS = some mS2)
    (i : Nat) (hi : i < n) : load mA2 b i = load mS2 x i := by
  induction k generalizing mA mS with
  | zero =>
    simp only [backSubstM] at hA hS
    cases hA; cases hS
    exact h4 i (by omega) hi
  | succ k ih =>
    simp only [backSubstM, Option.bind_eq_bind, Option.bind_eq_some] at hA hS
    obtain ⟨bi, hbi, ci, hci, xn, hxn, di, hdi, mA1, hmA1, hA2⟩ := hA
    obtain ⟨bi2, hbi2, ci2, hci2, xn2, hxn2, di2, hdi2, mS1, hmS1, hS2⟩ := hS
    have e1 : bi = bi2 := by
      have := h3 k (by omega); rw [hbi, hbi2] at this; exact Option.some.inj this
    have e2 : ci = ci2 := by
      have := h2 k (by omega); rw [hci, hci2] at this; exact Option.some.inj this
    have e3 : xn = xn2 := by
      have := h4 (k + 1) (by omega) (by omega); rw [hxn, hxn2] at this
      exact Option.some.inj this
    have e4 : di = di2 := by
      have := h1 k (by omega); rw [hdi, hdi2] at this; exact Option.some.inj this
    subst e1 e2 e3 e4
    have fA := store_frame mA mA1 b k _ hmA1
    have fS := store_frame mS mS1 x k _ hmS1
    apply ih (by omega) mA1 mS1
    · intro j hj
      have := h1 j hj
      simp only [load] at this ⊢
      rw [fA d.blk _ (Or.inl (Ne.symm hbd)), fS d.blk _ (Or.inl (Ne.symm hxd))]
      exact this
    · intro j hj
      have := h2 j hj
      simp only [load] at this ⊢
      rw [fA c.blk _ (Or.inl (Ne.symm hbc)), fS c.blk _ (Or.inl (Ne.symm hxc))]
      exact this
    · intro j hj
      have := h3 j (by omega)
      simp only [load] at this ⊢
      rw [fA b.blk _ (Or.inr (by omega)), fS b.blk _ (Or.inl (Ne.symm hxb))]
      exact this
    · intro j hj1 hj2
      by_cases hjk : j = k
      · subst hjk
        rw [store_same mA mA1 b j _ hmA1, store_same mS mS1 x j _ hmS1]
      · have := h4 j (by omega) hj2
        simp only [load] at this ⊢
        rw [fA b.blk _ (Or.inr (by omega)), fS x.blk _ (Or.inr (by omega))]
        exact this
    · exact hA2
    · exact hS2

/-- C14: the output may alias the right-hand side. For `n ≥ 1`, buffers of
the right sizes, `b` a buffer other than `d` and `c`, and `x` a buffer
separate from `d`, `c` and `b`: the call with `x` being `b` itself and the
call with the separate `x` both complete, and `b[0..n-1]` after the first
holds exactly the values `x[0..n-1]` after the second. -/
theorem trisolveM_alias (n : Nat) (a d c b x : Ptr) (m : Nat → List K) (hn : 1 ≤ n)
    (ha : Fits m a (n - 1)) (hd : Fits m d n) (hc : Fits m c (n - 1)) (hb : Fits m b n)
    (hx : Fits m x n) (hbd : b.blk ≠ d.blk) (hbc : b.blk ≠ c.blk)
    (hxb : x.blk ≠ b.blk) (hxd : x.blk ≠ d.blk) (hxc : x.blk ≠ c.blk) :
    ∃ mA mS, trisolveM n a d c b b m = some mA ∧ trisolveM n a d c b x m = some mS ∧
      ∀ i, i < n → ∃ v, load mA b i = some v ∧ load mS x i = some v := by
  obtain ⟨mA, hA, hsA⟩ := trisolveM_ok n a d c b b m hn ha hd hc hb hb
  obtain ⟨mS, hS, hsS⟩ := trisolveM_ok n a d c b x m hn ha hd hc hb hx
  refine ⟨mA, mS, hA, hS, ?_⟩
  have key : ∀ i, i < n → load mA b i = load mS x i := by
    simp only [trisolveM, Option.bind_eq_bind, Option.bind_eq_some] at hA hS
    obtain ⟨m1, hm1, bl, hbl, dl, hdl, mA0, hmA0, hA2⟩ := hA
    obtain ⟨m1b, hm1b, bl2, hbl2, dl2, hdl2, mS0, hmS0, hS2⟩ := hS
    rw [hm1] at hm1b
    cases hm1b
    rw [hbl] at hbl2
    rw [hdl] at hdl2
    cases hbl2
    cases hdl2
    have fA := store_frame m1 mA0 b (n - 1) _ hmA0
    have fS := store_frame m1 mS0 x (n - 1) _ hmS0
    intro i hi
    apply backSubstM_alias n d c b x hbd hbc hxb hxd hxc (n - 1) (by omega) mA0 mS0 mA mS
    · intro j hj
      simp only [load]
      rw [fA d.blk _ (Or.inl (Ne.symm hbd)), fS d.blk _ (Or.inl (Ne.symm hxd))]
    · intro j hj
      simp only [load]
      rw [fA c.blk _ (Or.inl (Ne.symm hbc)), fS c.blk _ (Or.inl (Ne.symm hxc))]
    · intro j hj
      simp only [load]
      rw [fA b.blk _ (Or.inr (by omega)), fS b.blk _ (Or.inl (Ne.symm hxb))]
    · intro j hj1 hj2
      have : j = n - 1 := by omega
      subst this
      rw [store_same m1 mA0 b _ _ hmA0, store_same m1 mS0 x _ _ hmS0]
    · exact hA2
    · exact hS2
    · exact hi
  intro i hi
  have hx2 := hx.shape hsS
  simp only [Fits] at hx2
  obtain ⟨v, hv⟩ := load_ok mS x i (by omega)
  exact ⟨v, by rw [key i hi, hv], hv⟩

/-! ## Checked memory: the marching engine -/

theorem fillLoopM_ok (f : Nat → K) (p : Ptr) (cnt : Nat) (m : Nat → List K)
    (h : Fits m p cnt) :
    ∃ m2, fillLoopM f p cnt m = some m2 ∧ SameShape m m2 ∧
      (∀ j, j < cnt → load m2 p j = some (f j)) ∧
      (∀ blk idx, ¬ (blk = p.blk ∧ p.off ≤ idx ∧ idx < p.off + cnt) →
        (m2 blk)[idx]? = (m blk)[idx]?) := by
  induction cnt with
  | zero =>
    exact ⟨m, rfl, SameShape.refl m, fun j hj => absurd hj (by omega), fun _ _ _ => rfl⟩
  | succ k ih =>
    simp only [Fits] at h
    obtain ⟨m1, hm1, hs1, hv1, hf1⟩ := ih (by simp only [Fits]; omega)
    obtain ⟨m2, hm2, hs2⟩ := store_ok m1 p k (f k) (by rw [hs1]; omega)
    have fr := store_frame m1 m2 p k _ hm2
    refine ⟨m2, by simp [fillLoopM, hm1, hm2], hs1.trans hs2, ?_, ?_⟩
    · intro j hj
      by_cases hjk : j = k
      · subst hjk
        exact store_same m1 m2 p j _ hm2
      · have := hv1 j (by omega)
        simp only [load] at this ⊢
        rw [fr p.blk _ (Or.inr (by omega))]
        exact this
    · intro blk idx hne
      rw [fr blk idx (by
        by_contra hcon
        push_neg at hcon
        exact hne ⟨hcon.1, by omega, by omega⟩)]
      exact hf1 blk idx (by rintro ⟨h1, h2, h3⟩; exact hne ⟨h1, h2, by omega⟩)

theorem plotLoopM_ok (m : Nat → List K) (u : Ptr) (n steps k cnt : Nat) (h : Fits m u cnt) :
    ∃ ls, plotLoopM m u n steps k cnt = some ls ∧ ls.length = cnt ∧
      ∀ j, j < cnt → ∃ uj, load m u j = some uj ∧
        ls[j]? = some (Line.data ((k : K) / (steps : K)) ((j : K) / ((n + 1 : Nat) : K)) uj) := by
  induction cnt with
  | zero => exact ⟨[], rfl, rfl, fun j hj => absurd hj (by omega)⟩
  | succ c ih =>
    simp only [Fits] at h
    obtain ⟨ls, hls, hlen, hget⟩ := ih (by simp only [Fits]; omega)
    obtain ⟨uc, huc⟩ := load_ok m u c (by omega)
    refine ⟨ls ++ [Line.data ((k : K) / (steps : K)) ((c : K) / ((n + 1 : Nat) : K)) uc],
      by simp [plotLoopM, hls, huc], by simp [hlen], ?_⟩
    intro j hj
    by_cases hjc : j = c
    · subst hjc
      refine ⟨uc, huc, ?_⟩
      rw [List.getElem?_append_right (by omega), hlen]
      simp
    · obtain ⟨uj, h1, h2⟩ := hget j (by omega)
      refine ⟨uj, h1, ?_⟩
      rw [List.getElem?_append_left (by omega)]
      exact h2

theorem errLoopM_ok (spec : problem_spec K) (exact : K → K → K) (m : Nat → List K) (u : Ptr)
    (n : Nat) (T : K) (cnt : Nat) (h : Fits m u cnt) :
    ∃ e, errLoopM spec exact m u n T cnt = some e := by
  induction cnt with
  | zero => exact ⟨0, rfl⟩
  | succ c ih =>
    simp only [Fits] at h
    obtain ⟨e, he⟩ := ih (by simp only [Fits]; omega)
    obtain ⟨uc, huc⟩ := load_ok m u c (by omega)
    exact ⟨if |uc - exact (gridPoint spec n c) T| > e then |uc - exact (gridPoint spec n c) T|
      else e, by simp [errLoopM, he, huc]⟩

theorem HeatInv.len_u {n : Nat} {s : HeatMem K} (h : HeatInv n s) :
    (s.mem s.u.blk).length = n + 2 := by
  obtain ⟨_, _, h3, _, _, h6, h7, _, _⟩ := h
  have : s.u.blk = 0 ∨ s.u.blk = 1 := by omega
  rcases this with e | e <;> rw [e] <;> assumption

theorem HeatInv.len_v {n : Nat} {s : HeatMem K} (h : HeatInv n s) :
    (s.mem s.v.blk).length = n + 2 := by
  obtain ⟨_, _, _, h4, _, h6, h7, _, _⟩ := h
  have : s.v.blk = 0 ∨ s.v.blk = 1 := by omega
  rcases this with e | e <;> rw [e] <;> assumption

/-- One pass of the time loop on checked memory: every access is in range,
the shape of the state is kept, the block of `c` is not touched, the staged
boundary values survive the solve, and they are the first and the last value
of the block written. -/
theorem stepBodyM_ok (spec : problem_spec K) (T : K) (n steps : Nat) (r : K) (k : Nat)
    (s : HeatMem K) (hn : 1 ≤ n) (hinv : HeatInv n s) :
    ∃ s2, stepBodyM spec T n steps r { blk := 2, off := 0 } { blk := 3, off := 0 } k s = some s2 ∧
      HeatInv n s2 ∧ s2.u = s.v ∧ s2.v = s.u ∧
      (∀ idx : Nat, (s2.mem 3)[idx]? = (s.mem 3)[idx]?) ∧
      load s2.mem s2.u 0 = some (spec.bcL (stepTime T steps k)) ∧
      load s2.mem s2.u (n + 1) = some (spec.bcR (stepTime T steps k)) ∧
      ∃ ls, s2.out = s.out ++ ls ∧ ls.length = n + 2 ∧
        ls[0]? = some (Line.data ((k : K) / (steps : K)) (((0 : Nat) : K) / ((n + 1 : Nat) : K))
          (spec.bcL (stepTime T steps k))) ∧
        ls[n + 1]? = some (Line.data ((k : K) / (steps : K))
          (((n + 1 : Nat) : K) / ((n + 1 : Nat) : K)) (spec.bcR (stepTime T steps k))) := by
  have lu := hinv.len_u
  have lv := hinv.len_v
  obtain ⟨ou, ov, bu, bv, hne, l0, l1, l2, l3⟩ := hinv
  obtain ⟨m1, hm1, hs1⟩ := store_ok s.mem s.v 0 (spec.bcL (stepTime T steps k)) (by omega)
  obtain ⟨m2, hm2, hs2⟩ := store_ok m1 s.v (n + 1) (spec.bcR (stepTime T steps k))
    (by rw [hs1]; omega)
  have sh2 : SameShape s.mem m2 := hs1.trans hs2
  obtain ⟨u1, hu1⟩ := load_ok m2 s.u 1 (by rw [sh2]; omega)
  obtain ⟨v0, hv0⟩ := load_ok m2 s.v 0 (by rw [sh2]; omega)
  obtain ⟨m3, hm3, hs3⟩ := store_ok m2 s.u 1 (u1 + r * v0) (by rw [sh2]; omega)
  have sh3 : SameShape s.mem m3 := sh2.trans hs3
  obtain ⟨un, hun⟩ := load_ok m3 s.u n (by rw [sh3]; omega)
  obtain ⟨vl, hvl⟩ := load_ok m3 s.v (n + 1) (by rw [sh3]; omega)
  obtain ⟨m4, hm4, hs4⟩ := store_ok m3 s.u n (un + r * vl) (by rw [sh3]; omega)
  have sh4 : SameShape s.mem m4 := sh3.trans hs4
  obtain ⟨m5, hm5, hs5, _, hf5⟩ := fillLoopM_ok (fun _ => 1 + 2 * r) { blk := 2, off := 0 } n m4
    (by simp only [Fits]; rw [sh4]; omega)
  have sh5 : SameShape s.mem m5 := sh4.trans hs5
  obtain ⟨m6, hm6, hs6⟩ := trisolveM_ok n { blk := 3, off := 0 } { blk := 2, off := 0 }
    { blk := 3, off := 0 } (s.u.shift 1) (s.v.shift 1) m5 hn
    (by simp only [Fits]; rw [sh5]; omega) (by simp only [Fits]; rw [sh5]; omega)
    (by simp only [Fits]; rw [sh5]; omega)
    (by simp only [Fits, Ptr.shift]; rw [sh5]; omega)
    (by simp only [Fits, Ptr.shift]; rw [sh5]; omega)
  have sh6 : SameShape s.mem m6 := sh5.trans hs6
  obtain ⟨ls, hls, hlen, hget⟩ := plotLoopM_ok m6 s.v n steps k (n + 2)
    (by simp only [Fits]; rw [sh6]; omega)
  have f6 := trisolveM_frame n { blk := 3, off := 0 } { blk := 2, off := 0 }
    { blk := 3, off := 0 } (s.u.shift 1) (s.v.shift 1) m5 m6 hn hm6
  -- the staged boundary cells
  have cL : (m6 s.v.blk)[0]? = some (spec.bcL (stepTime T steps k)) := by
    rw [f6 s.v.blk 0 (by simp only [TriWritten, Ptr.shift]; omega),
      hf5 s.v.blk 0 (by simp only []; omega),
      store_frame m3 m4 s.u n _ hm4 s.v.blk 0 (Or.inl (Ne.symm hne)),
      store_frame m2 m3 s.u 1 _ hm3 s.v.blk 0 (Or.inl (Ne.symm hne)),
      store_frame m1 m2 s.v (n + 1) _ hm2 s.v.blk 0 (Or.inr (by omega))]
    have := store_same s.mem m1 s.v 0 _ hm1
    simpa only [load, ov, Nat.add_zero] using this
  have cR : (m6 s.v.blk)[n + 1]? = some (spec.bcR (stepTime T steps k)) := by
    rw [f6 s.v.blk (n + 1) (by simp only [TriWritten, Ptr.shift]; omega),
      hf5 s.v.blk (n + 1) (by simp only []; omega),
      store_frame m3 m4 s.u n _ hm4 s.v.blk (n + 1) (Or.inl (Ne.symm hne)),
      store_frame m2 m3 s.u 1 _ hm3 s.v.blk (n + 1) (Or.inl (Ne.symm hne))]
    have := store_same m1 m2 s.v (n + 1) _ hm2
    simpa only [load, ov, Nat.zero_add] using this
  have cC : ∀ idx : Nat, (m6 3)[idx]? = (s.mem 3)[idx]? := by
    intro idx
    rw [f6 3 idx (by simp only [TriWritten, Ptr.shift]; omega),
      hf5 3 idx (by simp only []; omega),
      store_frame m3 m4 s.u n _ hm4 3 idx (Or.inl (by omega)),
      store_frame m2 m3 s.u 1 _ hm3 3 idx (Or.inl (by omega)),
      store_frame m1 m2 s.v (n + 1) _ hm2 3 idx (Or.inl (by omega)),
      store_frame s.mem m1 s.v 0 _ hm1 3 idx (Or.inl (by omega))]
  refine ⟨{ mem := m6, u := s.v, v := s.u, out := s.out ++ ls }, ?_, ?_, rfl, rfl, cC, ?_, ?_,
    ls, rfl, hlen, ?_, ?_⟩
  · simp [stepBodyM, hm1, hm2, hu1, hv0, hm3, hun, hvl, hm4, hm5, hm6, hls]
  · refine ⟨ov, ou, bv, bu, Ne.symm hne, ?_, ?_, ?_, ?_⟩
    · show (m6 0).length = n + 2
      rw [sh6]; exact l0
    · show (m6 1).length = n + 2
      rw [sh6]; exact l1
    · show (m6 2).length = n
      rw [sh6]; exact l2
    · show (m6 3).length = n - 1
      rw [sh6]; exact l3
  · show load m6 s.v 0 = _
    simpa only [load, ov, Nat.add_zero] using cL
  · show load m6 s.v (n + 1) = _
    simpa only [load, ov, Nat.zero_add] using cR
  · obtain ⟨uj, h1, h2⟩ := hget 0 (by omega)
    simp only [load, ov, Nat.add_zero] at h1
    rw [cL] at h1
    cases h1
    exact h2
  · obtain ⟨uj, h1, h2⟩ := hget (n + 1) (by omega)
    simp only [load, ov, Nat.zero_add] at h1
    rw [cR] at h1
    cases h1
    exact h2

theorem marchLoopM_succ (spec : problem_spec K) (T : K) (n steps : Nat) (r : K) (d c : Ptr)
    (s0 : HeatMem K) (k : Nat) :
    marchLoopM spec T n steps r d c s0 (k + 1) =
      (marchLoopM spec T n steps r d c s0 k).bind (stepBodyM spec T n steps r d c (k + 1)) :=
  rfl

theorem marchLoopM_ok (spec : problem_spec K) (T : K) (n steps : Nat) (r : K)
    (s0 : HeatMem K) (hn : 1 ≤ n) (hinv : HeatInv n s0) (k : Nat) :
    ∃ s, marchLoopM spec T n steps r { blk := 2, off := 0 } { blk := 3, off := 0 } s0 k = some s ∧
      HeatInv n s ∧ (∀ idx : Nat, (s.mem 3)[idx]? = (s0.mem 3)[idx]?) := by
  induction k with
  | zero => exact ⟨s0, rfl, hinv, fun _ => rfl⟩
  | succ k ih =>
    obtain ⟨s1, h1, hinv1, hc1⟩ := ih
    obtain ⟨s2, h2, hinv2, _, _, hc2, _⟩ := stepBodyM_ok spec T n steps r (k + 1) s1 hn hinv1
    exact ⟨s2, by rw [marchLoopM_succ, h1]; exact h2, hinv2,
      fun idx => (hc2 idx).trans (hc1 idx)⟩

/-- The state of `heat_implicit` on entry to the time loop, on checked memory:
with buffers of the allocated sizes every access so far was in range, the
state has the expected shape and `c[0..n-2]` holds `-r`. -/
theorem heatLoopM_start (spec : problem_spec K) (T : K) (n steps : Nat) (u0 v0 d0 c0 : List K)
    (hn : 1 ≤ n) (hu : u0.length = n + 2) (hv : v0.length = n + 2) (hd : d0.length = n)
    (hc : c0.length = n - 1) :
    ∃ s0 : HeatMem K, HeatInv n s0 ∧
      (∀ i, i + 1 < n → (s0.mem 3)[i]? = some (-(meshRatio spec T n steps))) ∧
      ∀ k, heatLoopM spec T n steps u0 v0 d0 c0 k =
        marchLoopM spec T n steps (meshRatio spec T n steps) { blk := 2, off := 0 }
          { blk := 3, off := 0 } s0 k := by
  have a0 : heatAlloc u0 v0 d0 c0 0 = u0 := rfl
  have a1 : heatAlloc u0 v0 d0 c0 1 = v0 := rfl
  have a2 : heatAlloc u0 v0 d0 c0 2 = d0 := rfl
  have a3 : heatAlloc u0 v0 d0 c0 3 = c0 := rfl
  obtain ⟨m1, hm1, hs1, _, _⟩ := fillLoopM_ok (fun j => spec.ic (gridPoint spec n j))
    { blk := 0, off := 0 } (n + 2) (heatAlloc u0 v0 d0 c0)
    (by simp only [Fits]; rw [a0]; omega)
  obtain ⟨ls, hls, _, _⟩ := plotLoopM_ok m1 { blk := 0, off := 0 } n steps 0 (n + 2)
    (by simp only [Fits]; rw [hs1, a0]; omega)
  obtain ⟨m2, hm2, hs2, hval, _⟩ := fillLoopM_ok (fun _ => -(meshRatio spec T n steps))
    { blk := 3, off := 0 } (n - 1) m1 (by simp only [Fits]; rw [hs1, a3]; omega)
  have sh : SameShape (heatAlloc u0 v0 d0 c0) m2 := hs1.trans hs2
  refine ⟨HeatMem.mk m2 (Ptr.mk 0 0) (Ptr.mk 1 0)
    ([Line.comment, Line.appearance, Line.mesh ((n : Int) + 2) ((steps : Int) + 1)] ++ ls), ?_, ?_, ?_⟩
  · refine ⟨rfl, rfl, by simp, by simp, by simp, ?_, ?_, ?_, ?_⟩
    · show (m2 0).length = n + 2
      rw [sh, a0]; exact hu
    · show (m2 1).length = n + 2
      rw [sh, a1]; exact hv
    · show (m2 2).length = n
      rw [sh, a2]; exact hd
    · show (m2 3).length = n - 1
      rw [sh, a3]; exact hc
  · intro i hi
    have := hval i (by omega)
    simpa only [load, Nat.zero_add] using this
  · intro k
    simp [heatLoopM, hm1, hls, hm2]

theorem heatLoopM_ok (spec : problem_spec K) (T : K) (n steps : Nat) (u0 v0 d0 c0 : List K)
    (hn : 1 ≤ n) (hu : u0.length = n + 2) (hv : v0.length = n + 2) (hd : d0.length = n)
    (hc : c0.length = n - 1) (k : Nat) :
    ∃ s, heatLoopM spec T n steps u0 v0 d0 c0 k = some s ∧ HeatInv n s ∧
      ∀ i, i + 1 < n → load s.mem { blk := 3, off := 0 } i =
        some (-(meshRatio spec T n steps)) := by
  obtain ⟨s0, hinv0, hc0, hrun⟩ := heatLoopM_start spec T n steps u0 v0 d0 c0 hn hu hv hd hc
  obtain ⟨s, hs, hinv, hcs⟩ := marchLoopM_ok spec T n steps (meshRatio spec T n steps) s0 hn
    hinv0 k
  refine ⟨s, by rw [hrun k]; exact hs, hinv, ?_⟩
  intro i hi
  simp only [load, Nat.zero_add]
  rw [hcs i]
  exact hc0 i hi

theorem heatLoopM_step (spec : problem_spec K) (T : K) (n steps : Nat) (u0 v0 d0 c0 : List K)
    (hn : 1 ≤ n) (hu : u0.length = n + 2) (hv : v0.length = n + 2) (hd : d0.length = n)
    (hc : c0.length = n - 1) (k : Nat) :
    ∃ sp s, heatLoopM spec T n steps u0 v0 d0 c0 k = some sp ∧
      heatLoopM spec T n steps u0 v0 d0 c0 (k + 1) = some s ∧
      stepBodyM spec T n steps (meshRatio spec T n steps) { blk := 2, off := 0 }
        { blk := 3, off := 0 } (k + 1) sp = some s ∧ HeatInv n sp := by
  obtain ⟨s0, hinv0, hc0, hrun⟩ := heatLoopM_start spec T n steps u0 v0 d0 c0 hn hu hv hd hc
  obtain ⟨sp, hsp, hinvp, _⟩ := marchLoopM_ok spec T n steps (meshRatio spec T n steps) s0 hn
    hinv0 k
  obtain ⟨s, hs, _⟩ := stepBodyM_ok spec T n steps (meshRatio spec T n steps) (k + 1) sp hn hinvp
  refine ⟨sp, s, by rw [hrun k]; exact hsp, ?_, hs, hinvp⟩
  rw [hrun (k + 1), marchLoopM_succ, hsp]
  exact hs

theorem heat_implicitM_ok (spec : problem_spec K) (T : K) (n steps : Nat) (u0 v0 d0 c0 : List K)
    (hn : 1 ≤ n) (hu : u0.length = n + 2) (hv : v0.length = n + 2) (hd : d0.length = n)
    (hc : c0.length = n - 1) :
    ∃ res, heat_implicitM spec T n steps u0 v0 d0 c0 = some res := by
  obtain ⟨s, hs, hinv, _⟩ := heatLoopM_ok spec T n steps u0 v0 d0 c0 hn hu hv hd hc steps
  cases hex : spec.u_exact with
  | none =>
    exact ⟨{ file := s.out ++ [Line.close], err := none }, by simp [heat_implicitM, hs, hex]⟩
  | some exact =>
    have lu := hinv.len_u
    obtain ⟨e, he⟩ := errLoopM_ok spec exact s.mem s.u n T (n + 2)
      (by simp only [Fits]; rw [lu, hinv.1]; omega)
    exact ⟨{ file := s.out ++ [Line.close], err := some e },
      by simp [heat_implicitM, hs, hex, he]⟩

theorem trisolveM_alias_witness :
    1 ≤ 3 ∧ Fits checkMem (Ptr.mk 3 0) 3 ∧ (Ptr.mk 4 0).blk ≠ (Ptr.mk 3 0).blk ∧
    ∃ mA mS, trisolveM 3 (Ptr.mk 0 0) (Ptr.mk 1 0) (Ptr.mk 2 0) (Ptr.mk 3 0) (Ptr.mk 3 0) checkMem
        = some mA ∧
      trisolveM 3 (Ptr.mk 0 0) (Ptr.mk 1 0) (Ptr.mk 2 0) (Ptr.mk 3 0) (Ptr.mk 4 0) checkMem
        = some mS ∧
      ∀ i, i < 3 → ∃ v, load mA (Ptr.mk 3 0) i = some v ∧ load mS (Ptr.mk 4 0) i = some v :=
  ⟨by decide, by simp [Fits, checkMem], by simp,
    trisolveM_alias 3 (Ptr.mk 0 0) (Ptr.mk 1 0) (Ptr.mk 2 0) (Ptr.mk 3 0) (Ptr.mk 4 0) checkMem
      (by decide) (by simp [Fits, checkMem]) (by simp [Fits, checkMem])
      (by simp [Fits, checkMem]) (by simp [Fits, checkMem]) (by simp [Fits, checkMem])
      (by simp) (by simp) (by simp) (by simp) (by simp)⟩

/-- C15: `trisolve` leaves every entry of `a` and of `c` unchanged, whether
or not `a` and `c` are the same buffer, provided they are buffers other than
`d`, `b` and `x`; it leaves `d[0]` and `b[0]` unchanged when `d`, `b` and `x`
are three separate buffers. Hence in `heat_implicit`, with buffers of the
allocated sizes, after any number `k` of time steps (so at the start of every
step) each entry `c[0..n-2]` still holds `-r`. -/
theorem offdiag_constant (n : Nat) (hn : 1 ≤ n) :
    (∀ (m m2 : Nat → List K) (a d c b x : Ptr), trisolveM n a d c b x m = some m2 →
      (a.blk ≠ d.blk → a.blk ≠ b.blk → a.blk ≠ x.blk → ∀ i, load m2 a i = load m a i) ∧
      (c.blk ≠ d.blk → c.blk ≠ b.blk → c.blk ≠ x.blk → ∀ i, load m2 c i = load m c i) ∧
      (d.blk ≠ b.blk → d.blk ≠ x.blk → load m2 d 0 = load m d 0) ∧
      (b.blk ≠ d.blk → b.blk ≠ x.blk → load m2 b 0 = load m b 0)) ∧
    (∀ (spec : problem_spec K) (T : K) (steps : Nat) (u0 v0 d0 c0 : List K),
      u0.length = n + 2 → v0.length = n + 2 → d0.length = n → c0.length = n - 1 →
      ∀ k, ∃ s, heatLoopM spec T n steps u0 v0 d0 c0 k = some s ∧
        ∀ i, i + 1 < n →
          load s.mem (Ptr.mk 3 0) i = some (-(meshRatio spec T n steps))) := by
  constructor
  · intro m m2 a d c b x h
    have f := trisolveM_frame n a d c b x m m2 hn h
    refine ⟨?_, ?_, ?_, ?_⟩
    · intro h1 h2 h3 i
      simp only [load]
      exact f a.blk _ (by simp only [TriWritten]; tauto)
    · intro h1 h2 h3 i
      simp only [load]
      exact f c.blk _ (by simp only [TriWritten]; tauto)
    · intro h1 h2
      simp only [load]
      exact f d.blk _ (by
        simp only [TriWritten]
        rintro (⟨_, h4, _⟩ | ⟨h4, _⟩ | ⟨h4, _⟩)
        · omega
        · exact h1 h4
        · exact h2 h4)
    · intro h1 h2
      simp only [load]
      exact f b.blk _ (by
        simp only [TriWritten]
        rintro (⟨h4, _⟩ | ⟨_, h4, _⟩ | ⟨h4, _⟩)
        · exact h1 h4
        · omega
        · exact h2 h4)
  · intro spec T steps u0 v0 d0 c0 hu hv hd hc k
    obtain ⟨s, hs, _, hcs⟩ := heatLoopM_ok spec T n steps u0 v0 d0 c0 hn hu hv hd hc k
    exact ⟨s, hs, hcs⟩

theorem offdiag_constant_witness :
    1 ≤ 3 ∧
    ∃ s, heatLoopM coldStart 1 3 2 [7, 7, 7, 7, 7] [8, 8, 8, 8, 8] [9, 9, 9] [5, 5] 2 = some s ∧
      ∀ i, i + 1 < 3 → load s.mem (Ptr.mk 3 0) i = some (-(meshRatio coldStart 1 3 2)) :=
  ⟨by decide,
    (offdiag_constant 3 (by decide)).2 coldStart 1 2 [7, 7, 7, 7, 7] [8, 8, 8, 8, 8] [9, 9, 9]
      [5, 5] rfl rfl rfl rfl 2⟩

/-- C19: all array accesses are in range under `n ≥ 1`. With `a` and `c` of
length `n - 1` and `d`, `b`, `x` of length `n`, `trisolve` on checked memory
never takes the out-of-range branch (for `n = 1` the buffers `a` and `c` are
empty and are never indexed); and with `u`, `v` of length `n + 2`, `d` of
length `n` and `c` of length `n - 1`, `heat_implicit` on checked memory never
takes it either, for every `steps ≥ 0`. -/
theorem accesses_in_range (n : Nat) (hn : 1 ≤ n) :
    (∀ (m : Nat → List K) (a d c b x : Ptr),
      a.off = 0 → d.off = 0 → c.off = 0 → b.off = 0 → x.off = 0 →
      (m a.blk).length = n - 1 → (m d.blk).length = n → (m c.blk).length = n - 1 →
      (m b.blk).length = n → (m x.blk).length = n →
      ∃ m2, trisolveM n a d c b x m = some m2) ∧
    (∀ (spec : problem_spec K) (T : K) (steps : Nat) (u0 v0 d0 c0 : List K),
      u0.length = n + 2 → v0.length = n + 2 → d0.length = n → c0.length = n - 1 →
      ∃ res, heat_implicitM spec T n steps u0 v0 d0 c0 = some res) := by
  constructor
  · intro m a d c b x oa od oc ob ox la ld lc lb lx
    obtain ⟨m2, h, _⟩ := trisolveM_ok n a d c b x m hn
      (by simp only [Fits]; omega) (by simp only [Fits]; omega) (by simp only [Fits]; omega)
      (by simp only [Fits]; omega) (by simp only [Fits]; omega)
    exact ⟨m2, h⟩
  · intro spec T steps u0 v0 d0 c0 hu hv hd hc
    exact heat_implicitM_ok spec T n steps u0 v0 d0 c0 hn hu hv hd hc

theorem accesses_in_range_witness :
    1 ≤ 1 ∧ ∃ res, heat_implicitM coldStart 1 1 0 [7, 7, 7] [8, 8, 8] [9] [] = some res :=
  ⟨by decide,
    (accesses_in_range 1 (by decide)).2 coldStart 1 0 [7, 7, 7] [8, 8, 8] [9] [] rfl rfl rfl rfl⟩

/-! ## Refinement of the time step for heat1 -/

/-- One refinement step: for `x ≥ 0` and `s ≥ 1` the compound factor grows. -/
theorem compound_succ (x : ℝ) (hx : 0 ≤ x) (s : Nat) (hs : 1 ≤ s) :
    (1 + x / (s : ℝ)) ^ s ≤ (1 + x / ((s + 1 : Nat) : ℝ)) ^ (s + 1) := by
  have hs0 : (0 : ℝ) < (s : ℝ) := by exact_mod_cast hs
  have hs1 : (0 : ℝ) < ((s + 1 : Nat) : ℝ) := by positivity
  have ha : 0 < 1 + x / (s : ℝ) := by positivity
  have hb : 0 < 1 + x / ((s + 1 : Nat) : ℝ) := by positivity
  -- the ratio of the two bases
  have hq : 1 + x / ((s + 1 : Nat) : ℝ) =
      (1 + x / (s : ℝ)) * (1 + -(x / (((s : ℝ) + 1) * ((s : ℝ) + x)))) := by
    push_cast
    have : (s : ℝ) + x ≠ 0 := by positivity
    have : (s : ℝ) + 1 ≠ 0 := by positivity
    field_simp
    ring
  have ht : (-2 : ℝ) ≤ -(x / (((s : ℝ) + 1) * ((s : ℝ) + x))) := by
    have : x / (((s : ℝ) + 1) * ((s : ℝ) + x)) ≤ 1 := by
      rw [div_le_one (by positivity)]
      nlinarith
    linarith
  have hbern := one_add_mul_le_pow ht s
  have hkey : 1 ≤ (1 + x / ((s + 1 : Nat) : ℝ)) *
      (1 + (s : ℝ) * -(x / (((s : ℝ) + 1) * ((s : ℝ) + x)))) := by
    push_cast
    have h1 : (s : ℝ) + x ≠ 0 := by positivity
    have h2 : (s : ℝ) + 1 ≠ 0 := by positivity
    have e : (1 + x / ((s : ℝ) + 1)) * (1 + (s : ℝ) * -(x / (((s : ℝ) + 1) * ((s : ℝ) + x))))
        = 1 + x ^ 2 / (((s : ℝ) + 1) ^ 2 * ((s : ℝ) + x)) := by
      field_simp
      ring
    rw [e]
    have : 0 ≤ x ^ 2 / (((s : ℝ) + 1) ^ 2 * ((s : ℝ) + x)) := by positivity
    linarith
  calc (1 + x / (s : ℝ)) ^ s
      = (1 + x / (s : ℝ)) ^ s * 1 := by ring
    _ ≤ (1 + x / (s : ℝ)) ^ s * ((1 + x / ((s + 1 : Nat) : ℝ)) *
          (1 + (s : ℝ) * -(x / (((s : ℝ) + 1) * ((s : ℝ) + x))))) :=
        mul_le_mul_of_nonneg_left hkey (by positivity)
    _ ≤ (1 + x / (s : ℝ)) ^ s * ((1 + x / ((s + 1 : Nat) : ℝ)) *
          (1 + -(x / (((s : ℝ) + 1) * ((s : ℝ) + x)))) ^ s) := by
        apply mul_le_mul_of_nonneg_left _ (by positivity)
        exact mul_le_mul_of_nonneg_left hbern hb.le
    _ = (1 + x / ((s + 1 : Nat) : ℝ)) ^ (s + 1) := by
        have e : (1 + x / ((s + 1 : Nat) : ℝ)) ^ s =
            (1 + x / (s : ℝ)) ^ s * (1 + -(x / (((s : ℝ) + 1) * ((s : ℝ) + x)))) ^ s := by
          rw [hq, mul_pow]
        rw [pow_succ, e]
        generalize (1 + x / (s : ℝ)) ^ s = A
        generalize (1 + -(x / (((s : ℝ) + 1) * ((s : ℝ) + x)))) ^ s = Q
        ring

theorem compound_mono (x : ℝ) (hx : 0 ≤ x) (s1 s2 : Nat) (h1 : 1 ≤ s1) (h12 : s1 ≤ s2) :
    (1 + x / (s1 : ℝ)) ^ s1 ≤ (1 + x / (s2 : ℝ)) ^ s2 := by
  induction s2, h12 using Nat.le_induction with
  | base => exact le_refl _
  | succ m hm ih => exact le_trans ih (compound_succ x hx m (by omega))

theorem compound_le_exp (x : ℝ) (hx : 0 ≤ x) (s : Nat) (hs : 1 ≤ s) :
    (1 + x / (s : ℝ)) ^ s ≤ Real.exp x := by
  have hs0 : (0 : ℝ) < (s : ℝ) := by exact_mod_cast hs
  have h := Real.add_one_le_exp (x / (s : ℝ))
  calc (1 + x / (s : ℝ)) ^ s ≤ Real.exp (x / (s : ℝ)) ^ s :=
        pow_le_pow_left₀ (by positivity) (by linarith) s
    _ = Real.exp x := by
        rw [← Real.exp_nat_mul]
        congr 1
        field_simp

theorem Pi_eq : Pi = Real.pi := by
  simp only [Pi, Real.arctan_one]
  ring

theorem heat1_gridPoint (n j : Nat) :
    gridPoint heat1 n j = -1 + 2 / ((n + 1 : Nat) : ℝ) * (j : ℝ) := by
  simp only [gridPoint, heat1]
  norm_num

theorem heat1_cos_grid (n j : Nat) :
    Real.cos (Pi / 2 * gridPoint heat1 n j) = sineMode n j := by
  have hN : ((n + 1 : Nat) : ℝ) ≠ 0 := by positivity
  rw [heat1_gridPoint, Pi_eq, sineMode, ← Real.cos_sub_pi_div_two]
  congr 1
  field_simp
  ring

theorem heat1_bcL_zero (t : ℝ) : heat1.bcL t = 0 := by
  simp only [heat1, heat1_bcL, heat1_exact, Pi_eq]
  rw [show Real.pi / 2 * (-1 : ℝ) = -(Real.pi / 2) by ring, Real.cos_neg, Real.cos_pi_div_two,
    mul_zero]

theorem heat1_bcR_zero (t : ℝ) : heat1.bcR t = 0 := by
  simp only [heat1, heat1_bcR, heat1_exact, Pi_eq]
  rw [mul_one, Real.cos_pi_div_two, mul_zero]

theorem heat1_ic_grid (n j : Nat) : heat1.ic (gridPoint heat1 n j) = sineMode n j := by
  have h := heat1_cos_grid n j
  simp only [heat1, heat1_ic, heat1_exact] at h ⊢
  rw [mul_zero, Real.exp_zero, one_mul]
  exact h

theorem heat1_exact_grid (n j : Nat) (T : ℝ) :
    heat1_exact (gridPoint heat1 n j) T =
      Real.exp (-(Real.pi ^ 2 / 4 * T)) * sineMode n j := by
  have h := heat1_cos_grid n j
  simp only [heat1_exact]
  rw [h, Pi_eq]
  congr 2
  ring

theorem sineMode_zero (n : Nat) : sineMode n 0 = 0 := by
  simp [sineMode]

theorem sineMode_last (n : Nat) : sineMode n (n + 1) = 0 := by
  have hN : ((n + 1 : Nat) : ℝ) ≠ 0 := by positivity
  simp only [sineMode]
  rw [div_mul_cancel₀ _ hN, Real.sin_pi]

theorem sineMode_neighbours (n j : Nat) (hj : 1 ≤ j) :
    sineMode n (j - 1) + sineMode n (j + 1) =
      2 * Real.cos (Real.pi / ((n + 1 : Nat) : ℝ)) * sineMode n j := by
  simp only [sineMode]
  rw [Nat.cast_sub hj, Nat.cast_add j 1, Nat.cast_one, mul_sub, mul_add, mul_one,
    Real.sin_sub, Real.sin_add]
  ring

theorem heat1_meshRatio_nonneg (T : ℝ) (n s : Nat) (hT : 0 ≤ T) : 0 ≤ meshRatio heat1 T n s := by
  simp only [meshRatio]
  exact div_nonneg (div_nonneg hT (Nat.cast_nonneg s)) (mul_self_nonneg _)

theorem heat1Growth_pos (T : ℝ) (n s : Nat) (hT : 0 ≤ T) : 0 < heat1Growth T n s := by
  have h1 := heat1_meshRatio_nonneg T n s hT
  have h2 := Real.cos_le_one (Real.pi / ((n + 1 : Nat) : ℝ))
  simp only [heat1Growth]
  nlinarith

/-- The discrete solution of `heat1`: after `k` time steps the buffer `u`
holds the grid function `sineMode` divided `k` times by `heat1Growth`. -/
theorem heat1_solution (T : ℝ) (n s : Nat) (u0 v0 d0 c0 : Nat → ℝ) (hT : 0 ≤ T) (hn : 1 ≤ n)
    (k j : Nat) (hj : j ≤ n + 1) :
    (heatLoop heat1 T n s u0 v0 d0 c0 k).u j = (heat1Growth T n s)⁻¹ ^ k * sineMode n j := by
  induction k generalizing j with
  | zero =>
    rw [heatLoop_u_zero _ _ _ _ _ _ _ _ j hj, heat1_ic_grid, pow_zero, one_mul]
  | succ k ih =>
    have hr := heat1_meshRatio_nonneg T n s hT
    have hg := heat1Growth_pos T n s hT
    have hmax := euler_max_principle n (meshRatio heat1 T n s)
      (fun i => (heatLoop heat1 T n s u0 v0 d0 c0 (k + 1)).u i -
        (heat1Growth T n s)⁻¹ ^ (k + 1) * sineMode n i)
      (fun _ => 0) 0 hn hr
      (by
        intro i h1 h2
        have e := heatLoop_euler heat1 T n s u0 v0 d0 c0 (k + 1) hn hr (by omega) i h1 h2
        rw [Nat.add_sub_cancel, ih i (by omega)] at e
        have nb := sineMode_neighbours n i h1
        have e2 : sineMode n (i + 1) =
            2 * Real.cos (Real.pi / ((n + 1 : Nat) : ℝ)) * sineMode n i - sineMode n (i - 1) := by
          linarith
        have e3 : (heat1Growth T n s)⁻¹ ^ (k + 1) * heat1Growth T n s =
            (heat1Growth T n s)⁻¹ ^ k := by
          rw [pow_succ, mul_assoc, inv_mul_cancel₀ hg.ne', mul_one]
        simp only []
        rw [e2]
        have e4 : heat1Growth T n s =
            1 + meshRatio heat1 T n s * (2 - 2 * Real.cos (Real.pi / ((n + 1 : Nat) : ℝ))) := rfl
        linear_combination e - sineMode n i * e3 +
          (heat1Growth T n s)⁻¹ ^ (k + 1) * sineMode n i * e4)
      (by intro i _ _; simp)
      (by
        simp only []
        rw [heatLoop_u_first heat1 T n s u0 v0 d0 c0 (k + 1) (by omega), heat1_bcL_zero,
          sineMode_zero]
        simp)
      (by
        simp only []
        rw [heatLoop_u_last heat1 T n s u0 v0 d0 c0 (k + 1) hn (by omega), heat1_bcR_zero,
          sineMode_last]
        simp)
      j hj
    have hz := abs_eq_zero.mp (le_antisymm hmax (abs_nonneg _))
    linear_combination hz

/-- The scaled eigenvalue `X` with `heat1Growth T n s = 1 + X / s`. -/
theorem heat1Growth_eq (T : ℝ) (n s : Nat) :
    heat1Growth T n s =
      1 + T / (meshWidth heat1 n * meshWidth heat1 n) *
        (2 - 2 * Real.cos (Real.pi / ((n + 1 : Nat) : ℝ))) / (s : ℝ) := by
  simp only [heat1Growth, meshRatio]
  ring

theorem heat1_rate_nonneg (T : ℝ) (n : Nat) (hT : 0 ≤ T) :
    0 ≤ T / (meshWidth heat1 n * meshWidth heat1 n) *
      (2 - 2 * Real.cos (Real.pi / ((n + 1 : Nat) : ℝ))) := by
  have h2 := Real.cos_le_one (Real.pi / ((n + 1 : Nat) : ℝ))
  exact mul_nonneg (div_nonneg hT (mul_self_nonneg _)) (by linarith)

theorem heat1_rate_le (T : ℝ) (n : Nat) (hT : 0 ≤ T) :
    T / (meshWidth heat1 n * meshWidth heat1 n) *
      (2 - 2 * Real.cos (Real.pi / ((n + 1 : Nat) : ℝ))) ≤ Real.pi ^ 2 / 4 * T := by
  have hN : (0 : ℝ) < ((n + 1 : Nat) : ℝ) := by positivity
  have hc := @Real.one_sub_sq_div_two_le_cos (Real.pi / ((n + 1 : Nat) : ℝ))
  have hw : meshWidth heat1 n = 2 / ((n + 1 : Nat) : ℝ) := by
    simp only [meshWidth, heat1]
    norm_num
  rw [hw]
  have h1 : 2 - 2 * Real.cos (Real.pi / ((n + 1 : Nat) : ℝ)) ≤
      (Real.pi / ((n + 1 : Nat) : ℝ)) ^ 2 := by linarith
  have h2 : 0 ≤ T / (2 / ((n + 1 : Nat) : ℝ) * (2 / ((n + 1 : Nat) : ℝ))) :=
    div_nonneg hT (mul_self_nonneg _)
  calc T / (2 / ((n + 1 : Nat) : ℝ) * (2 / ((n + 1 : Nat) : ℝ))) *
        (2 - 2 * Real.cos (Real.pi / ((n + 1 : Nat) : ℝ)))
      ≤ T / (2 / ((n + 1 : Nat) : ℝ) * (2 / ((n + 1 : Nat) : ℝ))) *
        (Real.pi / ((n + 1 : Nat) : ℝ)) ^ 2 := mul_le_mul_of_nonneg_left h1 h2
    _ = Real.pi ^ 2 / 4 * T := by
        field_simp
        ring

/-- The factor left of the initial data after all `s` steps is at least the
exact decay factor, and refining the time step brings it down. -/
theorem heat1_factor (T : ℝ) (n : Nat) (hT : 0 ≤ T) (s1 s2 : Nat) (h1 : 1 ≤ s1)
    (h12 : s1 ≤ s2) :
    Real.exp (-(Real.pi ^ 2 / 4 * T)) ≤ (heat1Growth T n s2)⁻¹ ^ s2 ∧
      (heat1Growth T n s2)⁻¹ ^ s2 ≤ (heat1Growth T n s1)⁻¹ ^ s1 := by
  have hx := heat1_rate_nonneg T n hT
  have hle := heat1_rate_le T n hT
  have hp1 : 0 < heat1Growth T n s1 ^ s1 := pow_pos (heat1Growth_pos T n s1 hT) s1
  have hp2 : 0 < heat1Growth T n s2 ^ s2 := pow_pos (heat1Growth_pos T n s2 hT) s2
  constructor
  · have hc := compound_le_exp _ hx s2 (by omega)
    rw [← heat1Growth_eq] at hc
    rw [inv_pow]
    calc Real.exp (-(Real.pi ^ 2 / 4 * T))
        ≤ Real.exp (-(T / (meshWidth heat1 n * meshWidth heat1 n) *
            (2 - 2 * Real.cos (Real.pi / ((n + 1 : Nat) : ℝ))))) :=
          Real.exp_le_exp.mpr (by linarith)
      _ = (Real.exp (T / (meshWidth heat1 n * meshWidth heat1 n) *
            (2 - 2 * Real.cos (Real.pi / ((n + 1 : Nat) : ℝ)))))⁻¹ := Real.exp_neg _
      _ ≤ (heat1Growth T n s2 ^ s2)⁻¹ := inv_anti₀ hp2 hc
  · have hm := compound_mono _ hx s1 s2 h1 h12
    rw [← heat1Growth_eq, ← heat1Growth_eq] at hm
    rw [inv_pow, inv_pow]
    exact inv_anti₀ hp1 hm

theorem heat1_pointwise (T : ℝ) (n s : Nat) (u0 v0 d0 c0 : Nat → ℝ) (hT : 0 ≤ T) (hn : 1 ≤ n)
    (j : Nat) (hj : j ≤ n + 1) :
    |(heatLoop heat1 T n s u0 v0 d0 c0 s).u j - heat1_exact (gridPoint heat1 n j) T| =
      |(heat1Growth T n s)⁻¹ ^ s - Real.exp (-(Real.pi ^ 2 / 4 * T))| * |sineMode n j| := by
  rw [heat1_solution T n s u0 v0 d0 c0 hT hn s j hj, heat1_exact_grid, ← abs_mul]
  congr 1
  ring

/-- C13: time-step refinement never increases the error. For the problem
`heat1` (on `[-1, 1]`, exact solution `exp(-π² t/4) cos(π x/2)`), every
`T > 0`, `n ≥ 1` and step counts `1 ≤ s1 ≤ s2`, the error `get_error` reports
at `T` after `heat_implicit` ran with `s2` steps is at most the error after it
ran with `s1` steps, in exact real arithmetic. -/
theorem heat1_refinement (T : ℝ) (n s1 s2 : Nat) (u0 v0 d0 c0 u1 v1 d1 c1 : Nat → ℝ)
    (hT : 0 < T) (hn : 1 ≤ n) (h1 : 1 ≤ s1) (h12 : s1 ≤ s2) :
    ∃ (r1 r2 : HeatResult ℝ) (e1 e2 : ℝ),
      heat_implicit heat1 T n s1 true u0 v0 d0 c0 = some r1 ∧ r1.err = some e1 ∧
      heat_implicit heat1 T n s2 true u1 v1 d1 c1 = some r2 ∧ r2.err = some e2 ∧ e2 ≤ e1 := by
  have hg : ∀ u : Nat → ℝ, get_error heat1 u n T = some (errLoop heat1 heat1_exact u n T (n + 2)) :=
    fun _ => rfl
  refine ⟨_, _, _, _, heat_implicit_open heat1 T n s1 u0 v0 d0 c0, hg _,
    heat_implicit_open heat1 T n s2 u1 v1 d1 c1, hg _, ?_⟩
  obtain ⟨h01, hle1, _⟩ := errLoop_spec heat1 heat1_exact
    (heatLoop heat1 T n s1 u0 v0 d0 c0 s1).u n T (n + 2)
  obtain ⟨_, _, hex2⟩ := errLoop_spec heat1 heat1_exact
    (heatLoop heat1 T n s2 u1 v1 d1 c1 s2).u n T (n + 2)
  rcases hex2 with hz | ⟨j, hj, he⟩
  · rw [hz]; exact h01
  · rw [he, heat1_pointwise T n s2 u1 v1 d1 c1 hT.le hn j (by omega)]
    refine le_trans ?_ (hle1 j hj)
    rw [heat1_pointwise T n s1 u0 v0 d0 c0 hT.le hn j (by omega)]
    have f2 := heat1_factor T n hT.le s1 s2 h1 h12
    have f1 := heat1_factor T n hT.le s1 s1 h1 (le_refl _)
    apply mul_le_mul_of_nonneg_right _ (abs_nonneg _)
    rw [abs_of_nonneg (by linarith [f2.1]), abs_of_nonneg (by linarith [f1.1])]
    linarith [f2.2]

theorem heat1_refinement_witness :
    (0 : ℝ) < 1 ∧ 1 ≤ 1 ∧ 1 ≤ 2 ∧
    ∃ (r1 r2 : HeatResult ℝ) (e1 e2 : ℝ),
      heat_implicit heat1 1 1 1 true (fun _ => 0) (fun _ => 0) (fun _ => 0) (fun _ => 0)
        = some r1 ∧ r1.err = some e1 ∧
      heat_implicit heat1 1 1 2 true (fun _ => 0) (fun _ => 0) (fun _ => 0) (fun _ => 0)
        = some r2 ∧ r2.err = some e2 ∧ e2 ≤ e1 :=
  ⟨by norm_num, by decide, by decide,
    heat1_refinement 1 1 1 2 (fun _ => 0) (fun _ => 0) (fun _ => 0) (fun _ => 0) (fun _ => 0)
      (fun _ => 0) (fun _ => 0) (fun _ => 0) (by norm_num) (by decide) (by decide) (by decide)⟩

/-! ## Checked memory computes what the embedding with maps computes -/

theorem load_eq_viewOf (m : Nat → List K) (p : Ptr) (i : Nat)
    (h : p.off + i < (m p.blk).length) : load m p i = some (viewOf m p i) := by
  simp [load, viewOf, h]

theorem load_inside (m : Nat → List K) (p : Ptr) (i : Nat) (v : K) (h : load m p i = some v) :
    p.off + i < (m p.blk).length := by
  simp only [load] at h
  by_contra hcon
  rw [List.getElem?_eq_none (by omega)] at h
  cases h

theorem forwardSweepM_refines (n : Nat) (a d c b : Ptr) (m : Nat → List K)
    (ha : Fits m a (n - 1)) (hd : Fits m d n) (hc : Fits m c (n - 1)) (hb : Fits m b n)
    (had : a.blk ≠ d.blk) (hab : a.blk ≠ b.blk) (hcd : c.blk ≠ d.blk) (hcb : c.blk ≠ b.blk)
    (hdb : d.blk ≠ b.blk) (k : Nat) (hk : k + 1 ≤ n) :
    ∃ mk, forwardSweepM a d c b k m = some mk ∧ SameShape m mk ∧
      (∀ i, i < n → load mk d i =
        some ((forwardSweep (viewOf m a) (viewOf m c) (viewOf m d) (viewOf m b) k).1 i)) ∧
      (∀ i, i < n → load mk b i =
        some ((forwardSweep (viewOf m a) (viewOf m c) (viewOf m d) (viewOf m b) k).2 i)) := by
  simp only [Fits] at ha hd hc hb
  induction k with
  | zero =>
    exact ⟨m, rfl, SameShape.refl m, fun i hi => load_eq_viewOf m d i (by omega),
      fun i hi => load_eq_viewOf m b i (by omega)⟩
  | succ k ih =>
    obtain ⟨mk, hmk, hsk, hdk, hbk⟩ := ih (by omega)
    have fr := forwardSweepM_frame a d c b k m mk hmk
    have hai : load mk a k = some (viewOf m a k) := by
      rw [← load_eq_viewOf m a k (by omega)]
      simp only [load]
      exact fr a.blk _ (by tauto) (by tauto)
    have hcp : load mk c k = some (viewOf m c k) := by
      rw [← load_eq_viewOf m c k (by omega)]
      simp only [load]
      exact fr c.blk _ (by tauto) (by tauto)
    have hdp := hdk k (by omega)
    have hdi := hdk (k + 1) (by omega)
    obtain ⟨m1, hm1, hs1⟩ := store_ok mk d (k + 1)
      ((forwardSweep (viewOf m a) (viewOf m c) (viewOf m d) (viewOf m b) k).1 (k + 1) -
        viewOf m a k / (forwardSweep (viewOf m a) (viewOf m c) (viewOf m d) (viewOf m b) k).1 k *
          viewOf m c k) (by rw [hsk]; omega)
    have f1 := store_frame mk m1 d (k + 1) _ hm1
    have hbi : load m1 b (k + 1) =
        some ((forwardSweep (viewOf m a) (viewOf m c) (viewOf m d) (viewOf m b) k).2 (k + 1)) := by
      rw [← hbk (k + 1) (by omega)]
      simp only [load]
      exact f1 b.blk _ (Or.inl (Ne.symm hdb))
    have hbp : load m1 b k =
        some ((forwardSweep (viewOf m a) (viewOf m c) (viewOf m d) (viewOf m b) k).2 k) := by
      rw [← hbk k (by omega)]
      simp only [load]
      exact f1 b.blk _ (Or.inl (Ne.symm hdb))
    obtain ⟨m2, hm2, hs2⟩ := store_ok m1 b (k + 1)
      ((forwardSweep (viewOf m a) (viewOf m c) (viewOf m d) (viewOf m b) k).2 (k + 1) -
        viewOf m a k / (forwardSweep (viewOf m a) (viewOf m c) (viewOf m d) (viewOf m b) k).1 k *
          (forwardSweep (viewOf m a) (viewOf m c) (viewOf m d) (viewOf m b) k).2 k)
      (by rw [hs1, hsk]; omega)
    have f2 := store_frame m1 m2 b (k + 1) _ hm2
    refine ⟨m2, ?_, (hsk.trans hs1).trans hs2, ?_, ?_⟩
    · simp [forwardSweepM, hmk, elimBodyM, hai, hdp, hdi, hcp, hm1, hbi, hbp, hm2]
    · intro i hi
      have e : load m2 d i = load m1 d i := by
        simp only [load]
        exact f2 d.blk _ (Or.inl hdb)
      rw [e]
      simp only [forwardSweep, elimBody, Nat.add_sub_cancel]
      by_cases hik : i = k + 1
      · subst hik
        rw [setAt_same]
        exact store_same mk m1 d _ _ hm1
      · rw [setAt_other _ _ _ _ hik, ← hdk i hi]
        simp only [load]
        exact f1 d.blk _ (Or.inr (by omega))
    · intro i hi
      simp only [forwardSweep, elimBody, Nat.add_sub_cancel]
      by_cases hik : i = k + 1
      · subst hik
        rw [setAt_same]
        exact store_same m1 m2 b _ _ hm2
      · rw [setAt_other _ _ _ _ hik, ← hbk i hi]
        simp only [load]
        rw [f2 b.blk _ (Or.inr (by omega)), f1 b.blk _ (Or.inl (Ne.symm hdb))]

theorem backSubstM_refines (n : Nat) (d c b x : Ptr) (hxd : x.blk ≠ d.blk) (hxc : x.blk ≠ c.blk)
    (hxb : x.blk ≠ b.blk) (Cv Dv Bv : Nat → K) (k : Nat) (hk : k + 1 ≤ n) (mk : Nat → List K)
    (X : Nat → K) (hd : ∀ i, i < n → load mk d i = some (Dv i))
    (hb : ∀ i, i < n → load mk b i = some (Bv i))
    (hc : ∀ i, i + 1 < n → load mk c i = some (Cv i))
    (hx : ∀ i, i < n → load mk x i = some (X i)) :
    ∃ m2, backSubstM d c b x k mk = some m2 ∧
      ∀ i, i < n → load m2 x i = some (backSubst Cv Dv Bv k X i) := by
  induction k generalizing mk X with
  | zero => exact ⟨mk, rfl, hx⟩
  | succ k ih =>
    have hbi := hb k (by omega)
    have hci := hc k (by omega)
    have hxn := hx (k + 1) (by omega)
    have hdi := hd k (by omega)
    obtain ⟨m1, hm1, hs1⟩ := store_ok mk x k ((Bv k - Cv k * X (k + 1)) / Dv k)
      (load_inside mk x k _ (hx k (by omega)))
    have f1 := store_frame mk m1 x k _ hm1
    obtain ⟨m2, hm2, hres⟩ := ih (by omega) m1 (setAt X k ((Bv k - Cv k * X (k + 1)) / Dv k))
      (by
        intro i hi
        rw [← hd i hi]
        simp only [load]
        exact f1 d.blk _ (Or.inl (Ne.symm hxd)))
      (by
        intro i hi
        rw [← hb i hi]
        simp only [load]
        exact f1 b.blk _ (Or.inl (Ne.symm hxb)))
      (by
        intro i hi
        rw [← hc i hi]
        simp only [load]
        exact f1 c.blk _ (Or.inl (Ne.symm hxc)))
      (by
        intro i hi
        by_cases hik : i = k
        · subst hik
          rw [setAt_same]
          exact store_same mk m1 x _ _ hm1
        · rw [setAt_other _ _ _ _ hik, ← hx i hi]
          simp only [load]
          exact f1 x.blk _ (Or.inr (by omega)))
    refine ⟨m2, ?_, ?_⟩
    · simp [backSubstM, hbi, hci, hxn, hdi, hm1, hm2]
    · intro i hi
      simp only [backSubst]
      exact hres i hi

/-- On separate buffers (`a` and `c` may coincide) `trisolve` on checked
memory writes into `x[0..n-1]` the values the embedding with maps computes
from the buffers as they were on entry. -/
theorem trisolveM_refines (n : Nat) (a d c b x : Ptr) (m : Nat → List K) (hn : 1 ≤ n)
    (ha : Fits m a (n - 1)) (hd : Fits m d n) (hc : Fits m c (n - 1)) (hb : Fits m b n)
    (hx : Fits m x n)
    (had : a.blk ≠ d.blk) (hab : a.blk ≠ b.blk) (hcd : c.blk ≠ d.blk) (hcb : c.blk ≠ b.blk)
    (hdb : d.blk ≠ b.blk) (hxd : x.blk ≠ d.blk) (hxc : x.blk ≠ c.blk) (hxb : x.blk ≠ b.blk) :
    ∃ m2, trisolveM n a d c b x m = some m2 ∧
      ∀ i, i < n → load m2 x i =
        some ((trisolve n (viewOf m a) (viewOf m d) (viewOf m c) (viewOf m b) (viewOf m x)).x i) := by
  obtain ⟨m1, hm1, hs1, hd1, hb1⟩ := forwardSweepM_refines n a d c b m ha hd hc hb had hab hcd hcb
    hdb (n - 1) (by omega)
  have fr := forwardSweepM_frame a d c b (n - 1) m m1 hm1
  have hc2 := hc
  have hx2 := hx
  simp only [Fits] at hc2 hx2
  obtain ⟨m2, hm2, hs2⟩ := store_ok m1 x (n - 1)
    ((forwardSweep (viewOf m a) (viewOf m c) (viewOf m d) (viewOf m b) (n - 1)).2 (n - 1) /
      (forwardSweep (viewOf m a) (viewOf m c) (viewOf m d) (viewOf m b) (n - 1)).1 (n - 1))
    (by rw [hs1]; omega)
  have f2 := store_frame m1 m2 x (n - 1) _ hm2
  obtain ⟨m3, hm3, hres⟩ := backSubstM_refines n d c b x hxd hxc hxb (viewOf m c)
    (forwardSweep (viewOf m a) (viewOf m c) (viewOf m d) (viewOf m b) (n - 1)).1
    (forwardSweep (viewOf m a) (viewOf m c) (viewOf m d) (viewOf m b) (n - 1)).2
    (n - 1) (by omega) m2
    (setAt (viewOf m x) (n - 1)
      ((forwardSweep (viewOf m a) (viewOf m c) (viewOf m d) (viewOf m b) (n - 1)).2 (n - 1) /
        (forwardSweep (viewOf m a) (viewOf m c) (viewOf m d) (viewOf m b) (n - 1)).1 (n - 1)))
    (by
      intro i hi
      rw [← hd1 i hi]
      simp only [load]
      exact f2 d.blk _ (Or.inl (Ne.symm hxd)))
    (by
      intro i hi
      rw [← hb1 i hi]
      simp only [load]
      exact f2 b.blk _ (Or.inl (Ne.symm hxb)))
    (by
      intro i hi
      rw [← load_eq_viewOf m c i (by omega)]
      simp only [load]
      rw [f2 c.blk _ (Or.inl (Ne.symm hxc)), fr c.blk _ (by tauto) (by tauto)])
    (by
      intro i hi
      by_cases hik : i = n - 1
      · subst hik
        rw [setAt_same]
        exact store_same m1 m2 x _ _ hm2
      · rw [setAt_other _ _ _ _ hik, ← load_eq_viewOf m x i (by omega)]
        simp only [load]
        rw [f2 x.blk _ (Or.inr (by omega)), fr x.blk _ (by tauto) (by tauto)])
  refine ⟨m3, ?_, hres⟩
  simp [trisolveM, hm1, hb1 (n - 1) (by omega), hd1 (n - 1) (by omega), hm2, hm3]

theorem load_viewOf (m : Nat → List K) (p : Ptr) (i : Nat) (v : K) (h : load m p i = some v) :
    viewOf m p i = v := by
  simp only [load] at h
  simp [viewOf, h]

theorem plotLoopM_eq (m : Nat → List K) (u : Ptr) (n steps k cnt : Nat) (f : Nat → K)
    (h : ∀ j, j < cnt → load m u j = some (f j)) :
    plotLoopM m u n steps k cnt =
      some ((List.range cnt).map fun (j : Nat) =>
        Line.data ((k : K) / (steps : K)) ((j : K) / ((n + 1 : Nat) : K)) (f j)) := by
  induction cnt with
  | zero => rfl
  | succ c ih =>
    simp [plotLoopM, ih (fun j hj => h j (by omega)), h c (by omega), List.range_succ]

theorem errLoopM_eq (spec : problem_spec K) (exact : K → K → K) (m : Nat → List K) (u : Ptr)
    (n : Nat) (T : K) (cnt : Nat) (f : Nat → K) (h : ∀ j, j < cnt → load m u j = some (f j)) :
    errLoopM spec exact m u n T cnt = some (errLoop spec exact f n T cnt) := by
  induction cnt with
  | zero => rfl
  | succ c ih =>
    simp [errLoopM, errLoop, errBody, ih (fun j hj => h j (by omega)), h c (by omega)]

/-- One pass of the time loop on checked memory computes what `stepBody`
computes: if the cells `u[0..n+1]` and `c[0..n-2]` hold the values of a state
of the embedding with maps, then afterwards the cells of the new `u` hold the
values of the next state, and the same lines are written. -/
theorem stepBodyM_refines (spec : problem_spec K) (T : K) (n steps : Nat) (r : K) (k : Nat)
    (s : HeatMem K) (sA : HeatState K) (cA : Nat → K) (hn : 1 ≤ n) (hinv : HeatInv n s)
    (hu : ∀ j, j ≤ n + 1 → load s.mem s.u j = some (sA.u j))
    (hc : ∀ i, i + 1 < n → load s.mem (Ptr.mk 3 0) i = some (cA i)) :
    ∃ s2, stepBodyM spec T n steps r (Ptr.mk 2 0) (Ptr.mk 3 0) k s = some s2 ∧
      (∀ j, j ≤ n + 1 → load s2.mem s2.u j = some ((stepBody spec T n steps r cA k sA).u j)) ∧
      s2.out = s.out ++ plot_curve (stepBody spec T n steps r cA k sA).u n steps k := by
  obtain ⟨s3, h3, _, e3u, _, _, hL, hR, _⟩ := stepBodyM_ok spec T n steps r k s hn hinv
  have lu := hinv.len_u
  have lv := hinv.len_v
  obtain ⟨ou, ov, bu, bv, hne, l0, l1, l2, l3⟩ := hinv
  obtain ⟨m1, hm1, hs1⟩ := store_ok s.mem s.v 0 (spec.bcL (stepTime T steps k)) (by omega)
  obtain ⟨m2, hm2, hs2⟩ := store_ok m1 s.v (n + 1) (spec.bcR (stepTime T steps k))
    (by rw [hs1]; omega)
  have sh2 : SameShape s.mem m2 := hs1.trans hs2
  have f1 := store_frame s.mem m1 s.v 0 _ hm1
  have f2 := store_frame m1 m2 s.v (n + 1) _ hm2
  have hu2 : ∀ j, j ≤ n + 1 → load m2 s.u j = some (sA.u j) := by
    intro j hj
    rw [← hu j hj]
    simp only [load]
    rw [f2 s.u.blk _ (Or.inl hne), f1 s.u.blk _ (Or.inl hne)]
  have hv0 : load m2 s.v 0 = some (spec.bcL (stepTime T steps k)) := by
    have := store_same s.mem m1 s.v 0 _ hm1
    simp only [load] at this ⊢
    rw [f2 s.v.blk _ (Or.inr (by omega))]
    exact this
  have hvl : load m2 s.v (n + 1) = some (spec.bcR (stepTime T steps k)) :=
    store_same m1 m2 s.v (n + 1) _ hm2
  obtain ⟨m3, hm3, hs3⟩ := store_ok m2 s.u 1
    (sA.u 1 + r * spec.bcL (stepTime T steps k)) (by rw [sh2]; omega)
  have sh3 : SameShape s.mem m3 := sh2.trans hs3
  have f3 := store_frame m2 m3 s.u 1 _ hm3
  have hu3 : ∀ j, j ≤ n + 1 → load m3 s.u j =
      some (setAt sA.u 1 (sA.u 1 + r * spec.bcL (stepTime T steps k)) j) := by
    intro j hj
    by_cases hj1 : j = 1
    · subst hj1
      rw [setAt_same]
      exact store_same m2 m3 s.u 1 _ hm3
    · rw [setAt_other _ _ _ _ hj1, ← hu2 j hj]
      simp only [load]
      exact f3 s.u.blk _ (Or.inr (by omega))
  have hvl3 : load m3 s.v (n + 1) = some (spec.bcR (stepTime T steps k)) := by
    rw [← hvl]
    simp only [load]
    exact f3 s.v.blk _ (Or.inl (Ne.symm hne))
  obtain ⟨m4, hm4, hs4⟩ := store_ok m3 s.u n
    (setAt sA.u 1 (sA.u 1 + r * spec.bcL (stepTime T steps k)) n +
      r * spec.bcR (stepTime T steps k)) (by rw [sh3]; omega)
  have sh4 : SameShape s.mem m4 := sh3.trans hs4
  have f4 := store_frame m3 m4 s.u n _ hm4
  have hu4 : ∀ j, j ≤ n + 1 → load m4 s.u j =
      some (foldBoundary n r sA.u (stageBoundary spec n (stepTime T steps k) sA.v) j) := by
    intro j hj
    simp only [foldBoundary, stageBoundary_first, stageBoundary_last]
    by_cases hjn : j = n
    · subst hjn
      rw [setAt_same]
      exact store_same m3 m4 s.u j _ hm4
    · rw [setAt_other _ _ _ _ hjn, ← hu3 j hj]
      simp only [load]
      exact f4 s.u.blk _ (Or.inr (by omega))
  obtain ⟨m5, hm5, hs5, hd5, hf5⟩ := fillLoopM_ok (fun _ => 1 + 2 * r) (Ptr.mk 2 0) n m4
    (by simp only [Fits]; rw [sh4]; omega)
  have sh5 : SameShape s.mem m5 := sh4.trans hs5
  have hu5 : ∀ j, j ≤ n + 1 → load m5 s.u j =
      some (foldBoundary n r sA.u (stageBoundary spec n (stepTime T steps k) sA.v) j) := by
    intro j hj
    rw [← hu4 j hj]
    simp only [load]
    exact hf5 s.u.blk _ (by simp only []; omega)
  have hc5 : ∀ i, i + 1 < n → load m5 (Ptr.mk 3 0) i = some (cA i) := by
    intro i hi
    rw [← hc i hi]
    simp only [load]
    rw [hf5 3 _ (by simp only []; omega), f4 3 _ (Or.inl (by omega)),
      f3 3 _ (Or.inl (by omega)), f2 3 _ (Or.inl (by omega)), f1 3 _ (Or.inl (by omega))]
  obtain ⟨m6, hm6, hx6⟩ := trisolveM_refines n (Ptr.mk 3 0) (Ptr.mk 2 0) (Ptr.mk 3 0)
    (s.u.shift 1) (s.v.shift 1) m5 hn
    (by simp only [Fits]; rw [sh5]; omega) (by simp only [Fits]; rw [sh5]; omega)
    (by simp only [Fits]; rw [sh5]; omega)
    (by simp only [Fits, Ptr.shift]; rw [sh5]; omega)
    (by simp only [Fits, Ptr.shift]; rw [sh5]; omega)
    (by simp) (by simp only [Ptr.shift]; omega) (by simp) (by simp only [Ptr.shift]; omega)
    (by simp only [Ptr.shift]; omega) (by simp only [Ptr.shift]; omega)
    (by simp only [Ptr.shift]; omega) (by simp only [Ptr.shift]; omega)
  -- the values written by the solve are those of `stepBody`
  have hinner : ∀ j, 1 ≤ j → j ≤ n → load m6 s.v j =
      some ((stepBody spec T n steps r cA k sA).u j) := by
    intro j h1 h2
    have e := hx6 (j - 1) (by omega)
    have e2 : load m6 (s.v.shift 1) (j - 1) = load m6 s.v j := by
      simp only [load, Ptr.shift]
      rw [show s.v.off + 1 + (j - 1) = s.v.off + j by omega]
    rw [e2] at e
    rw [e, stepBody_u_inner spec T n steps r cA k sA j h1 h2]
    congr 1
    apply trisolve_congr n _ _ _ _ _ _ _ _ _ _ hn _ _ _ _ (n - j) (j - 1) (by omega)
    · intro i hi
      exact load_viewOf _ _ _ _ (hc5 i hi)
    · intro i hi
      exact load_viewOf _ _ _ _ (hc5 i hi)
    · intro i hi
      rw [load_viewOf _ _ _ _ (hd5 i hi)]
      simp [stepDiag, fillLoop_apply, hi]
    · intro i hi
      have := hu5 (i + 1) (by omega)
      have e3 : load m5 (s.u.shift 1) i = load m5 s.u (i + 1) := by
        simp only [load, Ptr.shift]
        rw [show s.u.off + 1 + i = s.u.off + (i + 1) by omega]
      rw [← e3] at this
      rw [load_viewOf _ _ _ _ this]
      rfl
  obtain ⟨ls, hls, _, _⟩ := plotLoopM_ok m6 s.v n steps k (n + 2)
    (by simp only [Fits]; rw [(sh5.trans (trisolveM_shape _ _ _ _ _ _ _ _ hm6))]; omega)
  have hrun : stepBodyM spec T n steps r (Ptr.mk 2 0) (Ptr.mk 3 0) k s =
      some { mem := m6, u := s.v, v := s.u, out := s.out ++ ls } := by
    simp [stepBodyM, hm1, hm2, hu2 1 (by omega), hv0, hm3, hu3 n (by omega), hvl3, hm4, hm5,
      hm6, hls]
  rw [hrun] at h3
  cases h3
  have hall : ∀ j, j ≤ n + 1 → load m6 s.v j =
      some ((stepBody spec T n steps r cA k sA).u j) := by
    intro j hj
    by_cases hj0 : j = 0
    · subst hj0
      rw [stepBody_u_first]
      exact hL
    · by_cases hjl : j = n + 1
      · subst hjl
        rw [stepBody_u_last _ _ _ _ _ _ _ _ hn]
        exact hR
      · exact hinner j (by omega) (by omega)
  refine ⟨_, hrun, hall, ?_⟩
  have hp := plotLoopM_eq m6 s.v n steps k (n + 2) (stepBody spec T n steps r cA k sA).u
    (fun j hj => hall j (by omega))
  rw [hls] at hp
  cases hp
  rfl

theorem heatLoopM_start_values (spec : problem_spec K) (T : K) (n steps : Nat)
    (u0 v0 d0 c0 : List K) (hn : 1 ≤ n) (hu : u0.length = n + 2) (hv : v0.length = n + 2)
    (hd : d0.length = n) (hc : c0.length = n - 1) :
    ∃ s0 : HeatMem K, HeatInv n s0 ∧
      (∀ i, i + 1 < n → load s0.mem (Ptr.mk 3 0) i = some (-(meshRatio spec T n steps))) ∧
      (∀ j, j ≤ n + 1 → load s0.mem s0.u j = some (spec.ic (gridPoint spec n j))) ∧
      s0.out = [Line.comment, Line.appearance, Line.mesh ((n : Int) + 2) ((steps : Int) + 1)] ++
        plot_curve (fun j => spec.ic (gridPoint spec n j)) n steps 0 ∧
      ∀ k, heatLoopM spec T n steps u0 v0 d0 c0 k =
        marchLoopM spec T n steps (meshRatio spec T n steps) (Ptr.mk 2 0) (Ptr.mk 3 0) s0 k := by
  have a0 : heatAlloc u0 v0 d0 c0 0 = u0 := rfl
  have a1 : heatAlloc u0 v0 d0 c0 1 = v0 := rfl
  have a2 : heatAlloc u0 v0 d0 c0 2 = d0 := rfl
  have a3 : heatAlloc u0 v0 d0 c0 3 = c0 := rfl
  obtain ⟨m1, hm1, hs1, hval1, _⟩ := fillLoopM_ok (fun j => spec.ic (gridPoint spec n j))
    (Ptr.mk 0 0) (n + 2) (heatAlloc u0 v0 d0 c0) (by simp only [Fits]; rw [a0]; omega)
  have hls := plotLoopM_eq m1 (Ptr.mk 0 0) n steps 0 (n + 2)
    (fun j => spec.ic (gridPoint spec n j)) hval1
  obtain ⟨m2, hm2, hs2, hval, hf2⟩ := fillLoopM_ok (fun _ => -(meshRatio spec T n steps))
    (Ptr.mk 3 0) (n - 1) m1 (by simp only [Fits]; rw [hs1, a3]; omega)
  have sh : SameShape (heatAlloc u0 v0 d0 c0) m2 := hs1.trans hs2
  refine ⟨HeatMem.mk m2 (Ptr.mk 0 0) (Ptr.mk 1 0)
    ([Line.comment, Line.appearance, Line.mesh ((n : Int) + 2) ((steps : Int) + 1)] ++
      plot_curve (fun j => spec.ic (gridPoint spec n j)) n steps 0), ?_, ?_, ?_, rfl, ?_⟩
  · refine ⟨rfl, rfl, by simp, by simp, by simp, ?_, ?_, ?_, ?_⟩
    · show (m2 0).length = n + 2
      rw [sh, a0]; exact hu
    · show (m2 1).length = n + 2
      rw [sh, a1]; exact hv
    · show (m2 2).length = n
      rw [sh, a2]; exact hd
    · show (m2 3).length = n - 1
      rw [sh, a3]; exact hc
  · intro i hi
    exact hval i (by omega)
  · intro j hj
    show load m2 (Ptr.mk 0 0) j = _
    rw [← hval1 j (by omega)]
    simp only [load]
    exact hf2 0 _ (by simp)
  · intro k
    simp only [heatLoopM, Option.bind_eq_bind, hm1, hls, hm2, Option.some_bind, plot_curve]

/-- The time loop on checked memory computes what `heatLoop` computes: after
`k` steps the cells `u[0..n+1]` hold the values of the embedding with maps,
whatever the initial contents on either side, and the same lines are written. -/
theorem heatLoopM_refines (spec : problem_spec K) (T : K) (n steps : Nat)
    (u0 v0 d0 c0 : List K) (uA vA dA cA : Nat → K) (hn : 1 ≤ n) (hu : u0.length = n + 2)
    (hv : v0.length = n + 2) (hd : d0.length = n) (hc : c0.length = n - 1) (k : Nat) :
    ∃ s, heatLoopM spec T n steps u0 v0 d0 c0 k = some s ∧ HeatInv n s ∧
      (∀ i, i + 1 < n → load s.mem (Ptr.mk 3 0) i = some (-(meshRatio spec T n steps))) ∧
      (∀ j, j ≤ n + 1 →
        load s.mem s.u j = some ((heatLoop spec T n steps uA vA dA cA k).u j)) ∧
      s.out = (heatLoop spec T n steps uA vA dA cA k).out := by
  obtain ⟨s0, hinv0, hc0, hu0, hout0, hrun⟩ :=
    heatLoopM_start_values spec T n steps u0 v0 d0 c0 hn hu hv hd hc
  induction k with
  | zero =>
    refine ⟨s0, by rw [hrun 0]; rfl, hinv0, hc0, ?_, ?_⟩
    · intro j hj
      rw [hu0 j hj, heatLoop_u_zero _ _ _ _ _ _ _ _ j hj]
    · rw [hout0]
      have e : (heatLoop spec T n steps uA vA dA cA 0).out =
          [Line.comment, Line.appearance, Line.mesh ((n : Int) + 2) ((steps : Int) + 1)] ++
            plot_curve (heatLoop spec T n steps uA vA dA cA 0).u n steps 0 := rfl
      rw [e, plot_curve_congr _ (heatLoop spec T n steps uA vA dA cA 0).u n steps 0
        (fun j hj => (heatLoop_u_zero _ _ _ _ _ _ _ _ j hj).symm)]
  | succ k ih =>
    obtain ⟨s, hs, hinv, hcs, hus, hos⟩ := ih
    obtain ⟨s2, h2, hinv2, _, _, hc2, _⟩ :=
      stepBodyM_ok spec T n steps (meshRatio spec T n steps) (k + 1) s hn hinv
    obtain ⟨s3, h3, hu3, ho3⟩ := stepBodyM_refines spec T n steps (meshRatio spec T n steps)
      (k + 1) s (heatLoop spec T n steps uA vA dA cA k) (heatOffDiag spec T n steps cA) hn hinv
      hus (fun i hi => by rw [hcs i hi, heatOffDiag_apply _ _ _ _ _ i hi])
    rw [h2] at h3
    cases h3
    refine ⟨s2, ?_, hinv2, ?_, ?_, ?_⟩
    · rw [hrun (k + 1), marchLoopM_succ, ← hrun k, hs]
      exact h2
    · intro i hi
      rw [← hcs i hi]
      simp only [load]
      exact hc2 _
    · intro j hj
      rw [hu3 j hj, heatLoop_succ]
    · rw [ho3, hos, heatLoop_succ, stepBody_out]

/-- The two embeddings of `heat_implicit` agree: on buffers of the allocated
sizes, whatever they hold at first, the run on checked memory returns exactly
what the run on maps returns when the file opens. -/
theorem heat_implicitM_refines (spec : problem_spec K) (T : K) (n steps : Nat)
    (u0 v0 d0 c0 : List K) (uA vA dA cA : Nat → K) (hn : 1 ≤ n) (hu : u0.length = n + 2)
    (hv : v0.length = n + 2) (hd : d0.length = n) (hc : c0.length = n - 1) :
    heat_implicitM spec T n steps u0 v0 d0 c0 =
      heat_implicit spec T n steps true uA vA dA cA := by
  obtain ⟨s, hs, _, _, hus, hos⟩ :=
    heatLoopM_refines spec T n steps u0 v0 d0 c0 uA vA dA cA hn hu hv hd hc steps
  rw [heat_implicit_open]
  cases hex : spec.u_exact with
  | none => simp [heat_implicitM, hs, hex, get_error, hos]
  | some exact =>
    have he := errLoopM_eq spec exact s.mem s.u n T (n + 2)
      (heatLoop spec T n steps uA vA dA cA steps).u (fun j hj => hus j (by omega))
    simp [heat_implicitM, hs, hex, get_error, hos, he]

/-! ## Claims resting on both embeddings -/

/-- C12: for `n ≥ 1` and `steps ≥ 0`, what `heat_implicit` writes (and the
error it reports) is the same for any two choices of the initial contents of
the freshly allocated buffers `u`, `v`, `d` and `c`: every cell is written
before it is read, so two runs on the same inputs emit the same rows. This
holds for the embedding with buffers as maps and for the one on checked
memory, where the buffers have their allocated sizes. -/
theorem heat_implicit_deterministic (spec : problem_spec K) (T : K) (n steps : Nat)
    (fopen_ok : Bool) (u0 v0 d0 c0 u1 v1 d1 c1 : Nat → K) (hn : 1 ≤ n) :
    heat_implicit spec T n steps fopen_ok u0 v0 d0 c0 =
        heat_implicit spec T n steps fopen_ok u1 v1 d1 c1 ∧
    ∀ (a0 b0 e0 f0 a1 b1 e1 f1 : List K),
      a0.length = n + 2 → b0.length = n + 2 → e0.length = n → f0.length = n - 1 →
      a1.length = n + 2 → b1.length = n + 2 → e1.length = n → f1.length = n - 1 →
      heat_implicitM spec T n steps a0 b0 e0 f0 = heat_implicitM spec T n steps a1 b1 e1 f1 ∧
      ∃ res, heat_implicitM spec T n steps a0 b0 e0 f0 = some res := by
  constructor
  · have h := heatLoop_congr spec T n steps u0 v0 d0 c0 u1 v1 d1 c1 hn steps
    simp only [heat_implicit]
    rw [h.2, get_error_congr spec _ _ n T h.1]
  · intro a0 b0 e0 f0 a1 b1 e1 f1 ha0 hb0 he0 hf0 ha1 hb1 he1 hf1
    constructor
    · rw [heat_implicitM_refines spec T n steps a0 b0 e0 f0 u0 v0 d0 c0 hn ha0 hb0 he0 hf0,
        heat_implicitM_refines spec T n steps a1 b1 e1 f1 u0 v0 d0 c0 hn ha1 hb1 he1 hf1]
    · exact heat_implicitM_ok spec T n steps a0 b0 e0 f0 hn ha0 hb0 he0 hf0

theorem heat_implicit_deterministic_witness :
    1 ≤ 1 ∧
    heat_implicit coldStart 1 1 2 true (fun _ => 0) (fun _ => 0) (fun _ => 0) (fun _ => 0) =
      heat_implicit coldStart 1 1 2 true (fun _ => 7) (fun _ => 8) (fun _ => 9) (fun _ => 10) ∧
    heat_implicitM coldStart 1 1 2 [0, 0, 0] [0, 0, 0] [0] [] =
      heat_implicitM coldStart 1 1 2 [7, 7, 7] [8, 8, 8] [9] [] :=
  ⟨by decide,
    (heat_implicit_deterministic coldStart 1 1 2 true (fun _ => 0) (fun _ => 0) (fun _ => 0)
      (fun _ => 0) (fun _ => 7) (fun _ => 8) (fun _ => 9) (fun _ => 10) (by decide)).1,
    ((heat_implicit_deterministic coldStart 1 1 2 true (fun _ => 0) (fun _ => 0) (fun _ => 0)
      (fun _ => 0) (fun _ => 7) (fun _ => 8) (fun _ => 9) (fun _ => 10) (by decide)).2
      [0, 0, 0] [0, 0, 0] [0] [] [7, 7, 7] [8, 8, 8] [9] [] rfl rfl rfl rfl rfl rfl rfl rfl).1⟩

/-- C17: `trisolve` called with `x = v + 1` stores, in the buffer of `v`, only
to `v[1..n]` (when `v` is a buffer other than `d` and `b`). So in
`heat_implicit`, for `n ≥ 1`, `steps ≥ 1` and `k` in `1..steps`, after the
exchange of the pointers the current buffer is the former `v`, it holds
`u[0] = bcL(T*k/steps)` and `u[n+1] = bcR(T*k/steps)`, these are the first and
the last value of the block written for step `k`, and they stand at the first
and the last place of row block `k` of the finished file. -/
theorem solve_keeps_boundary (spec : problem_spec K) (T : K) (n steps : Nat)
    (u0 v0 d0 c0 : List K) (k : Nat) (hn : 1 ≤ n) (hs : 1 ≤ steps) (hk1 : 1 ≤ k)
    (hk : k ≤ steps) (hu : u0.length = n + 2) (hv : v0.length = n + 2) (hd : d0.length = n)
    (hc : c0.length = n - 1) :
    (∀ (m m2 : Nat → List K) (a d c b v : Ptr),
      trisolveM n a d c b (v.shift 1) m = some m2 → v.blk ≠ d.blk → v.blk ≠ b.blk →
      ∀ idx : Nat, ¬ (v.off + 1 ≤ idx ∧ idx ≤ v.off + n) →
        (m2 v.blk)[idx]? = (m v.blk)[idx]?) ∧
    (∃ (sp s : HeatMem K) (ls : List (Line K)),
      heatLoopM spec T n steps u0 v0 d0 c0 (k - 1) = some sp ∧
      heatLoopM spec T n steps u0 v0 d0 c0 k = some s ∧
      s.u = sp.v ∧ s.v = sp.u ∧
      load s.mem s.u 0 = some (spec.bcL (T * (k : K) / (steps : K))) ∧
      load s.mem s.u (n + 1) = some (spec.bcR (T * (k : K) / (steps : K))) ∧
      s.out = sp.out ++ ls ∧ ls.length = n + 2 ∧
      ls[0]? = some (Line.data ((k : K) / (steps : K)) (((0 : Nat) : K) / ((n + 1 : Nat) : K))
        (spec.bcL (T * (k : K) / (steps : K)))) ∧
      ls[n + 1]? = some (Line.data ((k : K) / (steps : K))
        (((n + 1 : Nat) : K) / ((n + 1 : Nat) : K)) (spec.bcR (T * (k : K) / (steps : K))))) ∧
    ∃ res : HeatResult K, heat_implicitM spec T n steps u0 v0 d0 c0 = some res ∧
      rowValue res.file n k 0 = some (spec.bcL (T * (k : K) / (steps : K))) ∧
      rowValue res.file n k (n + 1) = some (spec.bcR (T * (k : K) / (steps : K))) := by
  refine ⟨?_, ?_, ?_⟩
  · intro m m2 a d c b v h h1 h2 idx hidx
    apply trisolveM_frame n a d c b (v.shift 1) m m2 hn h v.blk idx
    simp only [TriWritten, Ptr.shift]
    rintro (⟨h4, _⟩ | ⟨h4, _⟩ | ⟨_, h4, h5⟩)
    · exact h1 h4
    · exact h2 h4
    · exact hidx ⟨h4, by omega⟩
  · obtain ⟨j, rfl⟩ : ∃ j, k = j + 1 := ⟨k - 1, by omega⟩
    obtain ⟨sp, s, hsp, hs2, hstep, hinv⟩ :=
      heatLoopM_step spec T n steps u0 v0 d0 c0 hn hu hv hd hc j
    obtain ⟨s2, h2, _, e1, e2, _, hL, hR, ls, hout, hlen, hl0, hl1⟩ :=
      stepBodyM_ok spec T n steps (meshRatio spec T n steps) (j + 1) sp hn hinv
    rw [hstep] at h2
    cases h2
    refine ⟨sp, s, ls, ?_, hs2, e1, e2, hL, hR, hout, hlen, hl0, hl1⟩
    rw [Nat.add_sub_cancel]
    exact hsp
  · refine ⟨_, (heat_implicitM_refines spec T n steps u0 v0 d0 c0 (fun _ => 0) (fun _ => 0)
      (fun _ => 0) (fun _ => 0) hn hu hv hd hc).trans (heat_implicit_open _ _ _ _ _ _ _ _), ?_, ?_⟩
    · rw [heat_rowValue spec T n steps _ _ _ _ k 0 hk (by omega),
        heatLoop_u_first spec T n steps _ _ _ _ k hk1]
    · rw [heat_rowValue spec T n steps _ _ _ _ k (n + 1) hk (le_refl _),
        heatLoop_u_last spec T n steps _ _ _ _ k hn hk1]

theorem solve_keeps_boundary_witness :
    1 ≤ 1 ∧ 1 ≤ 2 ∧
    ∃ res : HeatResult ℚ, heat_implicitM coldStart 1 1 2 [7, 7, 7] [8, 8, 8] [9] [] = some res ∧
      rowValue res.file 1 2 0 = some 1 ∧ rowValue res.file 1 2 (1 + 1) = some 1 :=
  ⟨by decide, by decide,
    (solve_keeps_boundary coldStart 1 1 2 [7, 7, 7] [8, 8, 8] [9] [] 2 (by decide)
      (by decide) (by decide) (by decide) rfl rfl rfl rfl).2.2⟩

/-! ## heat_implicit with machine integers and allocation -/

theorem wrapInt_of_range (v : Int) (h1 : -2147483648 ≤ v) (h2 : v ≤ 2147483647) :
    wrapInt v = v := by
  simp only [wrapInt]
  norm_num
  omega

theorem wrapInt_le (v : Int) : wrapInt v ≤ 2147483647 := by
  simp only [wrapInt]
  norm_num
  omega

theorem vectorBytes_of_range (count : Int) (h1 : 0 ≤ count) (h2 : count ≤ 2147483647) :
    vectorBytes count < 2 ^ 63 := by
  simp only [vectorBytes]
  have e : count % 2 ^ 64 = count := Int.emod_eq_of_lt h1 (by norm_num; omega)
  rw [e]
  have h3 : count.toNat ≤ 2147483647 := by omega
  norm_num
  omega

theorem plot_curveZ_cast (u : Nat → K) (n steps k : Nat) :
    plot_curveZ u n (steps : Int) (k : Int) = plot_curve u n steps k := by
  simp [plot_curveZ, plot_curve]

theorem plot_curveZ_zero (u : Nat → K) (n steps : Nat) :
    plot_curveZ u n (steps : Int) 0 = plot_curve u n steps 0 := by
  simp [plot_curveZ, plot_curve]

theorem stepBodyZ_cast (spec : problem_spec K) (T : K) (n steps : Nat) (r : K) (c : Nat → K)
    (k : Nat) (s : HeatState K) :
    stepBodyZ spec T n (steps : Int) r c (k : Int) s = stepBody spec T n steps r c k s := by
  simp [stepBodyZ, stepBody, stepTimeZ, stepTime, plot_curveZ, plot_curve]

theorem meshRatioZ_cast (spec : problem_spec K) (T : K) (n steps : Nat) :
    meshRatioZ spec T n (steps : Int) = meshRatio spec T n steps := by
  simp [meshRatioZ, meshRatio]

/-- With `steps + 1` inside the range of `int` the counter never wraps: from
the state after `j` passes the loop runs the remaining passes and leaves with
the state after `steps` passes, if the fuel covers them. -/
theorem marchLoopZ_eq (spec : problem_spec K) (T : K) (n steps : Nat) (r : K) (c : Nat → K)
    (s0 : HeatState K) (hs : steps ≤ 2147483646) (fuel j : Nat) (hj : j ≤ steps)
    (hf : steps ≤ j + fuel) :
    marchLoopZ spec T n (steps : Int) r c fuel ((j : Int) + 1) (marchLoop spec T n steps r c s0 j)
      = some (marchLoop spec T n steps r c s0 steps) := by
  induction fuel generalizing j with
  | zero =>
    have e : j = steps := by omega
    subst e
    simp [marchLoopZ]
  | succ fuel ih =>
    by_cases e : j = steps
    · subst e
      simp [marchLoopZ]
    · have hlt : (j : Int) + 1 ≤ (steps : Int) := by omega
      have hw : wrapInt ((j : Int) + 1 + 1) = ((j + 1 : Nat) : Int) + 1 := by
        rw [wrapInt_of_range _ (by omega) (by omega)]
        push_cast
        ring
      have hb : stepBodyZ spec T n (steps : Int) r c ((j : Int) + 1)
          (marchLoop spec T n steps r c s0 j) = marchLoop spec T n steps r c s0 (j + 1) := by
        have := stepBodyZ_cast spec T n steps r c (j + 1) (marchLoop spec T n steps r c s0 j)
        rw [Nat.cast_succ] at this
        rw [this]
        rfl
      simp only [marchLoopZ, if_pos hlt]
      rw [hw, hb]
      exact ih (j + 1) (by omega) (by omega)

/-- With `steps = INT_MAX` the test `k <= steps` never fails, so the time loop
never ends. -/
theorem marchLoopZ_diverges (spec : problem_spec K) (T : K) (n : Nat) (r : K) (c : Nat → K)
    (fuel : Nat) (k : Int) (s : HeatState K) (hk : k ≤ 2147483647) :
    marchLoopZ spec T n 2147483647 r c fuel k s = none := by
  induction fuel generalizing k s with
  | zero => simp [marchLoopZ, hk]
  | succ fuel ih =>
    simp only [marchLoopZ, if_pos hk]
    exact ih _ _ (wrapInt_le _)

/-- Inside the range of `int`, with the file open, the four allocations
granted and fuel for `steps` passes, `heat_implicit` with machine integers
finishes with the result of `heat_implicit` on natural numbers. -/
theorem heat_implicit_run_finished (spec : problem_spec K) (T : K) (n steps : Nat)
    (malloc_ok : Nat → Bool) (fuel : Nat) (u0 v0 d0 c0 : Nat → K) (hn : 1 ≤ n)
    (hn2 : n ≤ 2147483645) (hs : steps ≤ 2147483646)
    (hm : ∀ i, i < 4 → malloc_ok i = true) (hf : steps ≤ fuel) :
    heat_implicit_run spec T (n : Int) (steps : Int) true malloc_ok fuel u0 v0 d0 c0 =
      some (Outcome.finished
        { file := (heatLoop spec T n steps u0 v0 d0 c0 steps).out ++ [Line.close],
          err := get_error spec (heatLoop spec T n steps u0 v0 d0 c0 steps).u n T }) := by
  have w1 : wrapInt ((n : Int) + 2) = (n : Int) + 2 := wrapInt_of_range _ (by omega) (by omega)
  have w2 : wrapInt ((steps : Int) + 1) = (steps : Int) + 1 :=
    wrapInt_of_range _ (by omega) (by omega)
  have w3 : wrapInt ((n : Int) - 1) = (n : Int) - 1 := wrapInt_of_range _ (by omega) (by omega)
  have b1 := vectorBytes_of_range ((n : Int) + 2) (by omega) (by omega)
  have b2 := vectorBytes_of_range (n : Int) (by omega) (by omega)
  have b3 := vectorBytes_of_range ((n : Int) - 1) (by omega) (by omega)
  have hloop := marchLoopZ_eq spec T n steps (meshRatio spec T n steps)
    (heatOffDiag spec T n steps c0) (heatStart spec n steps u0 v0 d0) hs fuel 0 (by omega)
    (by omega)
  simp only [Nat.cast_zero, zero_add, marchLoop] at hloop
  simp only [heat_implicit_run, w1, w2, w3, mallocSucceeds, hm 0 (by omega), hm 1 (by omega),
    hm 2 (by omega), hm 3 (by omega), b1, b2, b3, decide_True, Bool.and_self, if_true,
    Int.toNat_ofNat, meshRatioZ_cast, plot_curveZ_cast]
  rw [plot_curveZ_zero]
  simp only [heatStart, heatOffDiag] at hloop
  rw [hloop]
  rfl

/-- Four granted allocations bound `n`: the requests for `n + 2`, `n` and
`n - 1` doubles stay below `2^63` bytes only when `1 ≤ n` and `n + 2` does
not overflow. This is why `heat_implicit_run` may go on with `n.toNat`. -/
theorem allocs_in_range (n : Int) (h1 : -2147483648 ≤ n) (h2 : n ≤ 2147483647)
    (hu : vectorBytes (wrapInt (n + 2)) < 2 ^ 63) (hd : vectorBytes n < 2 ^ 63)
    (hc : vectorBytes (wrapInt (n - 1)) < 2 ^ 63) : 1 ≤ n ∧ n ≤ 2147483645 := by
  simp only [vectorBytes, wrapInt] at hu hd hc
  norm_num at hu hd hc
  omega

/-- C5, as stated, fails in two ways. With `n = 2147483645` and `steps = 1`
the file opens and the header `MESH 2147483647 2` is written, but when
`malloc` refuses the vectors the process exits and the file holds no data
line. With `steps = 2147483647` the `int` value `steps + 1` printed in the
header is `-2147483648`, and the time loop never ends. -/
theorem mesh_shape_counterexample :
    heat_implicit_run coldStart 1 2147483645 1 true (fun _ => false) 1
        (fun _ => 0) (fun _ => 0) (fun _ => 0) (fun _ => 0) =
      some (Outcome.exited [Line.comment, Line.appearance, Line.mesh 2147483647 2]) ∧
    (dataLines ([Line.comment, Line.appearance, Line.mesh 2147483647 2] : List (Line ℚ))).length
      = 0 ∧
    heat_implicit_run coldStart 1 1 2147483647 true (fun _ => false) 1
        (fun _ => 0) (fun _ => 0) (fun _ => 0) (fun _ => 0) =
      some (Outcome.exited [Line.comment, Line.appearance, Line.mesh 3 (-2147483648)]) ∧
    ∀ fuel, heat_implicit_run coldStart 1 1 2147483647 true (fun _ => true) fuel
        (fun _ => 0) (fun _ => 0) (fun _ => 0) (fun _ => 0) = none := by
  refine ⟨?_, ?_, ?_, ?_⟩
  · simp [heat_implicit_run, mallocSucceeds, wrapInt]
  · simp [dataLines, Line.isData]
  · simp [heat_implicit_run, mallocSucceeds, wrapInt]
  · intro fuel
    have b1 : vectorBytes (wrapInt ((1 : Int) + 2)) < 2 ^ 63 := by
      rw [wrapInt_of_range _ (by norm_num) (by norm_num)]
      exact vectorBytes_of_range _ (by norm_num) (by norm_num)
    have b2 : vectorBytes (1 : Int) < 2 ^ 63 :=
      vectorBytes_of_range _ (by norm_num) (by norm_num)
    have b3 : vectorBytes (wrapInt ((1 : Int) - 1)) < 2 ^ 63 := by
      rw [wrapInt_of_range _ (by norm_num) (by norm_num)]
      exact vectorBytes_of_range _ (by norm_num) (by norm_num)
    simp only [heat_implicit_run, mallocSucceeds, b1, b2, b3, decide_True, Bool.and_self,
      if_true]
    rw [marchLoopZ_diverges _ _ _ _ _ fuel 1 _ (by norm_num)]

/-- C5, amended: for `n ≥ 1` and `steps ≥ 0` with `n + 2` and `steps + 1`
inside the range of `int`, when the output file opens and the four
allocations are granted, `heat_implicit` writes the header `MESH n+2 steps+1`
and after it exactly `steps + 1` row blocks of exactly `n + 2` data lines
each, so `(n + 2) * (steps + 1)` data lines in all (`steps = 0` included);
the run ends once the fuel covers the `steps` passes. When an allocation is
refused the process exits with the three header lines alone in the file. -/
theorem heat_implicit_run_mesh_shape (spec : problem_spec K) (T : K) (n steps : Nat)
    (malloc_ok : Nat → Bool) (fuel : Nat) (u0 v0 d0 c0 : Nat → K) (hn : 1 ≤ n)
    (hn2 : n + 2 ≤ 2147483647) (hs : steps + 1 ≤ 2147483647) (hf : steps ≤ fuel) :
    ((∀ i, i < 4 → malloc_ok i = true) →
      ∃ (res : HeatResult K) (blocks : List (List (Line K))),
        heat_implicit_run spec T (n : Int) (steps : Int) true malloc_ok fuel u0 v0 d0 c0 =
          some (Outcome.finished res) ∧
        res.file = [Line.comment, Line.appearance,
            Line.mesh ((n : Int) + 2) ((steps : Int) + 1)] ++ blocks.flatten ++ [Line.close] ∧
        blocks.length = steps + 1 ∧
        (∀ blk ∈ blocks, blk.length = n + 2 ∧ ∀ l ∈ blk, l.isData = true) ∧
        (dataLines res.file).length = (n + 2) * (steps + 1)) ∧
    ((∃ i, i < 4 ∧ malloc_ok i = false) →
      heat_implicit_run spec T (n : Int) (steps : Int) true malloc_ok fuel u0 v0 d0 c0 =
        some (Outcome.exited [Line.comment, Line.appearance,
          Line.mesh ((n : Int) + 2) ((steps : Int) + 1)])) := by
  constructor
  · intro hm
    refine ⟨_, (List.range (steps + 1)).map fun i =>
        plot_curve (heatLoop spec T n steps u0 v0 d0 c0 i).u n steps i,
      heat_implicit_run_finished spec T n steps malloc_ok fuel u0 v0 d0 c0 hn (by omega)
        (by omega) hm hf, ?_, ?_, ?_, ?_⟩
    · simp only [heatLoop_out]
    · simp
    · intro blk hblk
      simp only [List.mem_map] at hblk
      obtain ⟨i, _, rfl⟩ := hblk
      exact ⟨plot_curve_length _ _ _ _, fun l hl => plot_curve_isData _ _ _ _ l hl⟩
    · simp only []
      rw [heat_dataLines, blocks_length _ (n + 2) (fun i => plot_curve_length _ _ _ _)]
      ring
  · rintro ⟨i, hi, hfalse⟩
    have w1 : wrapInt ((n : Int) + 2) = (n : Int) + 2 := wrapInt_of_range _ (by omega) (by omega)
    have w2 : wrapInt ((steps : Int) + 1) = (steps : Int) + 1 :=
      wrapInt_of_range _ (by omega) (by omega)
    have hcond : (mallocSucceeds malloc_ok 0 (vectorBytes ((n : Int) + 2)) &&
        mallocSucceeds malloc_ok 1 (vectorBytes ((n : Int) + 2)) &&
        mallocSucceeds malloc_ok 2 (vectorBytes (n : Int)) &&
        mallocSucceeds malloc_ok 3 (vectorBytes (wrapInt ((n : Int) - 1)))) = false := by
      have : i = 0 ∨ i = 1 ∨ i = 2 ∨ i = 3 := by omega
      rcases this with e | e | e | e <;> subst e <;> simp [mallocSucceeds, hfalse]
    simp only [heat_implicit_run, w1, w2, hcond, if_true]
    rfl

theorem heat_implicit_run_mesh_shape_witness :
    1 ≤ 1 ∧ 1 + 2 ≤ 2147483647 ∧ 0 + 1 ≤ 2147483647 ∧ 0 ≤ 0 ∧
    (∀ i, i < 4 → (fun _ : Nat => true) i = true) ∧
    ∃ (res : HeatResult ℚ) (blocks : List (List (Line ℚ))),
      heat_implicit_run coldStart 1 ((1 : Nat) : Int) ((0 : Nat) : Int) true (fun _ => true) 0
        (fun _ => 0) (fun _ => 0) (fun _ => 0) (fun _ => 0) = some (Outcome.finished res) ∧
      res.file = [Line.comment, Line.appearance,
          Line.mesh (((1 : Nat) : Int) + 2) (((0 : Nat) : Int) + 1)] ++ blocks.flatten ++
            [Line.close] ∧
      blocks.length = 0 + 1 ∧
      (∀ blk ∈ blocks, blk.length = 1 + 2 ∧ ∀ l ∈ blk, l.isData = true) ∧
      (dataLines res.file).length = (1 + 2) * (0 + 1) :=
  ⟨by decide, by decide, by decide, by decide, fun _ _ => rfl,
    (heat_implicit_run_mesh_shape coldStart 1 1 0 (fun _ => true) 0 (fun _ => 0) (fun _ => 0)
      (fun _ => 0) (fun _ => 0) (by decide) (by decide) (by decide) (by decide)).1
      (fun _ _ => rfl)⟩

end HeatImplicit


